import Mathlib

/-!
# NetSimulyzer chart replay engine

A shallow embedding of `src/window/chart/ChartManager.cpp`: the series registry, the
forward event queue, the undo stack, and the two drains `timeAdvanced` / `timeRewound`
driven by `timeChanged`.

Conventions of the embedding

* `qreal` / `double` values are exact rationals (`ℚ`); `parser::nanoseconds` is `Int`.
* A Qt series (`QXYSeries`) is the list of its points, in order.
* An axis object is the record of its kind and its two bounds; `setMin` / `setMax`
  assign the bound they name.
* `std::deque` `events` is a list whose head is `front()`.
* `std::deque` `undoEvents` is only ever used through `emplace_back`, `back`,
  `pop_back`, `empty` and `clear`; it is a list whose head is `back()` (the top).
* The registry `series` is an association list in iteration order; `series[id]`
  resolves to the first entry with that key.
* A run that dereferences a missing or wrongly typed registry entry, or removes a
  point at an index outside the series, has no defined result: `none`.
* The headers `ChartManager.h` and the parser model are not among the sources; the
  structures below keep the members that `ChartManager.cpp` reads and writes.
* The chart widgets are not part of the state; a call of `std::abort()` is the error
  value `Fatal.abort`.
-/

namespace netsimulyzer

/-! ## Parser model (the types used by the chart manager) -/

namespace parser

/-- Simulation time stamp, `parser::nanoseconds`. -/
abbrev nanoseconds := Int

/-- One sample of an XY series, `parser::XYPoint`. -/
structure XYPoint where
  x : ℚ
  y : ℚ
deriving DecidableEq, Repr

/-- Modelled from the spec: the scale of a value axis, `parser::ValueAxis::Scale`,
declared in a header that is not among the sources. The source names `Linear`; the other
scale is the logarithmic one of the data model. -/
inductive ValueAxis.Scale where
  | Linear
  | Logarithmic
deriving DecidableEq, Repr

/-- Modelled from the spec: the bound mode of a value axis,
`parser::ValueAxis::BoundMode`, declared in a header that is not among the sources. The
source names `HighestValue`; the other mode is the `Fixed` of the data model. -/
inductive ValueAxis.BoundMode where
  | Fixed
  | HighestValue
deriving DecidableEq, Repr

/-- Declared value axis of a series or collection, `parser::ValueAxis`. -/
structure ValueAxis where
  name : String
  min : ℚ
  max : ℚ
  scale : ValueAxis.Scale
  boundMode : ValueAxis.BoundMode
deriving DecidableEq, Repr

/-- One named category of a category axis. -/
structure Category where
  id : Nat
  name : String
deriving DecidableEq, Repr

/-- Declared category axis, `parser::CategoryAxis`. -/
structure CategoryAxis where
  name : String
  values : List Category
deriving DecidableEq, Repr

/-- Declared XY series, `parser::XYSeries` (presentation-only fields left out). -/
structure XYSeries where
  id : Nat
  name : String
  visible : Bool
  xAxis : ValueAxis
  yAxis : ValueAxis
deriving DecidableEq, Repr

/-- Declared collection of XY series, `parser::SeriesCollection`. -/
structure SeriesCollection where
  id : Nat
  name : String
  series : List Nat
  xAxis : ValueAxis
  yAxis : ValueAxis
deriving DecidableEq, Repr

/-- Declared category series, `parser::CategoryValueSeries`. -/
structure CategoryValueSeries where
  id : Nat
  name : String
  visible : Bool
  xAxis : ValueAxis
  yAxis : CategoryAxis
  autoUpdate : Bool
  autoUpdateInterval : nanoseconds
  autoUpdateIncrement : ℚ
deriving DecidableEq, Repr

/-- Event `parser::XYSeriesAddValue`: append one point. -/
structure XYSeriesAddValue where
  time : nanoseconds
  seriesId : Nat
  point : XYPoint
deriving DecidableEq, Repr

/-- Event `parser::XYSeriesAddValues`: append a batch of points. -/
structure XYSeriesAddValues where
  time : nanoseconds
  seriesId : Nat
  points : List XYPoint
deriving DecidableEq, Repr

/-- Event `parser::XYSeriesClear`: remove every point. -/
structure XYSeriesClear where
  time : nanoseconds
  seriesId : Nat
deriving DecidableEq, Repr

/-- Event `parser::CategorySeriesAddValue`: append one category sample. -/
structure CategorySeriesAddValue where
  time : nanoseconds
  seriesId : Nat
  value : ℚ
  category : Nat
deriving DecidableEq, Repr

/-- The variant `parser::ChartEvent`. -/
inductive ChartEvent where
  | addValue (e : XYSeriesAddValue)
  | addValues (e : XYSeriesAddValues)
  | clear (e : XYSeriesClear)
  | categoryAddValue (e : CategorySeriesAddValue)
deriving DecidableEq, Repr

/-- Every alternative of `ChartEvent` has a `time`. -/
def ChartEvent.time : ChartEvent → nanoseconds
  | .addValue e => e.time
  | .addValues e => e.time
  | .clear e => e.time
  | .categoryAddValue e => e.time

/-- Every alternative of `ChartEvent` has a `seriesId`. -/
def ChartEvent.seriesId : ChartEvent → Nat
  | .addValue e => e.seriesId
  | .addValues e => e.seriesId
  | .clear e => e.seriesId
  | .categoryAddValue e => e.seriesId

end parser

/-! ## Qt objects held by the ties -/

/-- A point of a Qt series, `QPointF`. -/
structure QPointF where
  x : ℚ
  y : ℚ
deriving DecidableEq, Repr

/-- Dynamic type of an axis object behind a `QAbstractAxis *`. -/
inductive AxisKind where
  | ValueAxis
  | LogValueAxis
  | Other
deriving DecidableEq, Repr

/-- An axis object: its dynamic type and its current range. -/
structure QAbstractAxis where
  kind : AxisKind
  min : ℚ
  max : ℚ
deriving DecidableEq, Repr

/-- The category axis object of a category series, `QCategoryAxis`. -/
structure QCategoryAxis where
  min : ℚ
  max : ℚ
  categories : List (String × Nat)
deriving DecidableEq, Repr

/-- Member `QXYSeries::append(x, y)`: the point goes to the end. -/
def QXYSeries.append (points : List QPointF) (x y : ℚ) : List QPointF :=
  points ++ [{ x := x, y := y }]

/-- Member `QXYSeries::remove(index)`: removes the point at `index`; an index outside
the series has no defined result. -/
def QXYSeries.remove (points : List QPointF) (index : Int) : Option (List QPointF) :=
  if 0 ≤ index ∧ index < points.length then some (points.eraseIdx index.toNat) else none

/-- Member `QXYSeries::removePoints(index, count)`: removes `count` points starting at
`index`; nothing happens for a count of zero, and the result is not defined for a range
outside the series. -/
def QXYSeries.removePoints (points : List QPointF) (index : Int) (count : Nat) :
    Option (List QPointF) :=
  if count = 0 then some points
  else if 0 ≤ index ∧ index + count ≤ points.length then
    some (points.take index.toNat ++ points.drop (index.toNat + count))
  else none

/-! ## undo records -/

namespace undo

/-- Undo record of an applied `XYSeriesAddValue`. -/
structure XYSeriesAddValue where
  event : parser.XYSeriesAddValue
deriving DecidableEq, Repr

/-- Undo record of an applied `XYSeriesAddValues`. -/
structure XYSeriesAddValues where
  event : parser.XYSeriesAddValues
deriving DecidableEq, Repr

/-- Undo record of an applied `XYSeriesClear`, with the points that were cleared. -/
structure XYSeriesClear where
  event : parser.XYSeriesClear
  points : List QPointF
deriving DecidableEq, Repr

/-- Undo record of an applied (real or fabricated) `CategorySeriesAddValue`. -/
structure CategorySeriesAddValue where
  event : parser.CategorySeriesAddValue
deriving DecidableEq, Repr

end undo

/-- The variant `UndoEvent`. -/
inductive UndoEvent where
  | addValue (e : undo.XYSeriesAddValue)
  | addValues (e : undo.XYSeriesAddValues)
  | clear (e : undo.XYSeriesClear)
  | categoryAddValue (e : undo.CategorySeriesAddValue)
deriving DecidableEq, Repr

/-- The original event kept inside an undo record (`e.event`). -/
def UndoEvent.event : UndoEvent → parser.ChartEvent
  | .addValue e => .addValue e.event
  | .addValues e => .addValues e.event
  | .clear e => .clear e.event
  | .categoryAddValue e => .categoryAddValue e.event

/-! ## Ties -/

/-- Tie of an XY series: model, Qt series and the two axis objects. -/
structure XYSeriesTie where
  model : parser.XYSeries
  qtSeries : List QPointF
  xAxis : QAbstractAxis
  yAxis : QAbstractAxis
deriving DecidableEq, Repr

/-- Tie of a collection: model and the two axis objects, no series of its own. -/
structure SeriesCollectionTie where
  model : parser.SeriesCollection
  xAxis : QAbstractAxis
  yAxis : QAbstractAxis
deriving DecidableEq, Repr

/-- Tie of a category series. -/
structure CategoryValueTie where
  model : parser.CategoryValueSeries
  qtSeries : List QPointF
  xAxis : QAbstractAxis
  yAxis : QCategoryAxis
  lastUpdatedTime : parser.nanoseconds
deriving DecidableEq, Repr

/-- The variant `ChartManager::TieVariant`. -/
inductive TieVariant where
  | xy (tie : XYSeriesTie)
  | collection (tie : SeriesCollectionTie)
  | category (tie : CategoryValueTie)
deriving DecidableEq, Repr

/-- Kind of entry offered by the series dropdown, `ChartManager::SeriesType`. -/
inductive SeriesType where
  | XY
  | Collection
  | CategoryValue
deriving DecidableEq, Repr

/-- One entry of the series dropdown, `ChartManager::DropdownValue`. -/
structure DropdownValue where
  name : String
  type : SeriesType
  id : Nat
deriving DecidableEq, Repr

/-- The replay state owned by a `ChartManager`. -/
structure ChartManager where
  series : List (Nat × TieVariant)
  events : List parser.ChartEvent
  undoEvents : List UndoEvent
  dropdownElements : List DropdownValue
deriving DecidableEq, Repr

/-! ## Registry access -/

/-- Lookup `series.find(id)`: the tie stored under `id`, when there is one. -/
def findSeries : List (Nat × TieVariant) → Nat → Option TieVariant
  | [], _ => none
  | (key, value) :: rest, id => if key = id then some value else findSeries rest id

/-- Write through the reference `series[id]`: replaces the tie stored under `id`. -/
def setSeries : List (Nat × TieVariant) → Nat → TieVariant → List (Nat × TieVariant)
  | [], _, _ => []
  | (key, value) :: rest, id, tie =>
    if key = id then (key, tie) :: rest else (key, value) :: setSeries rest id tie

/-- Insertion `series.emplace(id, tie)`: inserts only when the key is not present. -/
def emplaceSeries (series : List (Nat × TieVariant)) (id : Nat) (tie : TieVariant) :
    List (Nat × TieVariant) :=
  match findSeries series id with
  | some _ => series
  | none => series ++ [(id, tie)]

/-! ## `updateRange` and range propagation -/

/-- The anonymous-namespace function `updateRange(axis, value)`. -/
def updateRange (axis : QAbstractAxis) (value : ℚ) : QAbstractAxis :=
  let additionalScale : ℚ := 0.05
  match axis.kind with
  | .ValueAxis =>
    if value > axis.max then { axis with max := value + value * additionalScale }
    else if value < axis.min then { axis with min := value - value * additionalScale }
    else axis
  | .LogValueAxis =>
    if value > axis.max then { axis with max := value + value * additionalScale }
    else if value < axis.min then { axis with min := value - value * additionalScale }
    else axis
  | .Other => axis

/-- The guarded call `if (boundMode == HighestValue) updateRange(axis, value)`. -/
def updateTracked (mode : parser.ValueAxis.BoundMode) (axis : QAbstractAxis) (value : ℚ) :
    QAbstractAxis :=
  match mode with
  | .HighestValue => updateRange axis value
  | .Fixed => axis

/-- Body of the loop of `updateCollectionRanges` for one registry entry. -/
def updateCollectionEntry (seriesId : Nat) (x y : ℚ) (entry : Nat × TieVariant) :
    Nat × TieVariant :=
  match entry.2 with
  | .collection collection =>
    if seriesId ∈ collection.model.series then
      (entry.1, .collection
        { collection with
          xAxis := updateTracked collection.model.xAxis.boundMode collection.xAxis x
          yAxis := updateTracked collection.model.yAxis.boundMode collection.yAxis y })
    else entry
  | _ => entry

/-- Member `ChartManager::updateCollectionRanges(seriesId, x, y)`. -/
def updateCollectionRanges (series : List (Nat × TieVariant)) (seriesId : Nat) (x y : ℚ) :
    List (Nat × TieVariant) :=
  series.map (updateCollectionEntry seriesId x y)

/-! ## Forward drain -/

/-- One pass of the per-point body shared by the `XYSeriesAddValue` and
`XYSeriesAddValues` branches: widen the tracked axes of the series, propagate to the
collections, append the point. The tie is the reference `s`; it is written back to the
registry by the caller. -/
def appendPoint (seriesId : Nat) (acc : XYSeriesTie × List (Nat × TieVariant))
    (point : parser.XYPoint) : XYSeriesTie × List (Nat × TieVariant) :=
  ({ acc.1 with
      xAxis := updateTracked acc.1.model.xAxis.boundMode acc.1.xAxis point.x
      yAxis := updateTracked acc.1.model.yAxis.boundMode acc.1.yAxis point.y
      qtSeries := QXYSeries.append acc.1.qtSeries point.x point.y },
    updateCollectionRanges acc.2 seriesId point.x point.y)

/-- The lambda `handleEvent` of `timeAdvanced`, visited on the front event. The Boolean
is the lambda's return value. For a key that is not registered, `series[e.seriesId]`
creates a default-constructed tie and the lambda goes on with it; the alternative and the
pointers of that tie are fixed by `ChartManager.h`, which is not among the sources, so what
the run does from there is not determined here: the result is `none`, and so is it for a
tie of the wrong kind. The statements below are about runs that return a state. -/
def handleEvent (time : parser.nanoseconds) (event : parser.ChartEvent) (st : ChartManager) :
    Option (Bool × ChartManager) :=
  if event.time > time then some (false, st)
  else
    match event with
    | .addValue e =>
      match findSeries st.series e.seriesId with
      | some (.xy s) =>
        let r := appendPoint e.seriesId (s, st.series) e.point
        some (true,
          { st with
            series := setSeries r.2 e.seriesId (.xy r.1)
            undoEvents := .addValue { event := e } :: st.undoEvents
            events := st.events.tail })
      | _ => none
    | .addValues e =>
      match findSeries st.series e.seriesId with
      | some (.xy s) =>
        let r := e.points.foldl (appendPoint e.seriesId) (s, st.series)
        some (true,
          { st with
            series := setSeries r.2 e.seriesId (.xy r.1)
            undoEvents := .addValues { event := e } :: st.undoEvents
            events := st.events.tail })
      | _ => none
    | .clear e =>
      match findSeries st.series e.seriesId with
      | some (.xy s) =>
        let points := s.qtSeries
        some (true,
          { st with
            series := setSeries st.series e.seriesId (.xy { s with qtSeries := [] })
            undoEvents := .clear { event := e, points := points } :: st.undoEvents
            events := st.events.tail })
      | _ => none
    | .categoryAddValue e =>
      match findSeries st.series e.seriesId with
      | some (.category s) =>
        let s1 : CategoryValueTie :=
          { s with
            xAxis := updateTracked s.model.xAxis.boundMode s.xAxis e.value
            lastUpdatedTime := time
            qtSeries := QXYSeries.append s.qtSeries e.value (e.category : ℚ) }
        some (true,
          { st with
            series :=
              updateCollectionRanges (setSeries st.series e.seriesId (.category s1))
                e.seriesId e.value (e.category : ℚ)
            undoEvents := .categoryAddValue { event := e } :: st.undoEvents
            events := st.events.tail })
      | _ => none

/-- The loop `while (!events.empty() && std::visit(handleEvent, events.front()))`.
Every iteration that continues pops one event, so `events.size()` iterations are
enough; `fuel` counts them. -/
def drainEvents (time : parser.nanoseconds) : Nat → ChartManager → Option ChartManager
  | 0, st => some st
  | fuel + 1, st =>
    match st.events with
    | [] => some st
    | front :: _ =>
      match handleEvent time front st with
      | none => none
      | some (false, st1) => some st1
      | some (true, st1) => drainEvents time fuel st1

/-- The conversion `static_cast<unsigned int>(y)` of a point coordinate. -/
def toUnsigned (y : ℚ) : Nat := (Rat.floor y).toNat

/-- Body of the "Fake Events" loop of `timeAdvanced` for the registry entry at
position `index`. -/
def fakeEvent (time : parser.nanoseconds) (st : ChartManager) (index : Nat) : ChartManager :=
  match st.series.get? index with
  | some (key, .category value) =>
    if value.model.autoUpdate = false then st
    else
      match value.qtSeries.getLast? with
      | none => st
      | some lastValue =>
        if time - value.lastUpdatedTime < value.model.autoUpdateInterval then st
        else
          let fake : parser.CategorySeriesAddValue :=
            { time := time
              value := lastValue.x + value.model.autoUpdateIncrement
              category := toUnsigned lastValue.y
              seriesId := key }
          let value1 : CategoryValueTie :=
            { value with
              xAxis := updateTracked value.model.xAxis.boundMode value.xAxis fake.value
              qtSeries := QXYSeries.append value.qtSeries fake.value (fake.category : ℚ)
              lastUpdatedTime := time }
          { st with
            series :=
              updateCollectionRanges (st.series.set index (key, .category value1))
                fake.seriesId fake.value (fake.category : ℚ)
            undoEvents := .categoryAddValue { event := fake } :: st.undoEvents }
  | _ => st

/-- The loop `for (auto &[key, s] : series)` that fabricates events, in iteration order. -/
def fakeEvents (time : parser.nanoseconds) (st : ChartManager) : ChartManager :=
  (List.range st.series.length).foldl (fakeEvent time) st

/-- Member `ChartManager::timeAdvanced(time)`. -/
def timeAdvanced (time : parser.nanoseconds) (st : ChartManager) : Option ChartManager :=
  (drainEvents time st.events.length st).map (fakeEvents time)

/-! ## Backward drain -/

/-- The lambda `handleUndoEvent` of `timeRewound`, visited on the top undo record. -/
def handleUndoEvent (time : parser.nanoseconds) (event : UndoEvent) (st : ChartManager) :
    Option (Bool × ChartManager) :=
  if time > event.event.time then some (false, st)
  else
    match event with
    | .addValue e =>
      match findSeries st.series e.event.seriesId with
      | some (.xy s) =>
        match QXYSeries.remove s.qtSeries ((s.qtSeries.length : Int) - 1) with
        | some points =>
          some (true,
            { st with
              series := setSeries st.series e.event.seriesId (.xy { s with qtSeries := points })
              events := .addValue e.event :: st.events })
        | none => none
      | _ => none
    | .addValues e =>
      match findSeries st.series e.event.seriesId with
      | some (.xy s) =>
        let count := e.event.points.length
        match QXYSeries.removePoints s.qtSeries ((s.qtSeries.length : Int) - count) count with
        | some points =>
          some (true,
            { st with
              series := setSeries st.series e.event.seriesId (.xy { s with qtSeries := points })
              events := .addValues e.event :: st.events })
        | none => none
      | _ => none
    | .clear e =>
      match findSeries st.series e.event.seriesId with
      | some (.xy s) =>
        some (true,
          { st with
            series := setSeries st.series e.event.seriesId (.xy { s with qtSeries := e.points })
            events := .clear e.event :: st.events })
      | _ => none
    | .categoryAddValue e =>
      match findSeries st.series e.event.seriesId with
      | some (.category s) =>
        match QXYSeries.remove s.qtSeries ((s.qtSeries.length : Int) - 1) with
        | some points =>
          some (true,
            { st with
              series :=
                setSeries st.series e.event.seriesId (.category { s with qtSeries := points })
              events := .categoryAddValue e.event :: st.events })
        | none => none
      | _ => none

/-- The loop `while (!undoEvents.empty() && std::visit(handleUndoEvent, undoEvents.back()))`
with its body `undoEvents.pop_back()`; `undoEvents.size()` iterations are enough. -/
def drainUndoEvents (time : parser.nanoseconds) : Nat → ChartManager → Option ChartManager
  | 0, st => some st
  | fuel + 1, st =>
    match st.undoEvents with
    | [] => some st
    | back :: _ =>
      match handleUndoEvent time back st with
      | none => none
      | some (false, st1) => some st1
      | some (true, st1) =>
        drainUndoEvents time fuel { st1 with undoEvents := st1.undoEvents.tail }

/-- Member `ChartManager::timeRewound(time)`. -/
def timeRewound (time : parser.nanoseconds) (st : ChartManager) : Option ChartManager :=
  drainUndoEvents time st.undoEvents.length st

/-! ## Entry points -/

/-- Member `ChartManager::timeChanged(time, increment)`. -/
def timeChanged (time increment : parser.nanoseconds) (st : ChartManager) :
    Option ChartManager :=
  if increment > 0 then timeAdvanced time st else timeRewound time st

/-- Member `ChartManager::enqueueEvents(e)`. -/
def enqueueEvents (e : List parser.ChartEvent) (st : ChartManager) : ChartManager :=
  { st with events := st.events ++ e }

/-- Member `ChartManager::reset()` (the chart widgets are not part of the state). -/
def reset (st : ChartManager) : ChartManager :=
  { st with dropdownElements := [], events := [], undoEvents := [], series := [] }

/-- Axis object created for a declared scale: `new QValueAxis` or `new QLogValueAxis`,
followed by `setRange(min, max)`. -/
def makeAxis (model : parser.ValueAxis) : QAbstractAxis :=
  match model.scale with
  | .Linear => { kind := .ValueAxis, min := model.min, max := model.max }
  | .Logarithmic => { kind := .LogValueAxis, min := model.min, max := model.max }

/-- Overload `ChartManager::makeTie(const parser::XYSeries &)`. The y axis chosen by
scale is overwritten by a fresh `QValueAxis` before its range is set. -/
def makeTieXY (model : parser.XYSeries) : XYSeriesTie :=
  { model := model
    qtSeries := []
    xAxis := makeAxis model.xAxis
    yAxis := { kind := .ValueAxis, min := model.yAxis.min, max := model.yAxis.max } }

/-- Overload `ChartManager::makeTie(const parser::SeriesCollection &)`. The y axis
chosen by scale is overwritten by a fresh `QValueAxis` before its range is set. -/
def makeTieCollection (model : parser.SeriesCollection) : SeriesCollectionTie :=
  { model := model
    xAxis := makeAxis model.xAxis
    yAxis := { kind := .ValueAxis, min := model.yAxis.min, max := model.yAxis.max } }

/-- Modelled from the spec: the default member initialiser of
`CategoryValueTie::lastUpdatedTime`, declared in `ChartManager.h`, which is not among the
sources; the replay scenarios start from `lastUpdatedTime` 0. -/
def defaultLastUpdatedTime : parser.nanoseconds := 0

/-- Overload `ChartManager::makeTie(const parser::CategoryValueSeries &)`. The member
`lastUpdatedTime` keeps its default; a fresh category axis has the range [0, 0]. -/
def makeTieCategory (model : parser.CategoryValueSeries) : CategoryValueTie :=
  { model := model
    qtSeries := []
    xAxis := makeAxis model.xAxis
    yAxis :=
      { min :=
          match model.yAxis.values.head? with
          | some front => (front.id : ℚ) - 0.1
          | none => 0
        max :=
          match model.yAxis.values.getLast? with
          | some back => (back.id : ℚ) + 0.1
          | none => 0
        categories := model.yAxis.values.map fun category => (category.name, category.id) }
    lastUpdatedTime := defaultLastUpdatedTime }

/-- Body of the first loop of `addSeries`: register one collection. -/
def addCollection (acc : ChartManager) (collection : parser.SeriesCollection) : ChartManager :=
  { acc with
    series := emplaceSeries acc.series collection.id (.collection (makeTieCollection collection))
    dropdownElements := acc.dropdownElements ++
      [{ name := collection.name, type := .Collection, id := collection.id }] }

/-- Body of the second loop of `addSeries`: register one XY series. -/
def addXYSeries (acc : ChartManager) (xy : parser.XYSeries) : ChartManager :=
  { acc with
    series := emplaceSeries acc.series xy.id (.xy (makeTieXY xy))
    dropdownElements :=
      if xy.visible then
        acc.dropdownElements ++ [{ name := xy.name, type := .XY, id := xy.id }]
      else acc.dropdownElements }

/-- Body of the third loop of `addSeries`: register one category series. -/
def addCategorySeries (acc : ChartManager) (category : parser.CategoryValueSeries) :
    ChartManager :=
  { acc with
    series := emplaceSeries acc.series category.id (.category (makeTieCategory category))
    dropdownElements :=
      if category.visible then
        acc.dropdownElements ++
          [{ name := category.name, type := .CategoryValue, id := category.id }]
      else acc.dropdownElements }

/-- Member `ChartManager::addSeries(xySeries, collections, categoryValueSeries)`: the
collections first, then the XY series, then the category series. -/
def addSeries (xySeries : List parser.XYSeries) (collections : List parser.SeriesCollection)
    (categoryValueSeries : List parser.CategoryValueSeries) (st : ChartManager) :
    ChartManager :=
  categoryValueSeries.foldl addCategorySeries
    (xySeries.foldl addXYSeries (collections.foldl addCollection st))

open parser

/-! ## Auxiliary notions used by the statements -/

/-- Kind of a registry entry: which alternative of the variant it holds. -/
def tieKind : TieVariant → SeriesType
  | .xy _ => .XY
  | .collection _ => .Collection
  | .category _ => .CategoryValue

/-- Kind of series an event is applied to by `std::get` in its handler branch. -/
def eventKind : ChartEvent → SeriesType
  | .addValue _ => .XY
  | .addValues _ => .XY
  | .clear _ => .XY
  | .categoryAddValue _ => .CategoryValue

/-- An event targets a registered series of the matching kind. -/
def targetsRegistered (series : List (Nat × TieVariant)) (e : ChartEvent) : Prop :=
  (findSeries series e.seriesId).map tieKind = some (eventKind e)

instance (series : List (Nat × TieVariant)) (e : ChartEvent) :
    Decidable (targetsRegistered series e) := by
  unfold targetsRegistered; infer_instance

/-- Sequential application: the forward handler run on each event of a list in turn,
every one of them being applied. -/
def applyEvents (time : nanoseconds) : List ChartEvent → ChartManager → Option ChartManager
  | [], st => some st
  | e :: es, st =>
    match handleEvent time e st with
    | some (true, st1) => applyEvents time es st1
    | _ => none

/-- Sequential inversion: the backward handler run on each record of a list in turn, top
first, every one of them being inverted and then popped. -/
def invertRecords (time : nanoseconds) : List UndoEvent → ChartManager → Option ChartManager
  | [], st => some st
  | r :: rs, st =>
    match handleUndoEvent time r st with
    | some (true, st1) => invertRecords time rs { st1 with undoEvents := st1.undoEvents.tail }
    | _ => none

/-- An undo record fabricated by the fake-event loop at cursor time `time`. -/
def isFabricated (time : nanoseconds) : UndoEvent → Prop
  | .categoryAddValue e => e.event.time = time
  | _ => False

/-- The sample sequence currently held by the series registered under `id`. -/
def samplesOf (st : ChartManager) (id : Nat) : Option (List QPointF) :=
  match findSeries st.series id with
  | some (.xy s) => some s.qtSeries
  | some (.category s) => some s.qtSeries
  | _ => none

/-- The declared model behind a tie, whatever its kind. -/
inductive SeriesModel where
  | xy (model : XYSeries)
  | collection (model : SeriesCollection)
  | category (model : CategoryValueSeries)
deriving DecidableEq, Repr

/-- The model a tie was made from (`tie.model`). -/
def modelOf : TieVariant → SeriesModel
  | .xy s => .xy s.model
  | .collection s => .collection s.model
  | .category s => .category s.model

/-- The static part of the registry: keys and models, in iteration order. -/
def declared (series : List (Nat × TieVariant)) : List (Nat × SeriesModel) :=
  series.map fun entry => (entry.1, modelOf entry.2)

/-- Whether a model is a category series with `autoUpdate` set. -/
def autoAdvancing : SeriesModel → Bool
  | .category model => model.autoUpdate
  | _ => false

/-- No registered category series is auto-advancing. -/
def noAutoUpdate (series : List (Nat × TieVariant)) : Prop :=
  ∀ entry ∈ declared series, autoAdvancing entry.2 = false

instance (series : List (Nat × TieVariant)) : Decidable (noAutoUpdate series) := by
  unfold noAutoUpdate; infer_instance

/-- The test of the fake-event loop on one registry entry: a category series with
`autoUpdate` set, at least one point, and `time - lastUpdatedTime` not below the interval. -/
def isDue (time : nanoseconds) (entry : Nat × TieVariant) : Bool :=
  match entry.2 with
  | .category value =>
    value.model.autoUpdate && !value.qtSeries.isEmpty &&
      !decide (time - value.lastUpdatedTime < value.model.autoUpdateInterval)
  | _ => false

/-- Number of registry entries the fake-event loop of one call finds due: the entries due
once the forward drain of that call is over (none for a backward call). -/
def fabricatedBy (call : nanoseconds × nanoseconds) (st : ChartManager) : Nat :=
  if call.2 > 0 then
    match drainEvents call.1 st.events.length st with
    | some drained => drained.series.countP (isDue call.1)
    | none => 0
  else 0

/-- Number of entries found due over a whole run of calls. -/
def fabricatedCount : List (nanoseconds × nanoseconds) → ChartManager → Nat
  | [], _ => 0
  | call :: calls, st =>
    match timeChanged call.1 call.2 st with
    | some st1 => fabricatedBy call st + fabricatedCount calls st1
    | none => 0

/-- The event sequence of a state: the original events of the undo stack from bottom to
top, followed by the forward queue from front to back. -/
def eventSequence (st : ChartManager) : List ChartEvent :=
  st.undoEvents.reverse.map UndoEvent.event ++ st.events

/-! ### Sample-level view

The part of the state a round trip is about: models and points, without axis objects and
without `lastUpdatedTime`. The handlers below are the two lambdas restricted to that part,
with the time test left to the loops. -/

/-- Sample-level view of a tie. -/
inductive SampleTie where
  | xy (model : XYSeries) (points : List QPointF)
  | collection (model : SeriesCollection)
  | category (model : CategoryValueSeries) (points : List QPointF)
deriving DecidableEq, Repr

/-- Sample-level view of one tie of the registry. -/
def sampleTie : TieVariant → SampleTie
  | .xy s => .xy s.model s.qtSeries
  | .collection s => .collection s.model
  | .category s => .category s.model s.qtSeries

/-- Sample-level view of one registry entry. -/
def sampleEntry (entry : Nat × TieVariant) : Nat × SampleTie :=
  (entry.1, sampleTie entry.2)

/-- Sample-level view of the whole state. -/
structure SampleState where
  series : List (Nat × SampleTie)
  events : List ChartEvent
  undoEvents : List UndoEvent
deriving DecidableEq, Repr

/-- The sample-level view of a manager state. -/
def sampleState (st : ChartManager) : SampleState :=
  { series := st.series.map sampleEntry
    events := st.events
    undoEvents := st.undoEvents }

/-- Lookup in the sample-level registry. -/
def sFind : List (Nat × SampleTie) → Nat → Option SampleTie
  | [], _ => none
  | (key, value) :: rest, id => if key = id then some value else sFind rest id

/-- Replacement in the sample-level registry. -/
def sSet : List (Nat × SampleTie) → Nat → SampleTie → List (Nat × SampleTie)
  | [], _, _ => []
  | (key, value) :: rest, id, tie =>
    if key = id then (key, tie) :: rest else (key, value) :: sSet rest id tie

/-- Sample-level effect of the forward handler on an event that is due. -/
def sApply (event : ChartEvent) (c : SampleState) : Option SampleState :=
  match event with
  | .addValue e =>
    match sFind c.series e.seriesId with
    | some (.xy model points) =>
      some { series := sSet c.series e.seriesId
               (.xy model (QXYSeries.append points e.point.x e.point.y))
             events := c.events.tail
             undoEvents := .addValue { event := e } :: c.undoEvents }
    | _ => none
  | .addValues e =>
    match sFind c.series e.seriesId with
    | some (.xy model points) =>
      some { series := sSet c.series e.seriesId
               (.xy model (e.points.foldl (fun acc p => QXYSeries.append acc p.x p.y) points))
             events := c.events.tail
             undoEvents := .addValues { event := e } :: c.undoEvents }
    | _ => none
  | .clear e =>
    match sFind c.series e.seriesId with
    | some (.xy model points) =>
      some { series := sSet c.series e.seriesId (.xy model [])
             events := c.events.tail
             undoEvents := .clear { event := e, points := points } :: c.undoEvents }
    | _ => none
  | .categoryAddValue e =>
    match sFind c.series e.seriesId with
    | some (.category model points) =>
      some { series := sSet c.series e.seriesId
               (.category model (QXYSeries.append points e.value (e.category : ℚ)))
             events := c.events.tail
             undoEvents := .categoryAddValue { event := e } :: c.undoEvents }
    | _ => none

/-- Sample-level effect of the backward handler on a record that is to be inverted,
together with the `pop_back` of the loop body. -/
def sUndo (record : UndoEvent) (c : SampleState) : Option SampleState :=
  match record with
  | .addValue e =>
    match sFind c.series e.event.seriesId with
    | some (.xy model points) =>
      match QXYSeries.remove points ((points.length : Int) - 1) with
      | some left =>
        some { series := sSet c.series e.event.seriesId (.xy model left)
               events := .addValue e.event :: c.events
               undoEvents := c.undoEvents.tail }
      | none => none
    | _ => none
  | .addValues e =>
    match sFind c.series e.event.seriesId with
    | some (.xy model points) =>
      match QXYSeries.removePoints points ((points.length : Int) - e.event.points.length)
          e.event.points.length with
      | some left =>
        some { series := sSet c.series e.event.seriesId (.xy model left)
               events := .addValues e.event :: c.events
               undoEvents := c.undoEvents.tail }
      | none => none
    | _ => none
  | .clear e =>
    match sFind c.series e.event.seriesId with
    | some (.xy model _) =>
      some { series := sSet c.series e.event.seriesId (.xy model e.points)
             events := .clear e.event :: c.events
             undoEvents := c.undoEvents.tail }
    | _ => none
  | .categoryAddValue e =>
    match sFind c.series e.event.seriesId with
    | some (.category model points) =>
      match QXYSeries.remove points ((points.length : Int) - 1) with
      | some left =>
        some { series := sSet c.series e.event.seriesId (.category model left)
               events := .categoryAddValue e.event :: c.events
               undoEvents := c.undoEvents.tail }
      | none => none
    | _ => none

/-- Sample-level effect of applying a list of events one after the other. -/
def sRun : List ChartEvent → SampleState → Option SampleState
  | [], c => some c
  | e :: es, c => (sApply e c).bind (sRun es)

/-- The calls of a cursor driver that starts at time `prev` and visits the given times in
order, each with `increment = new time - previous time`. -/
def cursorCalls (prev : nanoseconds) : List nanoseconds → List (nanoseconds × nanoseconds)
  | [] => []
  | t :: ts => (t, t - prev) :: cursorCalls t ts

/-- The time at which a cursor that starts at `prev` ends after visiting `times`. -/
def finalTime (prev : nanoseconds) : List nanoseconds → nanoseconds
  | [] => prev
  | t :: ts => finalTime t ts

/-- The invariant of a replay of the event list `evs` from the sample-level state `c0`, with
the cursor at `p`: a prefix `done` of `evs` has been applied, nothing in it is later than
`p`, and nothing still pending is earlier than `p`. -/
def ReplayedUpTo (evs : List ChartEvent) (c0 : SampleState) (p : nanoseconds)
    (st : ChartManager) : Prop :=
  ∃ done rest, evs = done ++ rest ∧ sRun done c0 = some (sampleState st) ∧
    (∀ e ∈ done, e.time ≤ p) ∧ (∀ e ∈ rest, p ≤ e.time)

/-- Whether an event is an `XYSeriesClear`. -/
def isClear : ChartEvent → Bool
  | .clear _ => true
  | _ => false

/-- The samples an event appends to its series, in order (none for a clear). -/
def appended : ChartEvent → List QPointF
  | .addValue e => [{ x := e.point.x, y := e.point.y }]
  | .addValues e => e.points.map fun p => { x := p.x, y := p.y }
  | .clear _ => []
  | .categoryAddValue e => [{ x := e.value, y := (e.category : ℚ) }]

/-- The sample sequence of the target series once an event is applied to the sequence
`samples`: emptied by a clear, extended at the end by every other event. -/
def samplesAfter (e : ChartEvent) (samples : List QPointF) : List QPointF :=
  match e with
  | .clear _ => []
  | _ => samples ++ appended e

/-- The sample sequence stored under `id` in the sample-level registry. -/
def sSamples (series : List (Nat × SampleTie)) (id : Nat) : Option (List QPointF) :=
  match sFind series id with
  | some (.xy _ points) => some points
  | some (.category _ points) => some points
  | _ => none

/-- The axis ranges of the entry registered under `id`, as `(min, max)` pairs: the x axis
first, then the y axis of an XY series or collection. -/
def axisRangesOf (st : ChartManager) (id : Nat) : Option (List (ℚ × ℚ)) :=
  match findSeries st.series id with
  | some (.xy s) => some [(s.xAxis.min, s.xAxis.max), (s.yAxis.min, s.yAxis.max)]
  | some (.collection s) => some [(s.xAxis.min, s.xAxis.max), (s.yAxis.min, s.yAxis.max)]
  | some (.category s) => some [(s.xAxis.min, s.xAxis.max)]
  | none => none

/-- A run of the cursor driver: consecutive `timeChanged(time, increment)` calls, in order. -/
def runCalls : List (nanoseconds × nanoseconds) → ChartManager → Option ChartManager
  | [], st => some st
  | call :: calls, st => (timeChanged call.1 call.2 st).bind (runCalls calls)

/-! ## Concrete scenarios -/

namespace Scenario

/-- A linear axis declared with the range [0, 10]. -/
def axis (mode : ValueAxis.BoundMode) : ValueAxis :=
  { name := "axis", min := 0, max := 10, scale := .Linear, boundMode := mode }

/-- A point series with id 1: fixed x axis, y axis tracking the highest value. -/
def pointSeries : XYSeries :=
  { id := 1, name := "points", visible := true, xAxis := axis .Fixed,
    yAxis := axis .HighestValue }

/-- A category series with id 2 that advances by 1 every 100 ns. -/
def categorySeries : CategoryValueSeries :=
  { id := 2, name := "states", visible := true, xAxis := axis .Fixed,
    yAxis := { name := "state", values := [{ id := 0, name := "off" }, { id := 2, name := "on" }] },
    autoUpdate := true, autoUpdateInterval := 100, autoUpdateIncrement := 1 }

/-- The empty manager. -/
def empty : ChartManager :=
  { series := [], events := [], undoEvents := [], dropdownElements := [] }

/-- A trace with the point series only and a single `AppendPoint(y = 15)` at time 5. -/
def pointTrace : ChartManager :=
  enqueueEvents [.addValue { time := 5, seriesId := 1, point := { x := 1, y := 15 } }]
    (addSeries [pointSeries] [] [] (reset empty))

/-- A trace with the category series only and one real sample at time 0. -/
def categoryTrace : ChartManager :=
  enqueueEvents [.categoryAddValue { time := 0, seriesId := 2, value := 0, category := 2 }]
    (addSeries [] [] [categorySeries] (reset empty))

/-- A trace with both series and three events at times 1, 5 and 9. -/
def mixedTrace : ChartManager :=
  enqueueEvents
    [.addValues { time := 1, seriesId := 1, points := [{ x := 1, y := 1 }, { x := 2, y := 4 }] },
     .categoryAddValue { time := 5, seriesId := 2, value := 3, category := 0 },
     .clear { time := 9, seriesId := 1 }]
    (addSeries [pointSeries] [] [categorySeries] (reset empty))

/-- The mixed trace after `timeAdvanced 9`. -/
def mixedAt9 : ChartManager := (timeAdvanced 9 mixedTrace).getD empty

/-- The mixed trace advanced to time 9 and then rewound to time 3. -/
def mixedBackAt3 : ChartManager := (timeRewound 3 mixedAt9).getD empty

/-- The state reached on the category trace by the calls (0, 1) and (100, 100). -/
def categoryAt100 : ChartManager :=
  (runCalls [(0, 1), (100, 100)] categoryTrace).getD empty

/-- A category series with id 3 that is not auto-advancing. -/
def plainCategory : CategoryValueSeries :=
  { id := 3, name := "modes", visible := true, xAxis := axis .HighestValue,
    yAxis := { name := "mode", values := [{ id := 0, name := "idle" }, { id := 1, name := "busy" }] },
    autoUpdate := false, autoUpdateInterval := 0, autoUpdateIncrement := 0 }

/-- The clear event of the plain trace. -/
def clearAt9 : XYSeriesClear := { time := 9, seriesId := 1 }

/-- A batch of two points for the point series at time 1. -/
def batchAt1 : ChartEvent :=
  .addValues { time := 1, seriesId := 1, points := [{ x := 1, y := 1 }, { x := 2, y := 4 }] }

/-- A category sample for the plain category series at time 5. -/
def modeAt5 : ChartEvent :=
  .categoryAddValue { time := 5, seriesId := 3, value := 12, category := 1 }

/-- A single point for the point series at time 7. -/
def pointAt7 : ChartEvent :=
  .addValue { time := 7, seriesId := 1, point := { x := 7, y := 7 } }

/-- The events of the plain trace, at times 1, 5, 7 and 9. -/
def plainEvents : List ChartEvent := [batchAt1, modeAt5, pointAt7, .clear clearAt9]

/-- A trace without auto-advancing series: the point series and the plain category series. -/
def plainTrace : ChartManager :=
  enqueueEvents plainEvents (addSeries [pointSeries] [] [plainCategory] (reset empty))

/-- The plain trace after `timeAdvanced 1`: the category event of time 5 is at the front. -/
def plainAt1 : ChartManager := (timeAdvanced 1 plainTrace).getD empty

/-- The plain trace after `timeAdvanced 5`: the point event of time 7 is at the front. -/
def plainAt5 : ChartManager := (timeAdvanced 5 plainTrace).getD empty

/-- The plain trace after `timeAdvanced 7`: the point series holds three samples and the
clear event of time 9 is at the front of the queue. -/
def plainAt7 : ChartManager := (timeAdvanced 7 plainTrace).getD empty

/-- The tie of the point series in `plainAt7`. -/
def pointTieAt7 : XYSeriesTie :=
  match findSeries plainAt7.series 1 with
  | some (.xy s) => s
  | _ => makeTieXY pointSeries

/-- The undo record of `clearAt9` applied to `plainAt7`: it stores the three samples. -/
def clearRecord : UndoEvent :=
  .clear { event := clearAt9, points := pointTieAt7.qtSeries }

end Scenario

/-! ## Axis view -/

/-- The axis objects held by a tie. -/
inductive TieAxes where
  | value (xAxis yAxis : QAbstractAxis)
  | category (xAxis : QAbstractAxis) (yAxis : QCategoryAxis)
deriving DecidableEq, Repr

/-- The axis objects of a tie, whatever its kind. -/
def axesOf : TieVariant → TieAxes
  | .xy s => .value s.xAxis s.yAxis
  | .collection s => .value s.xAxis s.yAxis
  | .category s => .category s.xAxis s.yAxis

/-- The axis objects of the whole registry: keys and axes, in iteration order. -/
def registryAxes (series : List (Nat × TieVariant)) : List (Nat × TieAxes) :=
  series.map fun entry => (entry.1, axesOf entry.2)

/-! ## Lookup and selection -/

/-- The way a member ends the program instead of returning. -/
inductive Fatal where
  /-- The call `std::abort()` that follows the "Series not found" message box. -/
  | abort
deriving DecidableEq, Repr

/-- Member `ChartManager::getSeries(seriesId)`: `series.find`, and on a miss the critical
message box followed by `std::abort()`. -/
def getSeries (st : ChartManager) (seriesId : Nat) : Except Fatal TieVariant :=
  match findSeries st.series seriesId with
  | none => .error .abort
  | some tie => .ok tie

/-- Member `ChartManager::seriesSelected(widget, selected)` as far as the replay state goes.
The calls of `clearSeries` only reach the chart widgets, which are not part of the state;
the access `series[selected]` inserts a default-constructed tie when the key is missing.
The constant `PlaceholderId` and the default-constructed `TieVariant` are declared in the
header, which is not among the sources: they are the parameters `placeholderId` and
`dflt`. -/
def seriesSelected (placeholderId : Nat) (dflt : TieVariant) (selected : Nat)
    (st : ChartManager) : ChartManager :=
  if selected = placeholderId then st
  else { st with series := emplaceSeries st.series selected dflt }

/-! ## The fake-event loop, entry by entry -/

/-- The event the fake-event loop builds for the registry entry `key` when it finds the
category tie `value` due and `lastValue` is the last point of its series. -/
def fabricatedEvent (time : nanoseconds) (key : Nat) (value : CategoryValueTie)
    (lastValue : QPointF) : CategorySeriesAddValue :=
  { time := time
    value := lastValue.x + value.model.autoUpdateIncrement
    category := toUnsigned lastValue.y
    seriesId := key }

/-- The undo record the fake-event loop pushes for one registry entry, if any. -/
def fabricatedRecord (time : nanoseconds) (entry : Nat × TieVariant) : Option UndoEvent :=
  match entry.2 with
  | .category value =>
    match value.qtSeries.getLast? with
    | some lastValue =>
      if isDue time entry then
        some (.categoryAddValue { event := fabricatedEvent time entry.1 value lastValue })
      else none
    | none => none
  | _ => none

/-- The registry entry as the fake-event loop leaves it: a due category tie gets the
fabricated point, its x axis widened when tracking, and `lastUpdatedTime = time`. -/
def advanceEntry (time : nanoseconds) (entry : Nat × TieVariant) : Nat × TieVariant :=
  match entry.2 with
  | .category value =>
    match value.qtSeries.getLast? with
    | some lastValue =>
      if isDue time entry then
        (entry.1, .category
          { value with
            xAxis := updateTracked value.model.xAxis.boundMode value.xAxis
              (fabricatedEvent time entry.1 value lastValue).value
            qtSeries := QXYSeries.append value.qtSeries
              (fabricatedEvent time entry.1 value lastValue).value
              ((fabricatedEvent time entry.1 value lastValue).category : ℚ)
            lastUpdatedTime := time })
      else entry
    | none => entry
  | _ => entry

/-! ## Replay invariant of an arbitrary run -/

/-- The invariant of any run of calls on the event list `evs` from the sample-level state
`c0`: the state is the one reached by applying a prefix of `evs` in order. -/
def Replayed (evs : List ChartEvent) (c0 : SampleState) (st : ChartManager) : Prop :=
  ∃ done rest, evs = done ++ rest ∧ sRun done c0 = some (sampleState st)

/-- The points a tie holds (a collection has no series of its own). -/
def tieSamples : TieVariant → List QPointF
  | .xy s => s.qtSeries
  | .collection _ => []
  | .category s => s.qtSeries

namespace Scenario

/-- Scenario A: the point trace once the event of time 5 is applied. -/
def pointAt5 : ChartManager := (timeAdvanced 5 pointTrace).getD empty

/-- Scenario A: the point trace advanced to time 5 and then rewound to time 0. -/
def pointBackAt0 : ChartManager := (timeRewound 0 pointAt5).getD empty

/-- Scenario C: series A with id 1, both axes fixed at [0, 10]. -/
def fixedSeries : XYSeries :=
  { id := 1, name := "A", visible := true, xAxis := axis .Fixed, yAxis := axis .Fixed }

/-- Scenario C: series B with id 4. -/
def otherSeries : XYSeries :=
  { id := 4, name := "B", visible := true, xAxis := axis .Fixed, yAxis := axis .Fixed }

/-- Scenario C: the collection of A and B with id 5; its y axis tracks the highest value
and starts with the range [0, 10]. -/
def bothCollection : SeriesCollection :=
  { id := 5, name := "A and B", series := [1, 4], xAxis := axis .Fixed,
    yAxis := axis .HighestValue }

/-- Scenario C: a collection with id 6 that holds B only, both axes tracking. -/
def otherCollection : SeriesCollection :=
  { id := 6, name := "B only", series := [4], xAxis := axis .HighestValue,
    yAxis := axis .HighestValue }

/-- Scenario C: the event `AppendPoint` to A with y = 20, at time 5. -/
def appendToA : XYSeriesAddValue := { time := 5, seriesId := 1, point := { x := 1, y := 20 } }

/-- Scenario C: the two collections, A and B, and the event queued. -/
def collectionTrace : ChartManager :=
  enqueueEvents [.addValue appendToA]
    (addSeries [fixedSeries, otherSeries] [bothCollection, otherCollection] [] (reset empty))

/-- Scenario C once the event is applied. -/
def collectionAt5 : ChartManager := (timeAdvanced 5 collectionTrace).getD empty

/-- Scenario A: the point trace advanced to time 5 and then rewound to time 5. -/
def pointBackAt5 : ChartManager := (timeRewound 5 pointAt5).getD empty

/-- Scenario B: the category trace after the call (0, 1): the series holds the sample
(0, 2), its `lastUpdatedTime` is 0 and no event is pending. -/
def categoryAt0 : ChartManager := (timeChanged 0 1 categoryTrace).getD empty

/-- Scenario B after the single forward call to time 250. -/
def categoryAt250 : ChartManager := (timeChanged 250 250 categoryAt0).getD empty

/-- The tie of the category series in scenario B before the call to time 250. -/
def categoryTieAt0 : CategoryValueTie :=
  match findSeries categoryAt0.series 2 with
  | some (.category s) => s
  | _ => makeTieCategory categorySeries

/-- The plain trace after the calls (7, 7) and (3, -4). -/
def plainVisited : ChartManager := (runCalls [(7, 7), (3, -4)] plainTrace).getD empty

end Scenario

/-! ## Reverse membership lookup -/

/-- Member `ChartManager::inCollections(id)`: the loop over the registry that collects
`tieModel.id` of every collection whose member list contains `id`. -/
def inCollections (series : List (Nat × TieVariant)) (id : Nat) : List Nat :=
  series.foldl
    (fun collections entry =>
      match entry.2 with
      | .collection value =>
        if id ∈ value.model.series then collections ++ [value.model.id] else collections
      | _ => collections)
    []

/-- Whether a registry entry is a collection whose member list contains `id`. -/
def containsMember (id : Nat) (entry : Nat × TieVariant) : Bool :=
  match entry.2 with
  | .collection value => decide (id ∈ value.model.series)
  | _ => false

/-- The id of the model a tie was made from (`tie.model.id`). -/
def modelId : TieVariant → Nat
  | .xy s => s.model.id
  | .collection s => s.model.id
  | .category s => s.model.id

/-! ## Selection bookkeeping on the chart widgets -/

/-- Modelled from the spec: what the manager reads of a chart widget; `ChartWidget` is
declared outside the sources. `handle` stands for the pointer to the widget and
`currentSeries` is the value of `getCurrentSeries()`. -/
structure ChartWidget where
  handle : Nat
  currentSeries : Nat
deriving DecidableEq, Repr

/-- Modelled from the spec: member `ChartWidget::clearSelected()`, defined outside the
sources: the widget shows the placeholder entry again. -/
def ChartWidget.clearSelected (placeholderId : Nat) (widget : ChartWidget) : ChartWidget :=
  { widget with currentSeries := placeholderId }

/-- Member `ChartManager::clearSeries(except, id)`, run on the list `chartWidgets`. -/
def clearSeries (placeholderId : Nat) (chartWidgets : List ChartWidget) (except id : Nat) :
    List ChartWidget :=
  chartWidgets.map fun widget =>
    if widget.handle = except then widget
    else if widget.currentSeries = id then widget.clearSelected placeholderId
    else widget

/-- Member `ChartManager::seriesSelected(widget, selected)` as far as the chart widgets go
(the registry side is `seriesSelected`). The tie read through `series[selected]` is the
registered one, or the default-constructed `dflt` when the key is missing. -/
def seriesSelectedWidgets (placeholderId : Nat) (dflt : TieVariant) (widget selected : Nat)
    (st : ChartManager) (chartWidgets : List ChartWidget) : List ChartWidget :=
  if selected = placeholderId then chartWidgets
  else
    let cleared := clearSeries placeholderId chartWidgets widget selected
    match (findSeries st.series selected).getD dflt with
    | .collection tieValue =>
      tieValue.model.series.foldl
        (fun acc seriesId => clearSeries placeholderId acc widget seriesId) cleared
    | .xy tie =>
      (inCollections st.series tie.model.id).foldl
        (fun acc id => clearSeries placeholderId acc widget id) cleared
    | .category _ => cleared

/-- The ids a selection of `selected` stands for: the id itself, the member series of a
selected collection, the collections that contain a selected XY series. -/
def relatedSeries (series : List (Nat × TieVariant)) (selected : Nat) (tie : TieVariant) :
    List Nat :=
  match tie with
  | .collection tieValue => selected :: tieValue.model.series
  | .xy tieValue => selected :: inCollections series tieValue.model.id
  | .category _ => [selected]

/-! ## Views of a tie that the replay leaves alone -/

/-- A view `f` of a tie is stable when it ignores what a replay step writes: the points,
`lastUpdatedTime`, and the effect of the guarded `updateRange` calls on the axes of a
series and of a collection. -/
structure Stable {β : Type} (f : TieVariant → β) : Prop where
  collection : ∀ (seriesId : Nat) (x y : ℚ) (entry : Nat × TieVariant),
    f (updateCollectionEntry seriesId x y entry).2 = f entry.2
  xyPoint : ∀ (s : XYSeriesTie) (x y : ℚ) (p : List QPointF),
    f (.xy { s with
      xAxis := updateTracked s.model.xAxis.boundMode s.xAxis x
      yAxis := updateTracked s.model.yAxis.boundMode s.yAxis y
      qtSeries := p }) = f (.xy s)
  xyPoints : ∀ (s : XYSeriesTie) (p : List QPointF), f (.xy { s with qtSeries := p }) = f (.xy s)
  categoryPoint : ∀ (s : CategoryValueTie) (x : ℚ) (t : nanoseconds) (p : List QPointF),
    f (.category { s with
      xAxis := updateTracked s.model.xAxis.boundMode s.xAxis x
      lastUpdatedTime := t
      qtSeries := p }) = f (.category s)
  categoryPoints : ∀ (s : CategoryValueTie) (p : List QPointF),
    f (.category { s with qtSeries := p }) = f (.category s)

/-- An axis object counted only when its declared bound mode is `Fixed`. -/
def whenFixed (mode : ValueAxis.BoundMode) (axis : QAbstractAxis) : Option QAbstractAxis :=
  match mode with
  | .Fixed => some axis
  | .HighestValue => none

/-- The model of a tie together with those of its value axes that are declared `Fixed`
(x axis, then y axis; the y axis of a category series is not a value axis). -/
def fixedAxes : TieVariant → SeriesModel × Option QAbstractAxis × Option QAbstractAxis
  | .xy s =>
    (.xy s.model, whenFixed s.model.xAxis.boundMode s.xAxis,
      whenFixed s.model.yAxis.boundMode s.yAxis)
  | .collection s =>
    (.collection s.model, whenFixed s.model.xAxis.boundMode s.xAxis,
      whenFixed s.model.yAxis.boundMode s.yAxis)
  | .category s => (.category s.model, whenFixed s.model.xAxis.boundMode s.xAxis, none)

/-- The range of an axis object is the declared one. -/
def hasDeclaredRange (model : ValueAxis) (axis : QAbstractAxis) : Prop :=
  axis.min = model.min ∧ axis.max = model.max

/-- Every value axis of a tie has the declared range. -/
def atDeclaredRange : TieVariant → Prop
  | .xy s => hasDeclaredRange s.model.xAxis s.xAxis ∧ hasDeclaredRange s.model.yAxis s.yAxis
  | .collection s =>
    hasDeclaredRange s.model.xAxis s.xAxis ∧ hasDeclaredRange s.model.yAxis s.yAxis
  | .category s => hasDeclaredRange s.model.xAxis s.xAxis

/-- The member `lastUpdatedTime` of a tie; only a category tie has one. -/
def lastUpdatedOf : TieVariant → Option nanoseconds
  | .category s => some s.lastUpdatedTime
  | _ => none

/-! ## Ordering -/

/-- The target times of the forward calls of a run (`increment > 0`), in order. -/
def forwardTargets (calls : List (nanoseconds × nanoseconds)) : List nanoseconds :=
  (calls.filter fun call => decide (call.2 > 0)).map Prod.fst

/-! ## Samples and the undo stack -/

/-- The samples that the events of an undo stack (head = top) give to the series `id`
when they are replayed from the empty sequence, bottom to top. -/
def stackSamples (id : Nat) : List UndoEvent → List QPointF
  | [] => []
  | r :: below =>
    if r.event.seriesId = id then samplesAfter r.event (stackSamples id below)
    else stackSamples id below

/-- Every clear record of an undo stack (head = top) stores the samples that the records
below it give to its series. -/
def savedPoints : List UndoEvent → Prop
  | [] => True
  | r :: below =>
    (∀ c : undo.XYSeriesClear, r = .clear c → c.points = stackSamples c.event.seriesId below) ∧
      savedPoints below

/-- The samples mirror the undo stack: the part of the invariant that concerns the
registry and the stack. -/
structure MirrorCore (st : ChartManager) : Prop where
  samples : ∀ id points, samplesOf st id = some points →
    points = stackSamples id st.undoEvents
  saved : savedPoints st.undoEvents
  records : ∀ r ∈ st.undoEvents, targetsRegistered st.series r.event
  keys : (st.series.map Prod.fst).Nodup

/-- The invariant of a replay: the samples mirror the undo stack and every queued event
targets a registered series of the matching kind. -/
structure Mirrored (st : ChartManager) : Prop where
  core : MirrorCore st
  queue : ∀ e ∈ st.events, targetsRegistered st.series e

/-- What a driver does to a chart manager between `addSeries` and the next `reset`. -/
inductive Command where
  | enqueue (e : List ChartEvent)
  | changeTime (time increment : nanoseconds)
deriving DecidableEq, Repr

/-- Whether the events a command enqueues all target a registered series of the matching
kind (a time change enqueues nothing). -/
def Command.registered (series : List (Nat × TieVariant)) : Command → Bool
  | .enqueue e => e.all fun event => decide (targetsRegistered series event)
  | .changeTime _ _ => true

/-- One command: `enqueueEvents(e)` or `timeChanged(time, increment)`. -/
def runCommand (command : Command) (st : ChartManager) : Option ChartManager :=
  match command with
  | .enqueue e => some (enqueueEvents e st)
  | .changeTime time increment => timeChanged time increment st

/-- A list of commands, in order. -/
def runCommands : List Command → ChartManager → Option ChartManager
  | [], st => some st
  | command :: commands, st => (runCommand command st).bind (runCommands commands)

/-! ## Texture paths of `ModelRenderInfo::loadMaterials` -/

namespace ModelRenderInfo

/-- The constant `std::string::npos`: the largest value of `size_t`, taken as 64 bits. -/
def npos : Nat := 2 ^ 64 - 1

/-- The character `'\\'` searched for by `loadMaterials`. -/
def backslash : Char := Char.ofNat 92

/-- Member `std::string::rfind(ch)`: the position of the last occurrence of `ch`, or
`npos` when there is none. -/
def rfind (s : String) (ch : Char) : Nat :=
  if s.data.reverse.indexOf ch < s.data.length then
    s.data.length - 1 - s.data.reverse.indexOf ch
  else npos

/-- Member `std::string::substr(pos)`: the characters from `pos` on; a position beyond the
size throws `std::out_of_range`. -/
def substr (s : String) (pos : Nat) : Option String :=
  if pos ≤ s.data.length then some (String.mk (s.data.drop pos)) else none

/-- The file that `loadMaterials` hands to `textureCache.load` for the diffuse texture
path `path`: `"resources/textures/" + path.substr(path.rfind('\\') + 1)`, the sum taken
in `size_t`. -/
def textureFilepath (path : String) : Option String :=
  (substr path ((rfind path backslash + 1) % 2 ^ 64)).map fun name =>
    "resources/textures/" ++ name

/-- The part of `path` after its last `'/'` character, the whole of it when there is none. -/
def afterLastSlash (path : String) : String :=
  String.mk ((path.data.reverse.takeWhile fun c => c != '/').reverse)

end ModelRenderInfo

/-! ## Scenario log (`ScenarioLogWidget.cpp`) -/

namespace parser

/-- Modelled from the spec: a declared log stream, `parser::LogStream`, declared in a
header that is not among the sources; the members kept are those `ScenarioLogWidget.cpp`
reads (the colour only sets the text format). -/
structure LogStream where
  id : Nat
  name : String
  visible : Bool
deriving DecidableEq, Repr

/-- Modelled from the spec: the log event `parser::StreamAppendEvent`, declared in a header
that is not among the sources, with the members the widget reads. The time stamp is a
`double`, the same type as the cursor time of `ScenarioLogWidget::timeAdvanced`. -/
structure StreamAppendEvent where
  time : ℚ
  streamId : Nat
  value : String
deriving DecidableEq, Repr

/-- The variant `parser::LogEvent`: the only alternative `handleEvent` accepts is the
stream append event. -/
abbrev LogEvent := StreamAppendEvent

end parser

/-- The line break character. -/
def newline : Char := Char.ofNat 10

/-- A stream and its document, `ScenarioLogWidget::LogStreamPair`; the document is the
text it holds. -/
structure LogStreamPair where
  model : parser.LogStream
  name : String
  data : String
deriving DecidableEq, Repr

/-- Modelled from the spec: member `LogStreamPair::print(value)`, defined in the header
that is not among the sources: the value goes to the end of the stream document. -/
def LogStreamPair.print (pair : LogStreamPair) (value : String) : LogStreamPair :=
  { pair with data := pair.data ++ value }

/-- The state of a `ScenarioLogWidget`: the stream map in iteration order, the event queue
(head = `front()`), the text of the unified document, whose cursor stays at the end, and
the id of the last writer. -/
structure ScenarioLogWidget where
  streams : List (Nat × LogStreamPair)
  events : List parser.LogEvent
  unifiedStreamDocument : String
  lastUnifiedWriter : Nat
deriving DecidableEq, Repr

namespace ScenarioLogWidget

/-- Lookup `streams.find(id)`. -/
def findStream : List (Nat × LogStreamPair) → Nat → Option LogStreamPair
  | [], _ => none
  | (key, value) :: rest, id => if key = id then some value else findStream rest id

/-- Write through the reference `iter->second`. -/
def setStream : List (Nat × LogStreamPair) → Nat → LogStreamPair → List (Nat × LogStreamPair)
  | [], _, _ => []
  | (key, value) :: rest, id, pair =>
    if key = id then (key, pair) :: rest else (key, value) :: setStream rest id pair

/-- Member `QTextCursor::atBlockStart()` for the cursor at the end of the document: the
document is empty or ends with a line break. -/
def atBlockStart (document : String) : Bool :=
  match document.data.getLast? with
  | none => true
  | some c => c == newline

/-- The part of `printToUnifiedLog` after the test for several lines: a line break when
the writer changes in the middle of a line, the prompt at the start of a line, then the
value. -/
def printSingle (pair : LogStreamPair) (value : String) (w : ScenarioLogWidget) :
    ScenarioLogWidget :=
  let id := pair.model.id
  let prompt := "[" ++ pair.name ++ "]: "
  let document1 :=
    if id ≠ w.lastUnifiedWriter ∧ atBlockStart w.unifiedStreamDocument = false then
      w.unifiedStreamDocument ++ String.singleton newline
    else w.unifiedStreamDocument
  let document2 := if atBlockStart document1 then document1 ++ prompt else document1
  { w with unifiedStreamDocument := document2 ++ value, lastUnifiedWriter := id }

/-- Member `ScenarioLogWidget::printToUnifiedLog(pair, value)`. A value with more than one
line break is split at the line breaks and every part is printed with a line break added;
such a part holds one line break, so the nested call takes the single-line path. -/
def printToUnifiedLog (pair : LogStreamPair) (value : String) (w : ScenarioLogWidget) :
    ScenarioLogWidget :=
  if value.data.count newline > 1 then
    (value.splitOn (String.singleton newline)).foldl
      (fun acc line => printSingle pair (line ++ String.singleton newline) acc) w
  else printSingle pair value w

/-- Member `ScenarioLogWidget::handleEvent(e)`: nothing for a stream that is not
registered, else the value is printed to the stream and to the unified log. -/
def handleEvent (e : parser.StreamAppendEvent) (w : ScenarioLogWidget) : ScenarioLogWidget :=
  match findStream w.streams e.streamId with
  | none => w
  | some pair =>
    printToUnifiedLog (pair.print e.value) e.value
      { w with streams := setStream w.streams e.streamId (pair.print e.value) }

/-- The lambda `handle` of `timeAdvanced`, visited on the front event; the Boolean is its
return value. -/
def handle (time : ℚ) (e : parser.LogEvent) (w : ScenarioLogWidget) :
    Bool × ScenarioLogWidget :=
  if time < e.time then (false, w)
  else
    let w1 := handleEvent e w
    (true, { w1 with events := w1.events.tail })

/-- The loop `while (!events.empty() && std::visit(handle, events.front()))`; every
iteration that continues pops one event, `fuel` counts the iterations. -/
def drain (time : ℚ) : Nat → ScenarioLogWidget → ScenarioLogWidget
  | 0, w => w
  | fuel + 1, w =>
    match w.events with
    | [] => w
    | front :: _ =>
      match handle time front w with
      | (false, w1) => w1
      | (true, w1) => drain time fuel w1

/-- Member `ScenarioLogWidget::timeAdvanced(time)`. -/
def timeAdvanced (time : ℚ) (w : ScenarioLogWidget) : ScenarioLogWidget :=
  drain time w.events.length w

end ScenarioLogWidget

namespace Scenario

/-- A logarithmic axis declared with the range [1, 1000]. -/
def logAxis : ValueAxis :=
  { name := "log", min := 1, max := 1000, scale := .Logarithmic, boundMode := .Fixed }

/-- A point series whose two axes are declared logarithmic. -/
def logSeries : XYSeries :=
  { id := 8, name := "log-log", visible := true, xAxis := logAxis, yAxis := logAxis }

/-- A collection whose two axes are declared logarithmic. -/
def logCollection : SeriesCollection :=
  { id := 9, name := "log-log collection", series := [8], xAxis := logAxis, yAxis := logAxis }

/-- A log widget with the streams 1 and 2 and three events: for stream 1 at time 1, for
the unregistered stream 7 at time 2, for stream 2 at time 6. -/
def logWidget : ScenarioLogWidget :=
  { streams :=
      [(1, { model := { id := 1, name := "node", visible := true }, name := "node", data := "" }),
       (2, { model := { id := 2, name := "app", visible := true }, name := "app", data := "" })]
    events :=
      [{ time := 1, streamId := 1, value := "up" },
       { time := 2, streamId := 7, value := "lost" },
       { time := 6, streamId := 2, value := "sent" }]
    unifiedStreamDocument := ""
    lastUnifiedWriter := 0 }

/-- Scenario C: five chart widgets showing the collection 5, the series 1, the series 4,
the collection 6 and the collection 5. -/
def chartWidgets : List ChartWidget :=
  [{ handle := 10, currentSeries := 5 }, { handle := 11, currentSeries := 1 },
   { handle := 12, currentSeries := 4 }, { handle := 13, currentSeries := 6 },
   { handle := 14, currentSeries := 5 }]

/-- Scenario B, one call: the category trace after the single call (250, 250), which
applies the real event stamped 0. -/
def categoryJumpTo250 : ChartManager := (timeAdvanced 250 categoryTrace).getD empty

/-- The category event of the category trace. -/
def categoryEvent : CategorySeriesAddValue :=
  { time := 0, seriesId := 2, value := 0, category := 2 }

/-- A run on the category trace with a rewind between forward calls: forward to 0 and to
100, back to 50, forward to 300. -/
def zigzagCalls : List (nanoseconds × nanoseconds) :=
  [(0, 1), (100, 100), (50, -50), (300, 250)]

/-- The state the zigzag run reaches on the category trace. -/
def categoryZigzag : ChartManager := (runCalls zigzagCalls categoryTrace).getD empty

/-- A driver run on the mixed registry (point series 1, auto-advancing category series
2): events are enqueued in two batches around forward and backward time changes. -/
def mixedCommands : List Command :=
  [.enqueue
     [.addValues { time := 1, seriesId := 1, points := [{ x := 1, y := 1 }, { x := 2, y := 4 }] },
      .categoryAddValue { time := 5, seriesId := 2, value := 3, category := 0 }],
   .changeTime 9 9,
   .enqueue [.clear { time := 200, seriesId := 1 }],
   .changeTime 250 241,
   .changeTime 100 (-150)]

/-- The mixed registry with nothing queued. -/
def mixedRegistry : ChartManager := addSeries [pointSeries] [] [categorySeries] (reset empty)

/-- The state the mixed commands reach. -/
def mixedCommanded : ChartManager := (runCommands mixedCommands mixedRegistry).getD empty

end Scenario

/-! ## Registry lemmas -/

theorem findSeries_setSeries_self (series : List (Nat × TieVariant)) (id : Nat)
    (tie old : TieVariant) (hold : findSeries series id = some old) :
    findSeries (setSeries series id tie) id = some tie := by
  induction series with
  | nil => simp [findSeries] at hold
  | cons hd tl ih =>
    obtain ⟨k, v⟩ := hd
    by_cases hkid : k = id
    · simp [setSeries, findSeries, hkid]
    · simp only [findSeries, hkid, if_false] at hold
      simp [setSeries, findSeries, hkid, ih hold]

theorem findSeries_setSeries_other (series : List (Nat × TieVariant)) (id id1 : Nat)
    (tie : TieVariant) (hne : id1 ≠ id) :
    findSeries (setSeries series id tie) id1 = findSeries series id1 := by
  induction series with
  | nil => simp [setSeries]
  | cons hd tl ih =>
    obtain ⟨k, v⟩ := hd
    by_cases hkid : k = id
    · subst hkid
      have h2 : ¬ k = id1 := fun h => hne h.symm
      simp [setSeries, findSeries, h2]
    · by_cases h1 : k = id1
      · subst h1
        simp [setSeries, findSeries, hkid]
      · simp [setSeries, findSeries, hkid, h1, ih]

theorem findSeries_setSeries_kind (series : List (Nat × TieVariant)) (id id1 : Nat)
    (tie old : TieVariant) (hold : findSeries series id = some old)
    (hk : tieKind tie = tieKind old) :
    (findSeries (setSeries series id tie) id1).map tieKind =
      (findSeries series id1).map tieKind := by
  by_cases h : id1 = id
  · subst h
    rw [findSeries_setSeries_self series id1 tie old hold, hold]
    simp [hk]
  · rw [findSeries_setSeries_other series id id1 tie h]

theorem updateCollectionEntry_fst (seriesId : Nat) (x y : ℚ) (entry : Nat × TieVariant) :
    (updateCollectionEntry seriesId x y entry).1 = entry.1 := by
  unfold updateCollectionEntry
  split
  · split <;> rfl
  · rfl

theorem updateCollectionEntry_kind (seriesId : Nat) (x y : ℚ) (entry : Nat × TieVariant) :
    tieKind (updateCollectionEntry seriesId x y entry).2 = tieKind entry.2 := by
  unfold updateCollectionEntry
  split
  · rename_i c hc
    split
    · simp [tieKind, hc]
    · rfl
  · rfl

theorem findSeries_updateCollectionRanges_kind (series : List (Nat × TieVariant))
    (seriesId : Nat) (x y : ℚ) (id : Nat) :
    (findSeries (updateCollectionRanges series seriesId x y) id).map tieKind =
      (findSeries series id).map tieKind := by
  induction series with
  | nil => rfl
  | cons hd tl ih =>
    have h1 := updateCollectionEntry_fst seriesId x y hd
    have h2 := updateCollectionEntry_kind seriesId x y hd
    obtain ⟨k, v⟩ := hd
    simp only [updateCollectionRanges, List.map_cons] at ih ⊢
    generalize updateCollectionEntry seriesId x y (k, v) = w at h1 h2
    obtain ⟨k1, v1⟩ := w
    simp only at h1 h2
    subst h1
    simp only [findSeries]
    by_cases hk : k1 = id
    · simp [hk, h2]
    · simp [hk, ih]

/-! ## The forward handler and loops -/

theorem findSeries_of_kind {series : List (Nat × TieVariant)} {id : Nat} {k : SeriesType}
    (h : (findSeries series id).map tieKind = some k) :
    ∃ old, findSeries series id = some old ∧ tieKind old = k := by
  cases hf : findSeries series id with
  | none => simp [hf] at h
  | some old => exact ⟨old, rfl, by simpa [hf] using h⟩

theorem foldl_appendPoint_kind (seriesId : Nat) (points : List XYPoint)
    (acc : XYSeriesTie × List (Nat × TieVariant)) (id : Nat) :
    (findSeries (points.foldl (appendPoint seriesId) acc).2 id).map tieKind =
      (findSeries acc.2 id).map tieKind := by
  induction points generalizing acc with
  | nil => rfl
  | cons p ps ih =>
    rw [List.foldl_cons, ih]
    exact findSeries_updateCollectionRanges_kind acc.2 seriesId p.x p.y id

/-- Shape of a successful handler call on an event that is due. -/
theorem handleEvent_applies (t : nanoseconds) (e : ChartEvent) (st : ChartManager)
    (hreg : targetsRegistered st.series e) (ht : e.time ≤ t) :
    ∃ st1 r, handleEvent t e st = some (true, st1) ∧ st1.events = st.events.tail ∧
      st1.undoEvents = r :: st.undoEvents ∧ r.event = e ∧
      st1.dropdownElements = st.dropdownElements ∧
      ∀ id, (findSeries st1.series id).map tieKind = (findSeries st.series id).map tieKind := by
  have hnot : ¬ e.time > t := not_lt.mpr ht
  obtain ⟨old, hold, hkind⟩ := findSeries_of_kind hreg
  cases e with
  | addValue e =>
    cases old with
    | xy s =>
      simp only [ChartEvent.seriesId] at hold
      simp only [handleEvent, hnot, if_false, hold]
      refine ⟨_, _, rfl, rfl, rfl, rfl, rfl, ?_⟩
      · intro id
        have h1 := findSeries_updateCollectionRanges_kind st.series e.seriesId e.point.x e.point.y
        obtain ⟨o1, ho1, hk1⟩ := findSeries_of_kind (k := .XY) (by rw [h1, hold]; rfl)
        simp only [appendPoint]
        rw [findSeries_setSeries_kind _ _ _ _ o1 ho1 (by rw [hk1]; rfl), h1]
    | collection s => simp [tieKind, eventKind] at hkind
    | category s => simp [tieKind, eventKind] at hkind
  | addValues e =>
    cases old with
    | xy s =>
      simp only [ChartEvent.seriesId] at hold
      simp only [handleEvent, hnot, if_false, hold]
      refine ⟨_, _, rfl, rfl, rfl, rfl, rfl, ?_⟩
      · intro id
        have h1 := foldl_appendPoint_kind e.seriesId e.points (s, st.series)
        obtain ⟨o1, ho1, hk1⟩ := findSeries_of_kind (k := .XY) (by rw [h1, hold]; rfl)
        simp only
        rw [findSeries_setSeries_kind _ _ _ _ o1 ho1 (by rw [hk1]; rfl), h1]
    | collection s => simp [tieKind, eventKind] at hkind
    | category s => simp [tieKind, eventKind] at hkind
  | clear e =>
    cases old with
    | xy s =>
      simp only [ChartEvent.seriesId] at hold
      simp only [handleEvent, hnot, if_false, hold]
      refine ⟨_, _, rfl, rfl, rfl, rfl, rfl, ?_⟩
      · intro id
        simp only
        exact findSeries_setSeries_kind _ _ _ _ _ hold rfl
    | collection s => simp [tieKind, eventKind] at hkind
    | category s => simp [tieKind, eventKind] at hkind
  | categoryAddValue e =>
    cases old with
    | category s =>
      simp only [ChartEvent.seriesId] at hold
      simp only [handleEvent, hnot, if_false, hold]
      refine ⟨_, _, rfl, rfl, rfl, rfl, rfl, ?_⟩
      · intro id
        simp only
        rw [findSeries_updateCollectionRanges_kind]
        exact findSeries_setSeries_kind _ _ _ _ _ hold rfl
    | xy s => simp [tieKind, eventKind] at hkind
    | collection s => simp [tieKind, eventKind] at hkind

theorem drainEvents_spec (t : nanoseconds) (fuel : Nat) :
    ∀ st : ChartManager, st.events.length ≤ fuel →
      (∀ e ∈ st.events, targetsRegistered st.series e) →
      ∃ (st1 : ChartManager) (records : List UndoEvent), drainEvents t fuel st = some st1 ∧
        applyEvents t (st.events.takeWhile fun e => decide (e.time ≤ t)) st = some st1 ∧
        st1.events = st.events.dropWhile (fun e => decide (e.time ≤ t)) ∧
        st1.undoEvents = records.reverse ++ st.undoEvents ∧
        records.map UndoEvent.event = st.events.takeWhile (fun e => decide (e.time ≤ t)) ∧
        st1.dropdownElements = st.dropdownElements ∧
        ∀ id, (findSeries st1.series id).map tieKind = (findSeries st.series id).map tieKind := by
  induction fuel with
  | zero =>
    intro st hlen _
    have hnil : st.events = [] := List.length_eq_zero.mp (Nat.le_zero.mp hlen)
    exact ⟨st, [], by simp [drainEvents], by simp [hnil, applyEvents], by simp [hnil],
      by simp, by simp [hnil], rfl, fun _ => rfl⟩
  | succ fuel ih =>
    intro st hlen hreg
    cases hev : st.events with
    | nil =>
      exact ⟨st, [], by simp [drainEvents, hev], by simp [applyEvents], by simp [hev],
        by simp, by simp, rfl, fun _ => rfl⟩
    | cons e rest =>
      by_cases hdue : e.time ≤ t
      · obtain ⟨st1, r, hh, hevs, hundo, hr, hdd, hkinds⟩ :=
          handleEvent_applies t e st (hreg e (by simp [hev])) hdue
        have hevs1 : st1.events = rest := by rw [hevs, hev]; rfl
        have hlen1 : st1.events.length ≤ fuel := by
          rw [hevs1]; rw [hev] at hlen; simpa using hlen
        have hreg1 : ∀ e1 ∈ st1.events, targetsRegistered st1.series e1 := by
          intro e1 he1
          unfold targetsRegistered
          rw [hkinds]
          exact hreg e1 (by rw [hev]; rw [hevs1] at he1; exact List.mem_cons_of_mem _ he1)
        obtain ⟨st2, records, hd, ha, hevs2, hundo2, hrec, hdd2, hkinds2⟩ := ih st1 hlen1 hreg1
        refine ⟨st2, r :: records, ?_, ?_, ?_, ?_, ?_, ?_, ?_⟩
        · simp only [drainEvents, hev, hh]; exact hd
        · simp only [List.takeWhile_cons, hdue, decide_True, if_true, applyEvents, hh]
          rw [hevs1] at ha; exact ha
        · simp only [List.dropWhile_cons, hdue, decide_True, if_true]
          rw [hevs2, hevs1]
        · rw [hundo2, hundo]; simp
        · simp only [List.map_cons, List.takeWhile_cons, hdue, decide_True, if_true, hr]
          rw [hrec, hevs1]
        · rw [hdd2, hdd]
        · intro id; rw [hkinds2, hkinds]
      · have hgt : e.time > t := not_le.mp hdue
        have hh : handleEvent t e st = some (false, st) := by
          simp [handleEvent, hgt]
        exact ⟨st, [], by simp only [drainEvents, hev, hh],
          by simp [List.takeWhile_cons, hdue, applyEvents],
          by simp [List.dropWhile_cons, hdue, hev], by simp,
          by simp [List.takeWhile_cons, hdue], rfl, fun _ => rfl⟩

theorem fakeEvent_spec (t : nanoseconds) (st : ChartManager) (i : Nat) :
    (fakeEvent t st i).events = st.events ∧
    (fakeEvent t st i).dropdownElements = st.dropdownElements ∧
    ((fakeEvent t st i).undoEvents = st.undoEvents ∨
      ∃ r, isFabricated t r ∧ (fakeEvent t st i).undoEvents = r :: st.undoEvents) := by
  unfold fakeEvent
  split
  · split
    · exact ⟨rfl, rfl, Or.inl rfl⟩
    · split
      · exact ⟨rfl, rfl, Or.inl rfl⟩
      · split
        · exact ⟨rfl, rfl, Or.inl rfl⟩
        · refine ⟨rfl, rfl, Or.inr ⟨_, ?_, rfl⟩⟩
          simp [isFabricated]
  · exact ⟨rfl, rfl, Or.inl rfl⟩

theorem foldl_fakeEvent_spec (t : nanoseconds) (l : List Nat) (st : ChartManager) :
    (l.foldl (fakeEvent t) st).events = st.events ∧
    (l.foldl (fakeEvent t) st).dropdownElements = st.dropdownElements ∧
    ∃ synth, (∀ r ∈ synth, isFabricated t r) ∧
      (l.foldl (fakeEvent t) st).undoEvents = synth ++ st.undoEvents := by
  induction l generalizing st with
  | nil => exact ⟨rfl, rfl, [], by simp, by simp⟩
  | cons i l ih =>
    obtain ⟨h1, h2, synth, hs, h3⟩ := ih (fakeEvent t st i)
    obtain ⟨g1, g2, g3⟩ := fakeEvent_spec t st i
    rw [List.foldl_cons]
    refine ⟨h1.trans g1, h2.trans g2, ?_⟩
    rcases g3 with g3 | ⟨r, hr, g3⟩
    · exact ⟨synth, hs, by rw [h3, g3]⟩
    · refine ⟨synth ++ [r], ?_, by rw [h3, g3]; simp⟩
      intro r1 hr1
      rcases List.mem_append.mp hr1 with h | h
      · exact hs r1 h
      · rw [List.mem_singleton.mp h]; exact hr

/-! ## The backward handler and loop -/

theorem handleUndoEvent_false (t : nanoseconds) (r : UndoEvent) (st st1 : ChartManager)
    (h : handleUndoEvent t r st = some (false, st1)) : st1 = st ∧ r.event.time < t := by
  unfold handleUndoEvent at h
  split at h
  · rename_i hgt
    simp only [Option.some.injEq, Prod.mk.injEq, true_and] at h
    exact ⟨h.symm, hgt⟩
  · cases r <;> simp only at h <;> (repeat' split at h) <;> simp at h

theorem handleUndoEvent_true (t : nanoseconds) (r : UndoEvent) (st st1 : ChartManager)
    (h : handleUndoEvent t r st = some (true, st1)) :
    t ≤ r.event.time ∧ st1.events = r.event :: st.events ∧ st1.undoEvents = st.undoEvents ∧
      st1.dropdownElements = st.dropdownElements := by
  unfold handleUndoEvent at h
  split at h
  · simp at h
  · rename_i hgt
    have hle : t ≤ r.event.time := not_lt.mp hgt
    cases r <;> simp only at h <;> (repeat' split at h) <;>
      simp only [Option.some.injEq, Prod.mk.injEq, true_and, reduceCtorEq] at h <;>
      (subst h; exact ⟨hle, rfl, rfl, rfl⟩)

theorem drainUndoEvents_spec (t : nanoseconds) (fuel : Nat) :
    ∀ st st1 : ChartManager, st.undoEvents.length ≤ fuel →
      drainUndoEvents t fuel st = some st1 →
      st1.undoEvents = st.undoEvents.dropWhile (fun r => decide (t ≤ r.event.time)) ∧
      st1.events =
        ((st.undoEvents.takeWhile fun r => decide (t ≤ r.event.time)).reverse.map
          UndoEvent.event) ++ st.events ∧
      st1.dropdownElements = st.dropdownElements := by
  induction fuel with
  | zero =>
    intro st st1 hlen h
    have hnil : st.undoEvents = [] := List.length_eq_zero.mp (Nat.le_zero.mp hlen)
    simp only [drainUndoEvents, Option.some.injEq] at h
    subst h
    simp [hnil]
  | succ fuel ih =>
    intro st st1 hlen h
    cases hu : st.undoEvents with
    | nil =>
      simp only [drainUndoEvents, hu, Option.some.injEq] at h
      subst h
      simp [hu]
    | cons r rest =>
      simp only [drainUndoEvents, hu] at h
      cases hh : handleUndoEvent t r st with
      | none => simp [hh] at h
      | some res =>
        obtain ⟨b, st2⟩ := res
        cases b with
        | false =>
          simp only [hh, Option.some.injEq] at h
          obtain ⟨h2, hlt⟩ := handleUndoEvent_false t r st st2 hh
          subst h; subst h2
          have hnd : ¬ t ≤ r.event.time := not_le.mpr hlt
          simp [List.dropWhile_cons, List.takeWhile_cons, hnd, hu]
        | true =>
          simp only [hh] at h
          obtain ⟨hle, hev, hun, hdd⟩ := handleUndoEvent_true t r st st2 hh
          have hlen2 : ({ st2 with undoEvents := st2.undoEvents.tail } : ChartManager).undoEvents.length
              ≤ fuel := by
            simp only [hun, hu, List.tail_cons]
            rw [hu] at hlen; simpa using hlen
          obtain ⟨i1, i2, i3⟩ := ih _ st1 hlen2 h
          simp only [hun, hu, List.tail_cons] at i1 i2
          refine ⟨?_, ?_, ?_⟩
          · simp only [List.dropWhile_cons, hle, decide_True, if_true]; exact i1
          · simp only [List.takeWhile_cons, hle, decide_True, if_true, i2, hev]
            simp
          · rw [i3]; exact hdd

/-! ## The static part of the registry is never changed -/

theorem declared_setSeries (series : List (Nat × TieVariant)) (id : Nat) (tie old : TieVariant)
    (hold : findSeries series id = some old) (hm : modelOf tie = modelOf old) :
    declared (setSeries series id tie) = declared series := by
  induction series with
  | nil => rfl
  | cons hd tl ih =>
    obtain ⟨k, v⟩ := hd
    by_cases hk : k = id
    · simp only [findSeries, hk, if_true, Option.some.injEq] at hold
      subst hold
      simp [setSeries, hk, declared, hm]
    · simp only [findSeries, hk, if_false] at hold
      have := ih hold
      simp only [declared] at this
      simp [setSeries, hk, declared, this]

theorem updateCollectionEntry_model (seriesId : Nat) (x y : ℚ) (entry : Nat × TieVariant) :
    modelOf (updateCollectionEntry seriesId x y entry).2 = modelOf entry.2 := by
  unfold updateCollectionEntry
  split
  · rename_i c hc
    split
    · simp [modelOf, hc]
    · rfl
  · rfl

theorem declared_updateCollectionRanges (series : List (Nat × TieVariant)) (seriesId : Nat)
    (x y : ℚ) : declared (updateCollectionRanges series seriesId x y) = declared series := by
  simp only [declared, updateCollectionRanges, List.map_map]
  apply List.map_congr_left
  intro entry _
  simp [Function.comp, updateCollectionEntry_fst, updateCollectionEntry_model]

theorem declared_set (series : List (Nat × TieVariant)) (i key : Nat) (tie tie1 : TieVariant)
    (h : series.get? i = some (key, tie)) (hm : modelOf tie1 = modelOf tie) :
    declared (series.set i (key, tie1)) = declared series := by
  induction series generalizing i with
  | nil => rfl
  | cons hd tl ih =>
    cases i with
    | zero =>
      simp only [List.get?_cons_zero, Option.some.injEq] at h
      subst h
      simp [declared, hm]
    | succ i =>
      simp only [List.get?_cons_succ] at h
      have := ih i h
      simp only [declared] at this
      simp [declared, this]

theorem foldl_appendPoint_declared (seriesId : Nat) (points : List XYPoint)
    (acc : XYSeriesTie × List (Nat × TieVariant)) :
    declared (points.foldl (appendPoint seriesId) acc).2 = declared acc.2 ∧
    (points.foldl (appendPoint seriesId) acc).1.model = acc.1.model := by
  induction points generalizing acc with
  | nil => exact ⟨rfl, rfl⟩
  | cons p ps ih =>
    rw [List.foldl_cons]
    obtain ⟨h1, h2⟩ := ih (appendPoint seriesId acc p)
    exact ⟨h1.trans (declared_updateCollectionRanges _ _ _ _), h2⟩

theorem findSeries_declared {s1 s2 : List (Nat × TieVariant)} (h : declared s1 = declared s2)
    (id : Nat) : (findSeries s1 id).map modelOf = (findSeries s2 id).map modelOf := by
  induction s1 generalizing s2 with
  | nil =>
    cases s2 with
    | nil => rfl
    | cons _ _ => simp [declared] at h
  | cons hd tl ih =>
    cases s2 with
    | nil => simp [declared] at h
    | cons hd2 tl2 =>
      simp only [declared, List.map_cons, List.cons.injEq, Prod.mk.injEq] at h
      obtain ⟨⟨hk, hm⟩, htl⟩ := h
      obtain ⟨k, v⟩ := hd
      obtain ⟨k2, v2⟩ := hd2
      simp only at hk hm
      subst hk
      simp only [findSeries]
      by_cases hid : k = id
      · simp [hid, hm]
      · simp only [hid, if_false]; exact ih htl

theorem handleEvent_declared (t : nanoseconds) (e : ChartEvent) (st st1 : ChartManager) (b : Bool)
    (h : handleEvent t e st = some (b, st1)) : declared st1.series = declared st.series := by
  unfold handleEvent at h
  split at h
  · simp only [Option.some.injEq, Prod.mk.injEq] at h
    rw [← h.2]
  · cases e with
    | addValue e =>
      simp only at h
      split at h
      · rename_i s hs
        simp only [Option.some.injEq, Prod.mk.injEq] at h
        rw [← h.2]
        have hd := foldl_appendPoint_declared e.seriesId [e.point] (s, st.series)
        simp only [List.foldl_cons, List.foldl_nil] at hd
        have hf := findSeries_declared hd.1 e.seriesId
        rw [hs] at hf
        cases hf2 : findSeries (appendPoint e.seriesId (s, st.series) e.point).2 e.seriesId with
        | none => simp [hf2] at hf
        | some old =>
          simp only [hf2, Option.map_some', Option.some.injEq] at hf
          show declared (setSeries _ _ _) = _
          rw [declared_setSeries _ _ _ old hf2 (by rw [hf]; simp [modelOf, hd.2]), hd.1]
      · simp at h
    | addValues e =>
      simp only at h
      split at h
      · rename_i s hs
        simp only [Option.some.injEq, Prod.mk.injEq] at h
        rw [← h.2]
        have hd := foldl_appendPoint_declared e.seriesId e.points (s, st.series)
        have hf := findSeries_declared hd.1 e.seriesId
        rw [hs] at hf
        cases hf2 : findSeries (e.points.foldl (appendPoint e.seriesId) (s, st.series)).2
            e.seriesId with
        | none => simp [hf2] at hf
        | some old =>
          simp only [hf2, Option.map_some', Option.some.injEq] at hf
          show declared (setSeries _ _ _) = _
          rw [declared_setSeries _ _ _ old hf2 (by rw [hf]; simp [modelOf, hd.2]), hd.1]
      · simp at h
    | clear e =>
      simp only at h
      split at h
      · rename_i s hs
        simp only [Option.some.injEq, Prod.mk.injEq] at h
        rw [← h.2]
        exact declared_setSeries _ _ _ _ hs rfl
      · simp at h
    | categoryAddValue e =>
      simp only at h
      split at h
      · rename_i s hs
        simp only [Option.some.injEq, Prod.mk.injEq] at h
        rw [← h.2]
        show declared (updateCollectionRanges _ _ _ _) = _
        rw [declared_updateCollectionRanges]
        exact declared_setSeries _ _ _ _ hs rfl
      · simp at h

theorem handleUndoEvent_declared (t : nanoseconds) (r : UndoEvent) (st st1 : ChartManager)
    (b : Bool) (h : handleUndoEvent t r st = some (b, st1)) :
    declared st1.series = declared st.series := by
  unfold handleUndoEvent at h
  split at h
  · simp only [Option.some.injEq, Prod.mk.injEq] at h
    rw [← h.2]
  · cases r with
    | addValue e =>
      simp only at h
      split at h
      · rename_i s hs
        split at h
        · simp only [Option.some.injEq, Prod.mk.injEq] at h
          rw [← h.2]
          exact declared_setSeries _ _ _ _ hs rfl
        · simp at h
      · simp at h
    | addValues e =>
      simp only at h
      split at h
      · rename_i s hs
        split at h
        · simp only [Option.some.injEq, Prod.mk.injEq] at h
          rw [← h.2]
          exact declared_setSeries _ _ _ _ hs rfl
        · simp at h
      · simp at h
    | clear e =>
      simp only at h
      split at h
      · rename_i s hs
        simp only [Option.some.injEq, Prod.mk.injEq] at h
        rw [← h.2]
        exact declared_setSeries _ _ _ _ hs rfl
      · simp at h
    | categoryAddValue e =>
      simp only at h
      split at h
      · rename_i s hs
        split at h
        · simp only [Option.some.injEq, Prod.mk.injEq] at h
          rw [← h.2]
          exact declared_setSeries _ _ _ _ hs rfl
        · simp at h
      · simp at h

theorem fakeEvent_declared (t : nanoseconds) (st : ChartManager) (i : Nat) :
    declared (fakeEvent t st i).series = declared st.series := by
  unfold fakeEvent
  split
  · rename_i key value hget
    split
    · rfl
    · split
      · rfl
      · split
        · rfl
        · show declared (updateCollectionRanges _ _ _ _) = _
          rw [declared_updateCollectionRanges]
          exact declared_set _ _ _ _ _ hget rfl
  · rfl

theorem foldl_fakeEvent_declared (t : nanoseconds) (l : List Nat) (st : ChartManager) :
    declared (l.foldl (fakeEvent t) st).series = declared st.series := by
  induction l generalizing st with
  | nil => rfl
  | cons i l ih => rw [List.foldl_cons, ih, fakeEvent_declared]

theorem fakeEvent_of_noAutoUpdate (t : nanoseconds) (st : ChartManager) (i : Nat)
    (h : noAutoUpdate st.series) : fakeEvent t st i = st := by
  unfold fakeEvent
  split
  · rename_i key value hget
    have hmem : (key, TieVariant.category value) ∈ st.series := List.get?_mem hget
    have h1 := h (key, modelOf (.category value))
      (List.mem_map.mpr ⟨_, hmem, rfl⟩)
    simp only [modelOf, autoAdvancing] at h1
    simp [h1]
  · rfl

theorem fakeEvents_of_noAutoUpdate (t : nanoseconds) (st : ChartManager)
    (h : noAutoUpdate st.series) : fakeEvents t st = st := by
  unfold fakeEvents
  generalize List.range st.series.length = l
  induction l with
  | nil => rfl
  | cons i l ih => rw [List.foldl_cons, fakeEvent_of_noAutoUpdate t st i h, ih]

theorem drainEvents_declared (t : nanoseconds) (fuel : Nat) :
    ∀ st st1 : ChartManager, drainEvents t fuel st = some st1 →
      declared st1.series = declared st.series := by
  induction fuel with
  | zero =>
    intro st st1 h
    simp only [drainEvents, Option.some.injEq] at h
    rw [← h]
  | succ fuel ih =>
    intro st st1 h
    simp only [drainEvents] at h
    split at h
    · simp only [Option.some.injEq] at h; rw [← h]
    · rename_i e rest hev
      split at h
      · simp at h
      · rename_i st2 hh
        simp only [Option.some.injEq] at h
        rw [← h]; exact handleEvent_declared t e st st2 false hh
      · rename_i st2 hh
        rw [ih st2 st1 h]; exact handleEvent_declared t e st st2 true hh

theorem drainUndoEvents_declared (t : nanoseconds) (fuel : Nat) :
    ∀ st st1 : ChartManager, drainUndoEvents t fuel st = some st1 →
      declared st1.series = declared st.series := by
  induction fuel with
  | zero =>
    intro st st1 h
    simp only [drainUndoEvents, Option.some.injEq] at h
    rw [← h]
  | succ fuel ih =>
    intro st st1 h
    simp only [drainUndoEvents] at h
    split at h
    · simp only [Option.some.injEq] at h; rw [← h]
    · rename_i r rest hev
      split at h
      · simp at h
      · rename_i st2 hh
        simp only [Option.some.injEq] at h
        rw [← h]; exact handleUndoEvent_declared t r st st2 false hh
      · rename_i st2 hh
        rw [ih _ st1 h]; exact handleUndoEvent_declared t r st st2 true hh

theorem timeAdvanced_declared (t : nanoseconds) (st st1 : ChartManager)
    (h : timeAdvanced t st = some st1) : declared st1.series = declared st.series := by
  unfold timeAdvanced at h
  cases hd : drainEvents t st.events.length st with
  | none => simp [hd] at h
  | some d =>
    simp only [hd, Option.map_some', Option.some.injEq] at h
    rw [← h]
    unfold fakeEvents
    rw [foldl_fakeEvent_declared]
    exact drainEvents_declared t _ st d hd

theorem timeRewound_declared (t : nanoseconds) (st st1 : ChartManager)
    (h : timeRewound t st = some st1) : declared st1.series = declared st.series :=
  drainUndoEvents_declared t _ st st1 h

theorem timeChanged_declared (t inc : nanoseconds) (st st1 : ChartManager)
    (h : timeChanged t inc st = some st1) : declared st1.series = declared st.series := by
  unfold timeChanged at h
  split at h
  · exact timeAdvanced_declared t st st1 h
  · exact timeRewound_declared t st st1 h

theorem noAutoUpdate_of_declared {s1 s2 : List (Nat × TieVariant)}
    (h : declared s1 = declared s2) (h2 : noAutoUpdate s2) : noAutoUpdate s1 := by
  unfold noAutoUpdate at *
  rw [h]; exact h2

/-! ## Counting fabricated events -/

theorem isDue_updateCollectionEntry (t : nanoseconds) (seriesId : Nat) (x y : ℚ)
    (entry : Nat × TieVariant) :
    isDue t (updateCollectionEntry seriesId x y entry) = isDue t entry := by
  unfold updateCollectionEntry
  split
  · rename_i c hc
    split
    · simp [isDue, hc]
    · rfl
  · rfl

theorem fakeEvent_count (t : nanoseconds) (st : ChartManager) (i : Nat)
    (entry : Nat × TieVariant) (hget : st.series.get? i = some entry) :
    (fakeEvent t st i).undoEvents.length =
        st.undoEvents.length + (if isDue t entry then 1 else 0) ∧
    ((fakeEvent t st i).series.drop (i + 1)).countP (isDue t) =
        (st.series.drop (i + 1)).countP (isDue t) := by
  obtain ⟨key, tie⟩ := entry
  unfold fakeEvent
  rw [hget]
  cases tie with
  | xy s => simp [isDue]
  | collection s => simp [isDue]
  | category value =>
    simp only
    cases hauto : value.model.autoUpdate with
    | false => simp [isDue, hauto]
    | true =>
      rw [if_neg (by decide)]
      cases h2 : value.qtSeries.getLast? with
      | none =>
        have : value.qtSeries = [] := List.getLast?_eq_none_iff.mp h2
        simp [isDue, this]
      | some lastValue =>
        have hne : value.qtSeries ≠ [] := by
          intro h; rw [h] at h2; simp at h2
        have hemp : value.qtSeries.isEmpty = false := by
          cases hq : value.qtSeries with
          | nil => exact absurd hq hne
          | cons _ _ => rfl
        simp only
        by_cases h3 : t - value.lastUpdatedTime < value.model.autoUpdateInterval
        · simp [isDue, h3]
        · simp only [h3, if_false, List.length_cons, isDue, hauto, hemp, Bool.not_false,
            Bool.and_self, decide_False, if_true, true_and]
          simp only [updateCollectionRanges, ← List.map_drop, List.countP_map]
          rw [List.drop_set_of_lt _ _ (Nat.lt_succ_self i)]
          congr 1
          funext e
          exact isDue_updateCollectionEntry t _ _ _ e

theorem foldl_fakeEvent_count (t : nanoseconds) (k : Nat) :
    ∀ (i : Nat) (st : ChartManager), i + k = st.series.length →
      ((List.range' i k).foldl (fakeEvent t) st).undoEvents.length =
        st.undoEvents.length + (st.series.drop i).countP (isDue t) := by
  induction k with
  | zero =>
    intro i st h
    have : st.series.drop i = [] := List.drop_eq_nil_of_le (by omega)
    simp [this]
  | succ k ih =>
    intro i st h
    have hi : i < st.series.length := by omega
    have hget : st.series.get? i = some st.series[i] := List.get?_eq_get hi
    obtain ⟨c1, c2⟩ := fakeEvent_count t st i _ hget
    have hlen : (fakeEvent t st i).series.length = st.series.length := by
      have := congrArg List.length (fakeEvent_declared t st i)
      simpa [declared] using this
    rw [List.range'_succ, List.foldl_cons, ih (i + 1) (fakeEvent t st i) (by omega), c1, c2,
      List.drop_eq_getElem_cons hi, List.countP_cons]
    omega

theorem fakeEvents_count (t : nanoseconds) (st : ChartManager) :
    (fakeEvents t st).undoEvents.length =
      st.undoEvents.length + st.series.countP (isDue t) := by
  unfold fakeEvents
  rw [List.range_eq_range', foldl_fakeEvent_count t st.series.length 0 st (by omega)]
  simp

/-! ## What a successful call does to the queue and the stack -/

theorem handleEvent_false (t : nanoseconds) (e : ChartEvent) (st st1 : ChartManager)
    (h : handleEvent t e st = some (false, st1)) : st1 = st ∧ t < e.time := by
  unfold handleEvent at h
  split at h
  · rename_i hgt
    simp only [Option.some.injEq, Prod.mk.injEq, true_and] at h
    exact ⟨h.symm, hgt⟩
  · cases e <;> simp only at h <;> split at h <;> simp at h

theorem handleEvent_true (t : nanoseconds) (e : ChartEvent) (st st1 : ChartManager)
    (h : handleEvent t e st = some (true, st1)) :
    e.time ≤ t ∧ st1.events = st.events.tail ∧
      (∃ r, st1.undoEvents = r :: st.undoEvents ∧ r.event = e) ∧
      st1.dropdownElements = st.dropdownElements := by
  unfold handleEvent at h
  split at h
  · simp at h
  · rename_i hgt
    have hle : e.time ≤ t := not_lt.mp hgt
    cases e <;> simp only at h <;> split at h <;>
      simp only [Option.some.injEq, Prod.mk.injEq, true_and, reduceCtorEq] at h <;>
      (subst h; exact ⟨hle, rfl, ⟨_, rfl, rfl⟩, rfl⟩)

theorem drainEvents_shape (t : nanoseconds) (fuel : Nat) :
    ∀ st st1 : ChartManager, st.events.length ≤ fuel → drainEvents t fuel st = some st1 →
      ∃ records : List UndoEvent,
        st1.events = st.events.dropWhile (fun e => decide (e.time ≤ t)) ∧
        st1.undoEvents = records.reverse ++ st.undoEvents ∧
        records.map UndoEvent.event = st.events.takeWhile (fun e => decide (e.time ≤ t)) ∧
        st1.dropdownElements = st.dropdownElements := by
  induction fuel with
  | zero =>
    intro st st1 hlen h
    have hnil : st.events = [] := List.length_eq_zero.mp (Nat.le_zero.mp hlen)
    simp only [drainEvents, Option.some.injEq] at h
    subst h
    exact ⟨[], by simp [hnil], by simp, by simp [hnil], rfl⟩
  | succ fuel ih =>
    intro st st1 hlen h
    cases hev : st.events with
    | nil =>
      simp only [drainEvents, hev, Option.some.injEq] at h
      subst h
      exact ⟨[], by simp [hev], by simp, by simp, rfl⟩
    | cons e rest =>
      simp only [drainEvents, hev] at h
      cases hh : handleEvent t e st with
      | none => simp [hh] at h
      | some res =>
        obtain ⟨b, st2⟩ := res
        cases b with
        | false =>
          simp only [hh, Option.some.injEq] at h
          obtain ⟨h2, hlt⟩ := handleEvent_false t e st st2 hh
          subst h; subst h2
          have hnd : ¬ e.time ≤ t := not_le.mpr hlt
          exact ⟨[], by simp [List.dropWhile_cons, hnd, hev], by simp,
            by simp [List.takeWhile_cons, hnd], rfl⟩
        | true =>
          simp only [hh] at h
          obtain ⟨hle, hevs, ⟨r, hun, hr⟩, hdd⟩ := handleEvent_true t e st st2 hh
          have hevs2 : st2.events = rest := by rw [hevs, hev]; rfl
          have hlen2 : st2.events.length ≤ fuel := by
            rw [hevs2]; rw [hev] at hlen; simpa using hlen
          obtain ⟨records, i1, i2, i3, i4⟩ := ih st2 st1 hlen2 h
          refine ⟨r :: records, ?_, ?_, ?_, ?_⟩
          · simp only [List.dropWhile_cons, hle, decide_True, if_true]; rw [i1, hevs2]
          · rw [i2, hun]; simp
          · simp only [List.map_cons, List.takeWhile_cons, hle, decide_True, if_true, hr]
            rw [i3, hevs2]
          · rw [i4, hdd]

theorem drainEvents_eventSequence (t : nanoseconds) (st st1 : ChartManager)
    (h : drainEvents t st.events.length st = some st1) :
    eventSequence st1 = eventSequence st ∧
      st1.events.length + st1.undoEvents.length = st.events.length + st.undoEvents.length := by
  obtain ⟨records, h1, h2, h3, _⟩ := drainEvents_shape t _ st st1 (le_refl _) h
  have hsplit := List.takeWhile_append_dropWhile (fun e : ChartEvent => decide (e.time ≤ t))
    st.events
  have hseq : eventSequence st1 = eventSequence st := by
    unfold eventSequence
    rw [h1, h2]
    simp only [List.reverse_append, List.reverse_reverse, List.map_append, h3,
      List.append_assoc]
    rw [hsplit]
  refine ⟨hseq, ?_⟩
  have := congrArg List.length hseq
  simp only [eventSequence, List.length_append, List.length_map, List.length_reverse] at this
  omega

theorem timeRewound_eventSequence (t : nanoseconds) (st st1 : ChartManager)
    (h : timeRewound t st = some st1) :
    (∃ popped, st.undoEvents = popped ++ st1.undoEvents ∧
      st1.events = popped.reverse.map UndoEvent.event ++ st.events) ∧
    eventSequence st1 = eventSequence st := by
  obtain ⟨h1, h2, _⟩ := drainUndoEvents_spec t st.undoEvents.length st st1 (le_refl _) h
  have hsplit := List.takeWhile_append_dropWhile (fun r : UndoEvent => decide (t ≤ r.event.time))
    st.undoEvents
  constructor
  · exact ⟨_, by rw [h1]; exact hsplit.symm, h2⟩
  · have hrev : st.undoEvents.reverse =
        (st.undoEvents.dropWhile fun r => decide (t ≤ r.event.time)).reverse ++
          (st.undoEvents.takeWhile fun r => decide (t ≤ r.event.time)).reverse := by
      rw [← List.reverse_append, hsplit]
    unfold eventSequence
    rw [h1, h2, hrev]
    simp

theorem fakeEvents_eventSequence (t : nanoseconds) (st : ChartManager) :
    (eventSequence st).Sublist (eventSequence (fakeEvents t st)) := by
  obtain ⟨h1, _, synth, _, h3⟩ := foldl_fakeEvent_spec t (List.range st.series.length) st
  unfold eventSequence fakeEvents
  rw [h1, h3]
  simp only [List.reverse_append, List.map_append, List.append_assoc]
  apply List.Sublist.append_left
  exact List.sublist_append_right _ _

theorem timeChanged_eventSequence (call : nanoseconds × nanoseconds) (st st1 : ChartManager)
    (h : timeChanged call.1 call.2 st = some st1) :
    (eventSequence st).Sublist (eventSequence st1) ∧
    st1.events.length + st1.undoEvents.length =
      st.events.length + st.undoEvents.length + fabricatedBy call st ∧
    (noAutoUpdate st.series → eventSequence st1 = eventSequence st) := by
  unfold timeChanged at h
  by_cases hinc : call.2 > 0
  · simp only [hinc, if_true] at h
    unfold timeAdvanced at h
    cases hd : drainEvents call.1 st.events.length st with
    | none => simp [hd] at h
    | some d =>
      simp only [hd, Option.map_some', Option.some.injEq] at h
      obtain ⟨hs, hl⟩ := drainEvents_eventSequence call.1 st d hd
      obtain ⟨f1, _, _⟩ := foldl_fakeEvent_spec call.1 (List.range d.series.length) d
      have hc := fakeEvents_count call.1 d
      subst h
      refine ⟨?_, ?_, ?_⟩
      · rw [← hs]; exact fakeEvents_eventSequence call.1 d
      · have f1a : (fakeEvents call.1 d).events = d.events := f1
        simp only [fabricatedBy, hinc, if_true, hd]
        rw [f1a, hc]; omega
      · intro hno
        have hno2 : noAutoUpdate d.series :=
          noAutoUpdate_of_declared (drainEvents_declared _ _ st d hd) hno
        rw [fakeEvents_of_noAutoUpdate call.1 d hno2]; exact hs
  · simp only [hinc, if_false] at h
    obtain ⟨_, hs⟩ := timeRewound_eventSequence call.1 st st1 h
    refine ⟨by rw [hs], ?_, fun _ => hs⟩
    have := congrArg List.length hs
    simp only [eventSequence, List.length_append, List.length_map, List.length_reverse] at this
    simp only [fabricatedBy, hinc, if_false]
    omega

theorem runCalls_eventSequence (calls : List (nanoseconds × nanoseconds)) :
    ∀ st st1 : ChartManager, runCalls calls st = some st1 →
      (eventSequence st).Sublist (eventSequence st1) ∧
      st1.events.length + st1.undoEvents.length =
        st.events.length + st.undoEvents.length + fabricatedCount calls st ∧
      declared st1.series = declared st.series ∧
      (noAutoUpdate st.series → eventSequence st1 = eventSequence st) := by
  induction calls with
  | nil =>
    intro st st1 h
    simp only [runCalls, Option.some.injEq] at h
    subst h
    exact ⟨List.Sublist.refl _, by simp [fabricatedCount], rfl, fun _ => rfl⟩
  | cons call calls ih =>
    intro st st1 h
    simp only [runCalls] at h
    cases hc : timeChanged call.1 call.2 st with
    | none => simp [hc] at h
    | some st2 =>
      simp only [hc, Option.some_bind] at h
      obtain ⟨a1, a2, a3⟩ := timeChanged_eventSequence call st st2 hc
      obtain ⟨b1, b2, b3, b4⟩ := ih st2 st1 h
      have hdecl := timeChanged_declared call.1 call.2 st st2 hc
      refine ⟨a1.trans b1, ?_, b3.trans hdecl, ?_⟩
      · simp only [fabricatedCount, hc]; omega
      · intro hno
        rw [b4 (noAutoUpdate_of_declared hdecl hno), a3 hno]

/-! ## Loading a trace -/

theorem noAutoUpdate_emplaceSeries (series : List (Nat × TieVariant)) (id : Nat)
    (tie : TieVariant) (h : noAutoUpdate series) (ht : autoAdvancing (modelOf tie) = false) :
    noAutoUpdate (emplaceSeries series id tie) := by
  unfold emplaceSeries
  split
  · exact h
  · intro entry hmem
    simp only [declared, List.map_append, List.map_cons, List.map_nil, List.mem_append,
      List.mem_singleton] at hmem
    rcases hmem with hmem | hmem
    · exact h entry hmem
    · rw [hmem]; exact ht

theorem foldl_addCollection (l : List SeriesCollection) (acc : ChartManager) :
    (l.foldl addCollection acc).events = acc.events ∧
    (l.foldl addCollection acc).undoEvents = acc.undoEvents ∧
    (noAutoUpdate acc.series → noAutoUpdate (l.foldl addCollection acc).series) := by
  induction l generalizing acc with
  | nil => exact ⟨rfl, rfl, id⟩
  | cons x l ih =>
    rw [List.foldl_cons]
    obtain ⟨h1, h2, h3⟩ := ih (addCollection acc x)
    exact ⟨h1, h2, fun h => h3 (noAutoUpdate_emplaceSeries _ _ _ h rfl)⟩

theorem foldl_addXYSeries (l : List XYSeries) (acc : ChartManager) :
    (l.foldl addXYSeries acc).events = acc.events ∧
    (l.foldl addXYSeries acc).undoEvents = acc.undoEvents ∧
    (noAutoUpdate acc.series → noAutoUpdate (l.foldl addXYSeries acc).series) := by
  induction l generalizing acc with
  | nil => exact ⟨rfl, rfl, id⟩
  | cons x l ih =>
    rw [List.foldl_cons]
    obtain ⟨h1, h2, h3⟩ := ih (addXYSeries acc x)
    exact ⟨h1, h2, fun h => h3 (noAutoUpdate_emplaceSeries _ _ _ h rfl)⟩

theorem foldl_addCategorySeries (l : List CategoryValueSeries) (acc : ChartManager) :
    (l.foldl addCategorySeries acc).events = acc.events ∧
    (l.foldl addCategorySeries acc).undoEvents = acc.undoEvents ∧
    ((∀ c ∈ l, c.autoUpdate = false) → noAutoUpdate acc.series →
      noAutoUpdate (l.foldl addCategorySeries acc).series) := by
  induction l generalizing acc with
  | nil => exact ⟨rfl, rfl, fun _ h => h⟩
  | cons x l ih =>
    rw [List.foldl_cons]
    obtain ⟨h1, h2, h3⟩ := ih (addCategorySeries acc x)
    refine ⟨h1, h2, fun hl h => h3 (fun c hc => hl c (List.mem_cons_of_mem _ hc)) ?_⟩
    exact noAutoUpdate_emplaceSeries _ _ _ h (hl x (List.mem_cons_self _ _))

theorem addSeries_events (xySeries : List XYSeries) (collections : List SeriesCollection)
    (categoryValueSeries : List CategoryValueSeries) (st : ChartManager) :
    (addSeries xySeries collections categoryValueSeries st).events = st.events ∧
    (addSeries xySeries collections categoryValueSeries st).undoEvents = st.undoEvents := by
  unfold addSeries
  constructor
  · rw [(foldl_addCategorySeries _ _).1, (foldl_addXYSeries _ _).1, (foldl_addCollection _ _).1]
  · rw [(foldl_addCategorySeries _ _).2.1, (foldl_addXYSeries _ _).2.1,
      (foldl_addCollection _ _).2.1]

theorem addSeries_noAutoUpdate (xySeries : List XYSeries) (collections : List SeriesCollection)
    (categoryValueSeries : List CategoryValueSeries) (st : ChartManager)
    (h : noAutoUpdate st.series) (hc : ∀ c ∈ categoryValueSeries, c.autoUpdate = false) :
    noAutoUpdate (addSeries xySeries collections categoryValueSeries st).series := by
  unfold addSeries
  exact (foldl_addCategorySeries _ _).2.2 hc
    ((foldl_addXYSeries _ _).2.2 ((foldl_addCollection _ _).2.2 h))

/-! ## Sample-level view: the handlers commute with it -/

theorem sFind_map (series : List (Nat × TieVariant)) (id : Nat) :
    sFind (series.map sampleEntry) id = (findSeries series id).map sampleTie := by
  induction series with
  | nil => rfl
  | cons hd tl ih =>
    obtain ⟨k, v⟩ := hd
    simp only [List.map_cons, sFind, findSeries, sampleEntry]
    by_cases h : k = id
    · simp [h]
    · simp only [h, if_false]; exact ih

theorem sSet_map (series : List (Nat × TieVariant)) (id : Nat) (tie : TieVariant) :
    sSet (series.map sampleEntry) id (sampleTie tie) =
      (setSeries series id tie).map sampleEntry := by
  induction series with
  | nil => rfl
  | cons hd tl ih =>
    obtain ⟨k, v⟩ := hd
    by_cases h : k = id
    · simp [List.map_cons, sSet, setSeries, sampleEntry, h]
    · simp only [List.map_cons, sSet, setSeries, sampleEntry, h, if_false, List.cons.injEq,
        true_and]
      exact ih

theorem sampleTie_updateCollectionEntry (seriesId : Nat) (x y : ℚ) (entry : Nat × TieVariant) :
    sampleTie (updateCollectionEntry seriesId x y entry).2 = sampleTie entry.2 := by
  unfold updateCollectionEntry
  split
  · rename_i c hc
    split
    · simp [sampleTie, hc]
    · rfl
  · rfl

theorem sample_updateCollectionRanges (series : List (Nat × TieVariant)) (seriesId : Nat)
    (x y : ℚ) :
    (updateCollectionRanges series seriesId x y).map sampleEntry =
      series.map sampleEntry := by
  simp only [updateCollectionRanges, List.map_map]
  apply List.map_congr_left
  intro entry _
  simp [Function.comp, sampleEntry, updateCollectionEntry_fst, sampleTie_updateCollectionEntry]

theorem foldl_appendPoint_sample (seriesId : Nat) (points : List XYPoint)
    (acc : XYSeriesTie × List (Nat × TieVariant)) :
    (points.foldl (appendPoint seriesId) acc).2.map sampleEntry =
      acc.2.map sampleEntry ∧
    (points.foldl (appendPoint seriesId) acc).1.model = acc.1.model ∧
    (points.foldl (appendPoint seriesId) acc).1.qtSeries =
      points.foldl (fun a p => QXYSeries.append a p.x p.y) acc.1.qtSeries := by
  induction points generalizing acc with
  | nil => exact ⟨rfl, rfl, rfl⟩
  | cons p ps ih =>
    rw [List.foldl_cons, List.foldl_cons]
    obtain ⟨h1, h2, h3⟩ := ih (appendPoint seriesId acc p)
    exact ⟨h1.trans (sample_updateCollectionRanges _ _ _ _), h2, h3⟩

theorem sampleTie_xy (s : XYSeriesTie) : sampleTie (.xy s) = .xy s.model s.qtSeries := rfl

theorem sampleTie_collection (s : SeriesCollectionTie) :
    sampleTie (.collection s) = .collection s.model := rfl

theorem sampleTie_category (s : CategoryValueTie) :
    sampleTie (.category s) = .category s.model s.qtSeries := rfl

theorem handleEvent_sample (t : nanoseconds) (e : ChartEvent) (st : ChartManager)
    (hdue : e.time ≤ t) :
    (handleEvent t e st).map (fun r => (r.1, sampleState r.2)) =
      (sApply e (sampleState st)).map fun c => (true, c) := by
  have hnot : ¬ e.time > t := not_lt.mpr hdue
  unfold handleEvent sApply
  rw [if_neg hnot]
  cases e with
  | addValue e =>
    simp only [sampleState, sFind_map]
    cases hf : findSeries st.series e.seriesId with
    | none => rfl
    | some tie =>
      cases tie with
      | xy s =>
        have hd := foldl_appendPoint_sample e.seriesId [e.point] (s, st.series)
        simp only [List.foldl_cons, List.foldl_nil] at hd
        simp only [Option.map_some', sampleTie_xy, ← sSet_map, hd.1, hd.2.1, hd.2.2]
      | collection s => rfl
      | category s => rfl
  | addValues e =>
    simp only [sampleState, sFind_map]
    cases hf : findSeries st.series e.seriesId with
    | none => rfl
    | some tie =>
      cases tie with
      | xy s =>
        have hd := foldl_appendPoint_sample e.seriesId e.points (s, st.series)
        simp only [Option.map_some', sampleTie_xy, ← sSet_map, hd.1, hd.2.1, hd.2.2]
      | collection s => rfl
      | category s => rfl
  | clear e =>
    simp only [sampleState, sFind_map]
    cases hf : findSeries st.series e.seriesId with
    | none => rfl
    | some tie =>
      cases tie with
      | xy s =>
        simp only [Option.map_some', sampleTie_xy, ← sSet_map]
      | collection s => rfl
      | category s => rfl
  | categoryAddValue e =>
    simp only [sampleState, sFind_map]
    cases hf : findSeries st.series e.seriesId with
    | none => rfl
    | some tie =>
      cases tie with
      | xy s => rfl
      | collection s => rfl
      | category s =>
        simp only [Option.map_some', sampleTie_category, sample_updateCollectionRanges,
          ← sSet_map]

theorem handleUndoEvent_sample (t : nanoseconds) (r : UndoEvent) (st : ChartManager)
    (hback : t ≤ r.event.time) :
    (handleUndoEvent t r st).map
        (fun x => (x.1, sampleState { x.2 with undoEvents := x.2.undoEvents.tail })) =
      (sUndo r (sampleState st)).map fun c => (true, c) := by
  have hnot : ¬ t > r.event.time := not_lt.mpr hback
  unfold handleUndoEvent sUndo
  rw [if_neg hnot]
  cases r with
  | addValue e =>
    simp only [sampleState, sFind_map]
    cases hf : findSeries st.series e.event.seriesId with
    | none => rfl
    | some tie =>
      cases tie with
      | xy s =>
        simp only [Option.map_some', sampleTie_xy]
        cases hr : QXYSeries.remove s.qtSeries ((s.qtSeries.length : Int) - 1) with
        | none => rfl
        | some left => simp only [Option.map_some', ← sSet_map, sampleTie_xy]
      | collection s => rfl
      | category s => rfl
  | addValues e =>
    simp only [sampleState, sFind_map]
    cases hf : findSeries st.series e.event.seriesId with
    | none => rfl
    | some tie =>
      cases tie with
      | xy s =>
        simp only [Option.map_some', sampleTie_xy]
        cases hr : QXYSeries.removePoints s.qtSeries
            ((s.qtSeries.length : Int) - e.event.points.length) e.event.points.length with
        | none => rfl
        | some left => simp only [Option.map_some', ← sSet_map, sampleTie_xy]
      | collection s => rfl
      | category s => rfl
  | clear e =>
    simp only [sampleState, sFind_map]
    cases hf : findSeries st.series e.event.seriesId with
    | none => rfl
    | some tie =>
      cases tie with
      | xy s => simp only [Option.map_some', ← sSet_map, sampleTie_xy]
      | collection s => rfl
      | category s => rfl
  | categoryAddValue e =>
    simp only [sampleState, sFind_map]
    cases hf : findSeries st.series e.event.seriesId with
    | none => rfl
    | some tie =>
      cases tie with
      | xy s => rfl
      | collection s => rfl
      | category s =>
        simp only [Option.map_some', sampleTie_category]
        cases hr : QXYSeries.remove s.qtSeries ((s.qtSeries.length : Int) - 1) with
        | none => rfl
        | some left => simp only [Option.map_some', ← sSet_map, sampleTie_category]

/-! ## Sample-level view: the backward handler inverts the forward handler -/

theorem sFind_sSet_self (series : List (Nat × SampleTie)) (id : Nat) (tie old : SampleTie)
    (hold : sFind series id = some old) : sFind (sSet series id tie) id = some tie := by
  induction series with
  | nil => simp [sFind] at hold
  | cons hd tl ih =>
    obtain ⟨k, v⟩ := hd
    by_cases hk : k = id
    · simp [sSet, sFind, hk]
    · simp only [sFind, hk, if_false] at hold
      simp [sSet, sFind, hk, ih hold]

theorem sSet_sSet (series : List (Nat × SampleTie)) (id : Nat) (a b : SampleTie) :
    sSet (sSet series id a) id b = sSet series id b := by
  induction series with
  | nil => rfl
  | cons hd tl ih =>
    obtain ⟨k, v⟩ := hd
    by_cases hk : k = id
    · simp [sSet, hk]
    · simp [sSet, hk, ih]

theorem sSet_of_sFind (series : List (Nat × SampleTie)) (id : Nat) (old : SampleTie)
    (hold : sFind series id = some old) : sSet series id old = series := by
  induction series with
  | nil => rfl
  | cons hd tl ih =>
    obtain ⟨k, v⟩ := hd
    by_cases hk : k = id
    · simp only [sFind, hk, if_true, Option.some.injEq] at hold
      simp [sSet, hk, hold]
    · simp only [sFind, hk, if_false] at hold
      simp [sSet, hk, ih hold]

theorem remove_append_last (points : List QPointF) (x y : ℚ) :
    QXYSeries.remove (QXYSeries.append points x y)
      (((QXYSeries.append points x y).length : Int) - 1) = some points := by
  unfold QXYSeries.remove QXYSeries.append
  have h1 : ((points ++ [({ x := x, y := y } : QPointF)]).length : Int) - 1 = points.length := by
    simp
  rw [h1]
  have h2 : (0 : Int) ≤ points.length ∧
      (points.length : Int) < (points ++ [({ x := x, y := y } : QPointF)]).length := by
    constructor
    · exact Int.natCast_nonneg _
    · simp
  rw [if_pos h2]
  simp [List.eraseIdx_append_of_length_le]

theorem foldl_append_eq (batch : List XYPoint) (points : List QPointF) :
    batch.foldl (fun acc p => QXYSeries.append acc p.x p.y) points =
      points ++ batch.map fun p => ({ x := p.x, y := p.y } : QPointF) := by
  induction batch generalizing points with
  | nil => simp
  | cons p ps ih =>
    rw [List.foldl_cons, ih]
    simp [QXYSeries.append]

theorem removePoints_append_batch (batch : List XYPoint) (points : List QPointF) :
    QXYSeries.removePoints (batch.foldl (fun acc p => QXYSeries.append acc p.x p.y) points)
      (((batch.foldl (fun acc p => QXYSeries.append acc p.x p.y) points).length : Int) -
        batch.length) batch.length = some points := by
  rw [foldl_append_eq]
  unfold QXYSeries.removePoints
  by_cases h0 : batch.length = 0
  · have : batch = [] := List.length_eq_zero.mp h0
    simp [this]
  · rw [if_neg h0]
    have h1 : ((points ++ batch.map fun p => ({ x := p.x, y := p.y } : QPointF)).length : Int) -
        batch.length = points.length := by
      simp
    rw [h1]
    have h2 : (0 : Int) ≤ points.length ∧ (points.length : Int) + batch.length ≤
        (points ++ batch.map fun p => ({ x := p.x, y := p.y } : QPointF)).length := by
      constructor
      · exact Int.natCast_nonneg _
      · simp
    rw [if_pos h2]
    simp

theorem sUndo_sApply (e : ChartEvent) (c c1 : SampleState) (rest : List ChartEvent)
    (hev : c.events = e :: rest) (h : sApply e c = some c1) :
    ∃ r, c1.undoEvents = r :: c.undoEvents ∧ r.event = e ∧ c1.events = rest ∧
      sUndo r c1 = some c := by
  obtain ⟨series, events, undoEvents⟩ := c
  simp only at hev
  subst hev
  cases e with
  | addValue e =>
    simp only [sApply] at h
    split at h
    · rename_i model points hf
      simp only [Option.some.injEq] at h
      subst h
      refine ⟨_, rfl, rfl, rfl, ?_⟩
      simp only [sUndo, sFind_sSet_self _ _ _ _ hf, remove_append_last, sSet_sSet,
        sSet_of_sFind _ _ _ hf, List.tail_cons]
    · simp at h
  | addValues e =>
    simp only [sApply] at h
    split at h
    · rename_i model points hf
      simp only [Option.some.injEq] at h
      subst h
      refine ⟨_, rfl, rfl, rfl, ?_⟩
      simp only [sUndo, sFind_sSet_self _ _ _ _ hf, removePoints_append_batch, sSet_sSet,
        sSet_of_sFind _ _ _ hf, List.tail_cons]
    · simp at h
  | clear e =>
    simp only [sApply] at h
    split at h
    · rename_i model points hf
      simp only [Option.some.injEq] at h
      subst h
      refine ⟨_, rfl, rfl, rfl, ?_⟩
      simp only [sUndo, sFind_sSet_self _ _ _ _ hf, sSet_sSet,
        sSet_of_sFind _ _ _ hf, List.tail_cons]
    · simp at h
  | categoryAddValue e =>
    simp only [sApply] at h
    split at h
    · rename_i model points hf
      simp only [Option.some.injEq] at h
      subst h
      refine ⟨_, rfl, rfl, rfl, ?_⟩
      simp only [sUndo, sFind_sSet_self _ _ _ _ hf, remove_append_last, sSet_sSet,
        sSet_of_sFind _ _ _ hf, List.tail_cons]
    · simp at h

/-! ## Replay invariant -/

theorem sRun_append (a b : List ChartEvent) (c : SampleState) :
    sRun (a ++ b) c = (sRun a c).bind (sRun b) := by
  induction a generalizing c with
  | nil => rfl
  | cons e a ih =>
    simp only [List.cons_append, sRun]
    cases sApply e c with
    | none => rfl
    | some c1 => simp [ih]

theorem sApply_shape (e : ChartEvent) (c c1 : SampleState) (h : sApply e c = some c1) :
    c1.events = c.events.tail ∧ ∃ r, c1.undoEvents = r :: c.undoEvents ∧ r.event = e := by
  cases e <;> simp only [sApply] at h <;> split at h <;>
    simp only [Option.some.injEq, reduceCtorEq] at h <;>
    (subst h; exact ⟨rfl, _, rfl, rfl⟩)

theorem sRun_shape (done : List ChartEvent) :
    ∀ (c c1 : SampleState) (rest : List ChartEvent), c.events = done ++ rest →
      sRun done c = some c1 →
      c1.events = rest ∧
      c1.undoEvents.map UndoEvent.event = done.reverse ++ c.undoEvents.map UndoEvent.event := by
  induction done with
  | nil =>
    intro c c1 rest hev h
    simp only [sRun, Option.some.injEq] at h
    subst h
    exact ⟨by simpa using hev, by simp⟩
  | cons e done ih =>
    intro c c1 rest hev h
    simp only [sRun] at h
    cases ha : sApply e c with
    | none => simp [ha] at h
    | some c2 =>
      simp only [ha, Option.some_bind] at h
      obtain ⟨h1, r, h2, h3⟩ := sApply_shape e c c2 ha
      have hev2 : c2.events = done ++ rest := by rw [h1, hev]; rfl
      obtain ⟨i1, i2⟩ := ih c2 c1 rest hev2 h
      exact ⟨i1, by rw [i2, h2]; simp [h3]⟩

theorem applyEvents_sample (t : nanoseconds) (l : List ChartEvent) :
    ∀ st st1 : ChartManager, (∀ e ∈ l, e.time ≤ t) → applyEvents t l st = some st1 →
      sRun l (sampleState st) = some (sampleState st1) := by
  induction l with
  | nil =>
    intro st st1 _ h
    simp only [applyEvents, Option.some.injEq] at h
    subst h; rfl
  | cons e l ih =>
    intro st st1 hl h
    simp only [applyEvents] at h
    split at h
    · rename_i st2 hh
      have hs := handleEvent_sample t e st (hl e (List.mem_cons_self _ _))
      rw [hh] at hs
      simp only [Option.map_some'] at hs
      cases ha : sApply e (sampleState st) with
      | none => simp [ha] at hs
      | some c =>
        simp only [ha, Option.map_some', Option.some.injEq, Prod.mk.injEq, true_and] at hs
        simp only [sRun, ha, Option.some_bind]
        rw [← hs]
        exact ih st2 st1 (fun e1 he1 => hl e1 (List.mem_cons_of_mem _ he1)) h
    · simp at h

theorem tieKind_of_modelOf {a b : TieVariant} (h : modelOf a = modelOf b) :
    tieKind a = tieKind b := by
  cases a <;> cases b <;> simp [modelOf] at h <;> rfl

theorem targetsRegistered_of_declared {s1 s2 : List (Nat × TieVariant)}
    (h : declared s1 = declared s2) (e : ChartEvent) (h2 : targetsRegistered s2 e) :
    targetsRegistered s1 e := by
  unfold targetsRegistered at *
  have hf := findSeries_declared h e.seriesId
  cases h1 : findSeries s1 e.seriesId with
  | none =>
    rw [h1] at hf
    cases h3 : findSeries s2 e.seriesId with
    | none => rw [h3] at h2; simp at h2
    | some b => rw [h3] at hf; simp at hf
  | some a =>
    rw [h1] at hf
    cases h3 : findSeries s2 e.seriesId with
    | none => rw [h3] at hf; simp at hf
    | some b =>
      rw [h3] at hf h2
      simp only [Option.map_some', Option.some.injEq] at hf h2 ⊢
      rw [tieKind_of_modelOf hf]; exact h2

theorem pairwise_head_le {l : List ChartEvent} {e : ChartEvent} {rest : List ChartEvent}
    (hs : l.Pairwise fun a b => a.time ≤ b.time) (hl : l = e :: rest) :
    ∀ x ∈ l, e.time ≤ x.time := by
  subst hl
  intro x hx
  rcases List.mem_cons.mp hx with h | h
  · rw [h]
  · exact List.rel_of_pairwise_cons hs h

theorem timeAdvanced_replayed (evs : List ChartEvent) (c0 : SampleState) (p t : nanoseconds)
    (st st0 : ChartManager)
    (hsorted : evs.Pairwise fun a b => a.time ≤ b.time)
    (hreg : ∀ e ∈ evs, targetsRegistered st0.series e)
    (hno : noAutoUpdate st0.series)
    (hc0 : c0.events = evs)
    (hdecl : declared st.series = declared st0.series)
    (hinv : ReplayedUpTo evs c0 p st) (hpt : p ≤ t) :
    ∃ st1, timeAdvanced t st = some st1 ∧ declared st1.series = declared st0.series ∧
      ReplayedUpTo evs c0 t st1 := by
  obtain ⟨done, rest, hsplit, hrun, hdone, hrest⟩ := hinv
  obtain ⟨hev, _⟩ := sRun_shape done c0 (sampleState st) rest (by rw [hc0, hsplit]) hrun
  have hev1 : st.events = rest := hev
  have hreg1 : ∀ e ∈ st.events, targetsRegistered st.series e := by
    intro e he
    apply targetsRegistered_of_declared hdecl
    apply hreg
    rw [hsplit]; rw [hev1] at he
    exact List.mem_append_right _ he
  obtain ⟨d, records, hd, ha, hdev, _, _, _, _⟩ :=
    drainEvents_spec t st.events.length st (le_refl _) hreg1
  have hdd := drainEvents_declared t _ st d hd
  have hnod : noAutoUpdate d.series := noAutoUpdate_of_declared (hdd.trans hdecl) hno
  have hs := applyEvents_sample t _ st d
    (fun e he => by simpa using (List.mem_takeWhile_imp he)) ha
  refine ⟨d, ?_, hdd.trans hdecl, ?_⟩
  · simp only [timeAdvanced, hd, Option.map_some', fakeEvents_of_noAutoUpdate t d hnod]
  · refine ⟨done ++ st.events.takeWhile (fun e => decide (e.time ≤ t)),
      st.events.dropWhile (fun e => decide (e.time ≤ t)), ?_, ?_, ?_, ?_⟩
    · rw [List.append_assoc, List.takeWhile_append_dropWhile, hev1]; exact hsplit
    · rw [sRun_append, hrun]; exact hs
    · intro e he
      rcases List.mem_append.mp he with h | h
      · exact le_trans (hdone e h) hpt
      · simpa using (List.mem_takeWhile_imp h)
    · intro e he
      cases hdw : st.events.dropWhile (fun e => decide (e.time ≤ t)) with
      | nil => rw [hdw] at he; simp at he
      | cons x xs =>
        have hx := List.head_dropWhile_not (fun e : ChartEvent => decide (e.time ≤ t)) st.events
          (by rw [hdw]; simp)
        simp only [hdw, List.head_cons, decide_eq_false_iff_not] at hx
        have hsub : (st.events.dropWhile fun e => decide (e.time ≤ t)).Sublist evs := by
          rw [hsplit, hev1]
          exact (List.dropWhile_sublist _).trans (List.sublist_append_right _ _)
        have hsorted2 := hsorted.sublist hsub
        have := pairwise_head_le hsorted2 hdw e he
        exact le_of_lt (lt_of_lt_of_le (not_le.mp hx) this)

theorem drainUndoEvents_replayed (c0 : SampleState) (t : nanoseconds) (hc0 : c0.undoEvents = [])
    (fuel : Nat) :
    ∀ (done rest : List ChartEvent) (st : ChartManager), c0.events = done ++ rest →
      sRun done c0 = some (sampleState st) → st.undoEvents.length ≤ fuel →
      ∃ (st1 : ChartManager) (done1 popped : List ChartEvent),
        drainUndoEvents t fuel st = some st1 ∧
        declared st1.series = declared st.series ∧
        done = done1 ++ popped ∧ sRun done1 c0 = some (sampleState st1) ∧
        (∀ e ∈ popped, t ≤ e.time) ∧ (∀ e ∈ done1.getLast?, e.time < t) := by
  induction fuel with
  | zero =>
    intro done rest st hev hrun hlen
    have hnil : st.undoEvents = [] := List.length_eq_zero.mp (Nat.le_zero.mp hlen)
    obtain ⟨_, hu⟩ := sRun_shape done c0 (sampleState st) rest hev hrun
    have hd : done = [] := by
      have := congrArg List.length hu
      simp only [sampleState, hnil, hc0, List.map_nil, List.length_nil, List.append_nil,
        List.length_reverse] at this
      exact List.length_eq_zero.mp this.symm
    subst hd
    exact ⟨st, [], [], rfl, rfl, rfl, hrun, by simp, by simp⟩
  | succ fuel ih =>
    intro done rest st hev hrun hlen
    rcases List.eq_nil_or_concat done with hd | ⟨done', e, hd⟩
    · subst hd
      simp only [sRun, Option.some.injEq] at hrun
      have hnil : st.undoEvents = [] := by
        have := congrArg SampleState.undoEvents hrun
        rw [hc0] at this; exact this.symm
      exact ⟨st, [], [], by simp [drainUndoEvents, hnil], rfl, rfl, by simp [sRun, hrun],
        by simp, by simp⟩
    · rw [List.concat_eq_append] at hd
      subst hd
      rw [sRun_append] at hrun
      cases hr1 : sRun done' c0 with
      | none => simp [hr1] at hrun
      | some c =>
        simp only [hr1, Option.some_bind, sRun] at hrun
        cases ha : sApply e c with
        | none => simp [ha] at hrun
        | some c1 =>
          simp only [ha, Option.some_bind, Option.some.injEq] at hrun
          subst hrun
          obtain ⟨hcev, _⟩ := sRun_shape done' c0 c (e :: rest)
            (by rw [hev]; simp) hr1
          obtain ⟨r, hru, hre, _, hundo⟩ := sUndo_sApply e c (sampleState st) rest hcev ha
          have hst : st.undoEvents = r :: c.undoEvents := hru
          by_cases hback : t ≤ e.time
          · have hs := handleUndoEvent_sample t r st (by rw [hre]; exact hback)
            rw [hundo] at hs
            cases hh : handleUndoEvent t r st with
            | none => simp [hh] at hs
            | some res =>
              obtain ⟨b, st2⟩ := res
              simp only [hh, Option.map_some', Option.some.injEq, Prod.mk.injEq] at hs
              obtain ⟨hb, hs2⟩ := hs
              subst hb
              have hlen2 : ({ st2 with undoEvents := st2.undoEvents.tail } :
                  ChartManager).undoEvents.length ≤ fuel := by
                have := congrArg (fun c : SampleState => c.undoEvents.length) hs2
                simp only [sampleState] at this
                simp only [this]
                rw [hst] at hlen
                simpa using hlen
              obtain ⟨st1, done1, popped, i1, i2, i3, i4, i5, i6⟩ :=
                ih done' (e :: rest) _ (by rw [hev]; simp) (by rw [hs2]; exact hr1) hlen2
              refine ⟨st1, done1, popped ++ [e], ?_, ?_, ?_, i4, ?_, i6⟩
              · simp only [drainUndoEvents, hst, hh]; exact i1
              · rw [i2]; exact handleUndoEvent_declared t r st st2 true hh
              · rw [i3]; simp
              · intro x hx
                rcases List.mem_append.mp hx with h | h
                · exact i5 x h
                · rw [List.mem_singleton.mp h]; exact hback
          · have hlt : e.time < t := not_le.mp hback
            have hh : handleUndoEvent t r st = some (false, st) := by
              simp [handleUndoEvent, hre, hlt]
            refine ⟨st, done' ++ [e], [], ?_, rfl, by simp, ?_, by simp, ?_⟩
            · simp only [drainUndoEvents, hst, hh]
            · rw [sRun_append, hr1]; simp [sRun, ha]
            · simp [hlt]

theorem timeRewound_replayed (evs : List ChartEvent) (c0 : SampleState) (p t : nanoseconds)
    (st st0 : ChartManager)
    (hsorted : evs.Pairwise fun a b => a.time ≤ b.time)
    (hc0 : c0.events = evs) (hc0u : c0.undoEvents = [])
    (hdecl : declared st.series = declared st0.series)
    (hinv : ReplayedUpTo evs c0 p st) (htp : t ≤ p) :
    ∃ st1, timeRewound t st = some st1 ∧ declared st1.series = declared st0.series ∧
      ReplayedUpTo evs c0 t st1 := by
  obtain ⟨done, rest, hsplit, hrun, hdone, hrest⟩ := hinv
  obtain ⟨st1, done1, popped, h1, h2, h3, h4, h5, h6⟩ :=
    drainUndoEvents_replayed c0 t hc0u st.undoEvents.length done rest st
      (by rw [hc0, hsplit]) hrun (le_refl _)
  refine ⟨st1, h1, h2.trans hdecl, done1, popped ++ rest, ?_, h4, ?_, ?_⟩
  · rw [hsplit, h3, List.append_assoc]
  · intro e he
    rcases List.eq_nil_or_concat done1 with hd | ⟨d, x, hd⟩
    · rw [hd] at he; simp at he
    · rw [List.concat_eq_append] at hd
      have hx : x.time < t := h6 x (by rw [hd]; simp)
      rw [hd] at he
      rcases List.mem_append.mp he with h | h
      · have hsub : (d ++ [x]).Sublist evs := by
          rw [hsplit, h3, hd]
          exact (List.sublist_append_left _ _).trans (List.sublist_append_left _ _)
        have hp := hsorted.sublist hsub
        rw [List.pairwise_append] at hp
        exact le_of_lt (lt_of_le_of_lt (hp.2.2 e h x (by simp)) hx)
      · rw [List.mem_singleton.mp h]; exact le_of_lt hx
  · intro e he
    rcases List.mem_append.mp he with h | h
    · exact h5 e h
    · exact le_trans htp (hrest e h)

theorem finalTime_append (prev t : nanoseconds) (times : List nanoseconds) :
    finalTime prev (times ++ [t]) = t := by
  induction times generalizing prev with
  | nil => rfl
  | cons x xs ih => simp [finalTime, ih]

theorem runCalls_replayed (evs : List ChartEvent) (c0 : SampleState) (st0 : ChartManager)
    (hsorted : evs.Pairwise fun a b => a.time ≤ b.time)
    (hreg : ∀ e ∈ evs, targetsRegistered st0.series e)
    (hno : noAutoUpdate st0.series)
    (hc0 : c0.events = evs) (hc0u : c0.undoEvents = [])
    (times : List nanoseconds) :
    ∀ (prev : nanoseconds) (st : ChartManager), declared st.series = declared st0.series →
      ReplayedUpTo evs c0 prev st →
      ∃ st1, runCalls (cursorCalls prev times) st = some st1 ∧
        declared st1.series = declared st0.series ∧
        ReplayedUpTo evs c0 (finalTime prev times) st1 := by
  induction times with
  | nil =>
    intro prev st hdecl hinv
    exact ⟨st, rfl, hdecl, hinv⟩
  | cons t times ih =>
    intro prev st hdecl hinv
    simp only [cursorCalls, runCalls, finalTime, timeChanged]
    by_cases hinc : t - prev > 0
    · obtain ⟨st1, h1, h2, h3⟩ := timeAdvanced_replayed evs c0 prev t st st0 hsorted hreg hno
        hc0 hdecl hinv (le_of_lt (sub_pos.mp hinc))
      obtain ⟨st2, g1, g2, g3⟩ := ih t st1 h2 h3
      exact ⟨st2, by simp only [hinc, if_true, h1, Option.some_bind]; exact g1, g2, g3⟩
    · obtain ⟨st1, h1, h2, h3⟩ := timeRewound_replayed evs c0 prev t st st0 hsorted
        hc0 hc0u hdecl hinv (sub_nonpos.mp (not_lt.mp hinc))
      obtain ⟨st2, g1, g2, g3⟩ := ih t st1 h2 h3
      exact ⟨st2, by simp only [hinc, if_false, h1, Option.some_bind]; exact g1, g2, g3⟩

theorem split_unique (t : nanoseconds) (d1 : List ChartEvent) :
    ∀ (d2 r1 r2 : List ChartEvent), d1 ++ r1 = d2 ++ r2 →
      (∀ e ∈ d1, e.time < t) → (∀ e ∈ r1, t < e.time) →
      (∀ e ∈ d2, e.time < t) → (∀ e ∈ r2, t < e.time) → d1 = d2 := by
  induction d1 with
  | nil =>
    intro d2 r1 r2 h _ hr1 hd2 _
    cases d2 with
    | nil => rfl
    | cons x d2 =>
      simp only [List.nil_append, List.cons_append] at h
      have h1 := hr1 x (by rw [h]; simp)
      have h2 := hd2 x (by simp)
      exact absurd h1 (not_lt.mpr (le_of_lt h2))
  | cons x d1 ih =>
    intro d2 r1 r2 h hd1 hr1 hd2 hr2
    cases d2 with
    | nil =>
      simp only [List.nil_append, List.cons_append] at h
      have h1 := hr2 x (by rw [← h]; simp)
      have h2 := hd1 x (by simp)
      exact absurd h1 (not_lt.mpr (le_of_lt h2))
    | cons y d2 =>
      simp only [List.cons_append, List.cons.injEq] at h
      rw [h.1, ih d2 r1 r2 h.2 (fun e he => hd1 e (List.mem_cons_of_mem _ he)) hr1
        (fun e he => hd2 e (List.mem_cons_of_mem _ he)) hr2]

theorem replayedUpTo_unique (evs : List ChartEvent) (c0 : SampleState) (t : nanoseconds)
    (s1 s2 : ChartManager) (hne : ∀ e ∈ evs, e.time ≠ t)
    (h1 : ReplayedUpTo evs c0 t s1) (h2 : ReplayedUpTo evs c0 t s2) :
    sampleState s1 = sampleState s2 := by
  obtain ⟨d1, r1, a1, a2, a3, a4⟩ := h1
  obtain ⟨d2, r2, b1, b2, b3, b4⟩ := h2
  have hd : d1 = d2 := by
    apply split_unique t d1 d2 r1 r2 (a1.symm.trans b1)
    · intro e he
      exact lt_of_le_of_ne (a3 e he) (hne e (by rw [a1]; exact List.mem_append_left _ he))
    · intro e he
      exact lt_of_le_of_ne (a4 e he)
        (fun h => hne e (by rw [a1]; exact List.mem_append_right _ he) h.symm)
    · intro e he
      exact lt_of_le_of_ne (b3 e he) (hne e (by rw [b1]; exact List.mem_append_left _ he))
    · intro e he
      exact lt_of_le_of_ne (b4 e he)
        (fun h => hne e (by rw [b1]; exact List.mem_append_right _ he) h.symm)
  subst hd
  rw [a2] at b2
  exact Option.some.inj b2

theorem samplesOf_of_sampleState (s1 s2 : ChartManager) (h : sampleState s1 = sampleState s2)
    (id : Nat) : samplesOf s1 id = samplesOf s2 id := by
  have hs : (findSeries s1.series id).map sampleTie = (findSeries s2.series id).map sampleTie := by
    rw [← sFind_map, ← sFind_map]
    exact congrArg (fun c : SampleState => sFind c.series id) h
  unfold samplesOf
  cases h1 : findSeries s1.series id with
  | none =>
    cases h2 : findSeries s2.series id with
    | none => rfl
    | some b => rw [h1, h2] at hs; simp at hs
  | some a =>
    cases h2 : findSeries s2.series id with
    | none => rw [h1, h2] at hs; simp at hs
    | some b =>
      rw [h1, h2] at hs
      simp only [Option.map_some', Option.some.injEq] at hs
      cases a <;> cases b <;> simp [sampleTie] at hs <;> simp [hs]

/-! ## One event applied and inverted -/

theorem samplesOf_eq_sSamples (st : ChartManager) (id : Nat) :
    samplesOf st id = sSamples (sampleState st).series id := by
  unfold samplesOf sSamples
  simp only [sampleState, sFind_map]
  cases findSeries st.series id with
  | none => rfl
  | some tie => cases tie <;> rfl

theorem sApply_samples (e : ChartEvent) (c c1 : SampleState) (samples : List QPointF)
    (h : sApply e c = some c1) (hs : sSamples c.series e.seriesId = some samples) :
    sSamples c1.series e.seriesId = some (samplesAfter e samples) ∧
    ∀ x, e = .clear x → c1.undoEvents.head? = some (.clear { event := x, points := samples }) := by
  cases e with
  | addValue e =>
    simp only [sApply] at h
    split at h
    · rename_i model points hf
      simp only [Option.some.injEq] at h
      subst h
      simp only [ChartEvent.seriesId, sSamples, hf, Option.some.injEq] at hs
      subst hs
      refine ⟨?_, fun x hx => by simp at hx⟩
      simp only [ChartEvent.seriesId, sSamples, sFind_sSet_self _ _ _ _ hf, samplesAfter,
        appended, QXYSeries.append]
    · simp at h
  | addValues e =>
    simp only [sApply] at h
    split at h
    · rename_i model points hf
      simp only [Option.some.injEq] at h
      subst h
      simp only [ChartEvent.seriesId, sSamples, hf, Option.some.injEq] at hs
      subst hs
      refine ⟨?_, fun x hx => by simp at hx⟩
      simp only [ChartEvent.seriesId, sSamples, sFind_sSet_self _ _ _ _ hf, samplesAfter,
        appended, foldl_append_eq]
    · simp at h
  | clear e =>
    simp only [sApply] at h
    split at h
    · rename_i model points hf
      simp only [Option.some.injEq] at h
      subst h
      simp only [ChartEvent.seriesId, sSamples, hf, Option.some.injEq] at hs
      subst hs
      refine ⟨?_, fun x hx => ?_⟩
      · simp only [ChartEvent.seriesId, sSamples, sFind_sSet_self _ _ _ _ hf, samplesAfter]
      · simp only [ChartEvent.clear.injEq] at hx
        subst hx; rfl
    · simp at h
  | categoryAddValue e =>
    simp only [sApply] at h
    split at h
    · rename_i model points hf
      simp only [Option.some.injEq] at h
      subst h
      simp only [ChartEvent.seriesId, sSamples, hf, Option.some.injEq] at hs
      subst hs
      refine ⟨?_, fun x hx => by simp at hx⟩
      simp only [ChartEvent.seriesId, sSamples, sFind_sSet_self _ _ _ _ hf, samplesAfter,
        appended, QXYSeries.append]
    · simp at h

/-- The handler pair on one event at the front of the queue. -/
theorem handler_round_trip (t t0 : nanoseconds) (e : ChartEvent) (rest : List ChartEvent)
    (st : ChartManager) (samples : List QPointF)
    (hfront : st.events = e :: rest) (hreg : targetsRegistered st.series e)
    (hs : samplesOf st e.seriesId = some samples) (hdue : e.time ≤ t) (hback : t0 ≤ e.time) :
    ∃ (st1 : ChartManager) (r : UndoEvent) (st2 : ChartManager),
      handleEvent t e st = some (true, st1) ∧ st1.events = rest ∧
      st1.undoEvents = r :: st.undoEvents ∧ r.event = e ∧
      (∀ x, e = .clear x → r = .clear { event := x, points := samples }) ∧
      samplesOf st1 e.seriesId = some (samplesAfter e samples) ∧
      declared st1.series = declared st.series ∧
      handleUndoEvent t0 r st1 = some (true, st2) ∧
      st2.events = st.events ∧ st2.undoEvents = r :: st.undoEvents ∧
      declared st2.series = declared st.series ∧
      (∀ id, samplesOf st2 id = samplesOf st id) := by
  obtain ⟨st1, r, hh, hev, hun, hr, _, _⟩ := handleEvent_applies t e st hreg hdue
  have hsam := handleEvent_sample t e st hdue
  rw [hh] at hsam
  simp only [Option.map_some'] at hsam
  cases ha : sApply e (sampleState st) with
  | none => simp [ha] at hsam
  | some c1 =>
    simp only [ha, Option.map_some', Option.some.injEq, Prod.mk.injEq, true_and] at hsam
    subst hsam
    obtain ⟨s1, s2⟩ := sApply_samples e (sampleState st) (sampleState st1) samples ha
      (by rw [← samplesOf_eq_sSamples]; exact hs)
    obtain ⟨r1, u1, u2, _, u4⟩ := sUndo_sApply e (sampleState st) (sampleState st1) rest hfront ha
    have hr1 : r1 = r := by
      have : (sampleState st1).undoEvents = st1.undoEvents := rfl
      rw [this, hun] at u1
      exact (List.cons.inj u1).1.symm
    subst hr1
    have hus := handleUndoEvent_sample t0 r1 st1 (by rw [hr]; exact hback)
    rw [u4] at hus
    cases hh2 : handleUndoEvent t0 r1 st1 with
    | none => simp [hh2] at hus
    | some res =>
      obtain ⟨b, st2⟩ := res
      simp only [hh2, Option.map_some', Option.some.injEq, Prod.mk.injEq] at hus
      obtain ⟨hb, hst2⟩ := hus
      subst hb
      obtain ⟨_, v2, v3, _⟩ := handleUndoEvent_true t0 r1 st1 st2 hh2
      have hd1 := handleEvent_declared t e st st1 true hh
      have hd2 := handleUndoEvent_declared t0 r1 st1 st2 true hh2
      refine ⟨st1, r1, st2, hh, by rw [hev, hfront]; rfl, hun, hr, ?_, ?_, hd1, hh2, ?_, ?_,
        hd2.trans hd1, ?_⟩
      · intro x hx
        have := s2 x hx
        have h3 : (sampleState st1).undoEvents = st1.undoEvents := rfl
        rw [h3, hun] at this
        simpa using this
      · rw [samplesOf_eq_sSamples]; exact s1
      · rw [v2, hr, hev, hfront]; rfl
      · rw [v3, hun]
      · intro id
        have := samplesOf_of_sampleState _ _ hst2 id
        rw [← this]; rfl

theorem drainEvents_stop (t : nanoseconds) (fuel : Nat) (st : ChartManager)
    (h : ∀ e ∈ st.events, t < e.time) : drainEvents t fuel st = some st := by
  cases fuel with
  | zero => rfl
  | succ fuel =>
    cases hev : st.events with
    | nil => simp [drainEvents, hev]
    | cons e rest =>
      have hlt : e.time > t := h e (by rw [hev]; simp)
      simp [drainEvents, hev, handleEvent, hlt]

theorem drainUndoEvents_stop (t : nanoseconds) (fuel : Nat) (st : ChartManager)
    (h : ∀ r ∈ st.undoEvents, r.event.time < t) : drainUndoEvents t fuel st = some st := by
  cases fuel with
  | zero => rfl
  | succ fuel =>
    cases hev : st.undoEvents with
    | nil => simp [drainUndoEvents, hev]
    | cons r rest =>
      have hlt : t > r.event.time := h r (by rw [hev]; simp)
      simp [drainUndoEvents, hev, handleUndoEvent, hlt]

/-- The two drains on one event at the front of the queue, nothing else being due and
nothing older being inverted, in a registry without auto-advancing series. -/
theorem call_round_trip (t t0 : nanoseconds) (e : ChartEvent) (rest : List ChartEvent)
    (st : ChartManager) (samples : List QPointF)
    (hfront : st.events = e :: rest) (hreg : targetsRegistered st.series e)
    (hs : samplesOf st e.seriesId = some samples) (hdue : e.time ≤ t) (hback : t0 ≤ e.time)
    (hno : noAutoUpdate st.series) (hrest : ∀ e1 ∈ rest, t < e1.time)
    (hold : ∀ r1 ∈ st.undoEvents, r1.event.time < t0) :
    ∃ (a : ChartManager) (r : UndoEvent) (b : ChartManager),
      timeAdvanced t st = some a ∧ a.events = rest ∧ a.undoEvents = r :: st.undoEvents ∧
      r.event = e ∧ (∀ x, e = .clear x → r = .clear { event := x, points := samples }) ∧
      samplesOf a e.seriesId = some (samplesAfter e samples) ∧
      timeRewound t0 a = some b ∧ b.events = st.events ∧ b.undoEvents = st.undoEvents ∧
      (∀ id, samplesOf b id = samplesOf st id) := by
  obtain ⟨st1, r, st2, h1, h2, h3, h4, h5, h6, h7, h8, h9, h10, h11, h12⟩ :=
    handler_round_trip t t0 e rest st samples hfront hreg hs hdue hback
  have hno1 : noAutoUpdate st1.series := noAutoUpdate_of_declared h7 hno
  have hadv : timeAdvanced t st = some st1 := by
    unfold timeAdvanced
    have : drainEvents t st.events.length st = some st1 := by
      rw [hfront]
      simp only [List.length_cons, drainEvents, hfront, h1]
      exact drainEvents_stop t _ st1 (by rw [h2]; exact hrest)
    rw [this, Option.map_some', fakeEvents_of_noAutoUpdate t st1 hno1]
  have hrew : timeRewound t0 st1 =
      some { st2 with undoEvents := st2.undoEvents.tail } := by
    unfold timeRewound
    rw [h3]
    simp only [List.length_cons, drainUndoEvents, h3, h8]
    exact drainUndoEvents_stop t0 _ _ (by simp only [h10, List.tail_cons]; exact hold)
  exact ⟨st1, r, _, hadv, h2, h3, h4, h5, h6, hrew, h9, by simp [h10], h12⟩

/-! ## Claims -/

/-- C1: `timeAdvanced(t)` on a state whose queued events all target a registered series of
the matching kind returns a state. It removes from the front of the forward queue exactly
the longest prefix of events with `time ≤ t` (`takeWhile` / `dropWhile`), the state before
the fake-event loop is the result of applying that prefix with the handler one event after
the other, one undo record per removed event is pushed in that order (the record of the
last removed event on top), any record above them was fabricated by the fake-event loop at
time `t`, and the queue left behind is empty or starts with an event later than `t`. -/
theorem timeAdvanced_drains_due (t : nanoseconds) (st : ChartManager)
    (hreg : ∀ e ∈ st.events, targetsRegistered st.series e) :
    ∃ (drained st1 : ChartManager) (records synth : List UndoEvent),
      timeAdvanced t st = some st1 ∧
      applyEvents t (st.events.takeWhile fun e => decide (e.time ≤ t)) st = some drained ∧
      st1 = fakeEvents t drained ∧
      st1.events = st.events.dropWhile (fun e => decide (e.time ≤ t)) ∧
      records.map UndoEvent.event = st.events.takeWhile (fun e => decide (e.time ≤ t)) ∧
      drained.undoEvents = records.reverse ++ st.undoEvents ∧
      st1.undoEvents = synth ++ (records.reverse ++ st.undoEvents) ∧
      (∀ r ∈ synth, isFabricated t r) ∧
      (st1.events = [] ∨ ∃ e rest, st1.events = e :: rest ∧ t < e.time) := by
  obtain ⟨drained, records, hd, ha, hev, hun, hrec, _, _⟩ :=
    drainEvents_spec t st.events.length st (le_refl _) hreg
  obtain ⟨f1, _, synth, hs, f3⟩ := foldl_fakeEvent_spec t (List.range drained.series.length) drained
  have hev1 : (fakeEvents t drained).events =
      st.events.dropWhile (fun e => decide (e.time ≤ t)) := by
    unfold fakeEvents; rw [f1, hev]
  refine ⟨drained, fakeEvents t drained, records, synth, ?_, ha, rfl, hev1, hrec, hun, ?_, hs, ?_⟩
  · simp [timeAdvanced, hd]
  · unfold fakeEvents; rw [f3, hun]
  · rw [hev1]
    cases hdw : st.events.dropWhile (fun e => decide (e.time ≤ t)) with
    | nil => exact Or.inl rfl
    | cons e rest =>
      refine Or.inr ⟨e, rest, rfl, ?_⟩
      have h := List.head_dropWhile_not (fun e : ChartEvent => decide (e.time ≤ t)) st.events
        (by rw [hdw]; simp)
      simp only [hdw, List.head_cons, decide_eq_false_iff_not] at h
      exact not_le.mp h

/-- Witness of C1 on the mixed trace at `t = 5`. -/
theorem timeAdvanced_drains_due_witness :
    (∀ e ∈ Scenario.mixedTrace.events, targetsRegistered Scenario.mixedTrace.series e) ∧
    ∃ (drained st1 : ChartManager) (records synth : List UndoEvent),
      timeAdvanced 5 Scenario.mixedTrace = some st1 ∧
      applyEvents 5 (Scenario.mixedTrace.events.takeWhile fun e => decide (e.time ≤ 5))
        Scenario.mixedTrace = some drained ∧
      st1 = fakeEvents 5 drained ∧
      st1.events = Scenario.mixedTrace.events.dropWhile (fun e => decide (e.time ≤ 5)) ∧
      records.map UndoEvent.event =
        Scenario.mixedTrace.events.takeWhile (fun e => decide (e.time ≤ 5)) ∧
      drained.undoEvents = records.reverse ++ Scenario.mixedTrace.undoEvents ∧
      st1.undoEvents = synth ++ (records.reverse ++ Scenario.mixedTrace.undoEvents) ∧
      (∀ r ∈ synth, isFabricated 5 r) ∧
      (st1.events = [] ∨ ∃ e rest, st1.events = e :: rest ∧ 5 < e.time) :=
  ⟨by decide, timeAdvanced_drains_due 5 Scenario.mixedTrace (by decide)⟩

/-- C2 (counterexample): on the point trace the event of time 5 is applied by
`timeAdvanced 5`; a following `timeRewound 5`, whose target equals the event time, pops
its record, removes its sample and puts the event back on the forward queue. -/
theorem timeRewound_inverts_record_at_target_time :
    (timeAdvanced 5 Scenario.pointTrace).map
        (fun s => (s.undoEvents.map fun r => r.event.time, s.events.length, samplesOf s 1)) =
      some ([5], 0, some [{ x := 1, y := 15 }]) ∧
    ((timeAdvanced 5 Scenario.pointTrace).bind (timeRewound 5)).map
        (fun s => (s.undoEvents.length, s.events.map ChartEvent.time, samplesOf s 1)) =
      some (0, [5], some []) := by
  decide

/-- C3: whenever `timeRewound(t)` returns, the records it popped are a top segment of the
undo stack, their original events are pushed onto the front of the forward queue so that
they sit there in their original application order, and the sequence "original events of
the undo stack bottom to top, then forward queue front to back" is unchanged. -/
theorem timeRewound_preserves_event_sequence (t : nanoseconds) (st st1 : ChartManager)
    (h : timeRewound t st = some st1) :
    (∃ popped, st.undoEvents = popped ++ st1.undoEvents ∧
      st1.events = popped.reverse.map UndoEvent.event ++ st.events) ∧
    st1.undoEvents.reverse.map UndoEvent.event ++ st1.events =
      st.undoEvents.reverse.map UndoEvent.event ++ st.events := by
  exact timeRewound_eventSequence t st st1 h

/-- Witness of C3: the mixed trace advanced to time 9 and rewound to time 3; the records of
times 9 and 5 are popped and their events re-queued in the order 5, 9. -/
theorem timeRewound_preserves_event_sequence_witness :
    timeRewound 3 Scenario.mixedAt9 = some Scenario.mixedBackAt3 ∧
    Scenario.mixedBackAt3.events.map ChartEvent.time = [5, 9] ∧
    ((∃ popped, Scenario.mixedAt9.undoEvents = popped ++ Scenario.mixedBackAt3.undoEvents ∧
      Scenario.mixedBackAt3.events =
        popped.reverse.map UndoEvent.event ++ Scenario.mixedAt9.events) ∧
    Scenario.mixedBackAt3.undoEvents.reverse.map UndoEvent.event ++
        Scenario.mixedBackAt3.events =
      Scenario.mixedAt9.undoEvents.reverse.map UndoEvent.event ++ Scenario.mixedAt9.events) :=
  ⟨by with_unfolding_all decide, by decide,
    timeRewound_preserves_event_sequence 3 Scenario.mixedAt9 Scenario.mixedBackAt3
      (by with_unfolding_all decide)⟩

/-- C4 (counterexample): the category trace holds N = 1 event; after the calls
`timeChanged(0, 1)` and `timeChanged(100, 100)` the forward queue is empty and the undo
stack holds 2 records (the real event and a fabricated one), and a rewind to time 0 then
leaves 2 events in the forward queue. -/
theorem conservation_fails_with_fabricated_event :
    Scenario.categoryTrace.events.length = 1 ∧
    (runCalls [(0, 1), (100, 100)] Scenario.categoryTrace).map
        (fun s => (s.events.length, s.undoEvents.length)) = some (0, 2) ∧
    (runCalls [(0, 1), (100, 100), (0, -100)] Scenario.categoryTrace).map
        (fun s => (s.events.length, s.undoEvents.length)) = some (2, 0) := by
  decide

/-- C4 (amended): in every state reached from `reset`, `addSeries` and `enqueueEvents` of
the N events `evs` by a run of `timeChanged` calls, the original events are, in their
original order, a subsequence of the event sequence (undo stack bottom to top, then
forward queue), and the length of the forward queue plus the length of the undo stack is
N plus the number of events fabricated so far for auto-advancing category series. When no
category series is auto-advancing the event sequence is exactly `evs` and the two lengths
add up to N. -/
theorem conservation_up_to_fabricated (st0 : ChartManager) (xySeries : List XYSeries)
    (collections : List SeriesCollection) (categoryValueSeries : List CategoryValueSeries)
    (evs : List ChartEvent) (calls : List (nanoseconds × nanoseconds)) (st : ChartManager)
    (h : runCalls calls
      (enqueueEvents evs (addSeries xySeries collections categoryValueSeries (reset st0))) =
        some st) :
    evs.Sublist (eventSequence st) ∧
    st.events.length + st.undoEvents.length =
      evs.length + fabricatedCount calls
        (enqueueEvents evs (addSeries xySeries collections categoryValueSeries (reset st0))) ∧
    ((∀ c ∈ categoryValueSeries, c.autoUpdate = false) →
      eventSequence st = evs ∧ st.events.length + st.undoEvents.length = evs.length) := by
  obtain ⟨h1, h2, _, h4⟩ := runCalls_eventSequence calls _ st h
  obtain ⟨e1, e2⟩ := addSeries_events xySeries collections categoryValueSeries (reset st0)
  have hev : (enqueueEvents evs
      (addSeries xySeries collections categoryValueSeries (reset st0))).events = evs := by
    show (addSeries xySeries collections categoryValueSeries (reset st0)).events ++ evs = evs
    rw [e1]; rfl
  have hun : (enqueueEvents evs
      (addSeries xySeries collections categoryValueSeries (reset st0))).undoEvents = [] := by
    show (addSeries xySeries collections categoryValueSeries (reset st0)).undoEvents = []
    rw [e2]; rfl
  have hseq : eventSequence (enqueueEvents evs
      (addSeries xySeries collections categoryValueSeries (reset st0))) = evs := by
    simp [eventSequence, hev, hun]
  rw [hseq] at h1 h4
  rw [hev, hun] at h2
  refine ⟨h1, by simpa using h2, ?_⟩
  intro hc
  have hno : noAutoUpdate (enqueueEvents evs
      (addSeries xySeries collections categoryValueSeries (reset st0))).series := by
    apply addSeries_noAutoUpdate _ _ _ _ _ hc
    intro entry hmem
    simp [reset, declared] at hmem
  have hs := h4 hno
  refine ⟨hs, ?_⟩
  have := congrArg List.length hs
  simp only [eventSequence, List.length_append, List.length_map, List.length_reverse] at this
  omega

/-- Witness of C4 (amended): the category trace after the calls (0, 1) and (100, 100), with
one fabricated event, and the plain trace (no auto-advancing series) after three calls. -/
theorem conservation_up_to_fabricated_witness :
    (runCalls [(0, 1), (100, 100)] Scenario.categoryTrace = some Scenario.categoryAt100 ∧
      Scenario.categoryAt100.events.length + Scenario.categoryAt100.undoEvents.length = 2 ∧
      [ChartEvent.categoryAddValue { time := 0, seriesId := 2, value := 0, category := 2 }].Sublist
        (eventSequence Scenario.categoryAt100)) ∧
    (eventSequence Scenario.plainAt7 = Scenario.plainEvents ∧
      Scenario.plainAt7.events.length + Scenario.plainAt7.undoEvents.length = 4) :=
  ⟨⟨by with_unfolding_all decide, by decide,
      (conservation_up_to_fabricated Scenario.empty [] [] [Scenario.categorySeries]
        [.categoryAddValue { time := 0, seriesId := 2, value := 0, category := 2 }]
        [(0, 1), (100, 100)] Scenario.categoryAt100 (by with_unfolding_all decide)).1⟩,
    ((conservation_up_to_fabricated Scenario.empty [Scenario.pointSeries] []
        [Scenario.plainCategory] Scenario.plainEvents [(7, 1)] Scenario.plainAt7
        (by with_unfolding_all decide)).2.2 (by decide))⟩

/-- C5 (counterexample): three round trips that do not restore the state of the first visit.
On the point trace the cursor visits 0, 5, 0: the samples are restored but the series' own
y range stays [0, 15.75] instead of [0, 10]. On the category trace (auto-advancing series)
the cursor visits 250 twice by different intermediate times and finds four samples
instead of three. On the point trace the cursor visits 5, 9, 5: the sample of the event
stamped 5 is present at the first visit and gone at the second. -/
theorem round_trip_fails :
    ((runCalls (cursorCalls (-1) [0]) Scenario.pointTrace).map
        (fun s => (samplesOf s 1, axisRangesOf s 1)) =
      some (some [], some [(0, 10), (0, 10)]) ∧
     (runCalls (cursorCalls (-1) [0, 5, 0]) Scenario.pointTrace).map
        (fun s => (samplesOf s 1, axisRangesOf s 1)) =
      some (some [], some [(0, 10), (0, 63 / 4)])) ∧
    ((runCalls (cursorCalls (-1) [0, 100, 250]) Scenario.categoryTrace).map
        (fun s => samplesOf s 2) =
      some (some [{ x := 0, y := 2 }, { x := 1, y := 2 }, { x := 2, y := 2 }]) ∧
     (runCalls (cursorCalls (-1) [0, 100, 250, 50, 100, 200, 250]) Scenario.categoryTrace).map
        (fun s => samplesOf s 2) =
      some (some [{ x := 0, y := 2 }, { x := 1, y := 2 }, { x := 2, y := 2 },
        { x := 2, y := 2 }])) ∧
    ((runCalls (cursorCalls (-1) [5]) Scenario.pointTrace).map (fun s => samplesOf s 1) =
      some (some [{ x := 1, y := 15 }]) ∧
     (runCalls (cursorCalls (-1) [5, 9, 5]) Scenario.pointTrace).map (fun s => samplesOf s 1) =
      some (some [])) := by
  refine ⟨⟨?_, ?_⟩, ⟨?_, ?_⟩, ⟨?_, ?_⟩⟩ <;> with_unfolding_all decide

/-- C5 (amended): take a state with an empty undo stack whose queued events are sorted by
time and target registered series of the matching kind, without auto-advancing category
series, and a cursor that starts no later than the first event and moves by `timeChanged`
calls with `increment = new time - previous time`. Every such run returns; and whenever it
brings the cursor back to a previously visited time `t` at which no event is stamped,
every sample sequence, the forward queue and the undo stack are identical to what they
were at the first visit of `t`. Axis ranges are not part of the statement. -/
theorem round_trip_samples (st0 : ChartManager) (prev t : nanoseconds)
    (first later : List nanoseconds)
    (hundo : st0.undoEvents = [])
    (hsorted : st0.events.Pairwise fun a b => a.time ≤ b.time)
    (hreg : ∀ e ∈ st0.events, targetsRegistered st0.series e)
    (hno : noAutoUpdate st0.series)
    (hstart : ∀ e ∈ st0.events, prev ≤ e.time)
    (hne : ∀ e ∈ st0.events, e.time ≠ t) :
    ∃ s1 s2, runCalls (cursorCalls prev (first ++ [t])) st0 = some s1 ∧
      runCalls (cursorCalls prev (first ++ [t] ++ later ++ [t])) st0 = some s2 ∧
      (∀ id, samplesOf s2 id = samplesOf s1 id) ∧
      s2.events = s1.events ∧ s2.undoEvents = s1.undoEvents := by
  have hinv : ReplayedUpTo st0.events (sampleState st0) prev st0 :=
    ⟨[], st0.events, rfl, rfl, by simp, hstart⟩
  obtain ⟨s1, a1, _, a3⟩ := runCalls_replayed st0.events (sampleState st0) st0 hsorted hreg hno
    rfl hundo (first ++ [t]) prev st0 rfl hinv
  obtain ⟨s2, b1, _, b3⟩ := runCalls_replayed st0.events (sampleState st0) st0 hsorted hreg hno
    rfl hundo (first ++ [t] ++ later ++ [t]) prev st0 rfl hinv
  rw [finalTime_append] at a3 b3
  have heq := replayedUpTo_unique st0.events (sampleState st0) t s2 s1 hne b3 a3
  exact ⟨s1, s2, a1, b1, samplesOf_of_sampleState s2 s1 heq,
    congrArg SampleState.events heq, congrArg SampleState.undoEvents heq⟩

/-- Witness of C5 (amended): on the plain trace the cursor starts at 0 and visits
6, 3, 10, 2, 3; no event is stamped 3. -/
theorem round_trip_samples_witness :
    ∃ s1 s2, runCalls (cursorCalls 0 ([6] ++ [3])) Scenario.plainTrace = some s1 ∧
      runCalls (cursorCalls 0 ([6] ++ [3] ++ [10, 2] ++ [3])) Scenario.plainTrace = some s2 ∧
      (∀ id, samplesOf s2 id = samplesOf s1 id) ∧
      s2.events = s1.events ∧ s2.undoEvents = s1.undoEvents :=
  round_trip_samples Scenario.plainTrace 0 3 [6] [10, 2] (by decide) (by decide) (by decide)
    (by decide) (by decide) (by decide)

/-- C6 (counterexample): after `timeChanged(5, 5)` on the point trace, the repeated call
`timeChanged(5, 0)` is not a no-op: it empties the undo stack, re-queues the event of
time 5 and removes its sample. -/
theorem timeChanged_repeated_call_inverts :
    (timeChanged 5 5 Scenario.pointTrace).map
        (fun s => (s.undoEvents.length, s.events.length, samplesOf s 1)) =
      some (1, 0, some [{ x := 1, y := 15 }]) ∧
    ((timeChanged 5 5 Scenario.pointTrace).bind (timeChanged 5 0)).map
        (fun s => (s.undoEvents.length, s.events.length, samplesOf s 1)) =
      some (0, 1, some []) := by
  decide

/-- C7 (counterexample): with increment 0 `timeChanged` does not run the forward drain: on
the point trace at time 5 it leaves the due event queued, while `timeAdvanced 5` applies it. -/
theorem timeChanged_zero_increment_not_forward :
    timeChanged 5 0 Scenario.pointTrace ≠ timeAdvanced 5 Scenario.pointTrace ∧
    (timeChanged 5 0 Scenario.pointTrace).map (fun s => s.events.length) = some 1 ∧
    (timeAdvanced 5 Scenario.pointTrace).map (fun s => s.events.length) = some 0 := by
  decide

/-- C7 (amended): `timeChanged(time, increment)` runs the forward drain `timeAdvanced(time)`
exactly for `increment > 0` and the backward drain `timeRewound(time)` for every
`increment ≤ 0`, zero included. -/
theorem timeChanged_direction (time increment : nanoseconds) (st : ChartManager) :
    (0 < increment → timeChanged time increment st = timeAdvanced time st) ∧
    (increment ≤ 0 → timeChanged time increment st = timeRewound time st) := by
  constructor
  · intro h; simp [timeChanged, h]
  · intro h; simp [timeChanged, not_lt.mpr h]

/-- Witness of C7 (amended) at increments 1, 0 and -1. -/
theorem timeChanged_direction_witness :
    timeChanged 5 1 Scenario.pointTrace = timeAdvanced 5 Scenario.pointTrace ∧
    timeChanged 5 0 Scenario.pointTrace = timeRewound 5 Scenario.pointTrace ∧
    timeChanged 5 (-1) Scenario.pointTrace = timeRewound 5 Scenario.pointTrace :=
  ⟨(timeChanged_direction 5 1 Scenario.pointTrace).1 (by decide),
   (timeChanged_direction 5 0 Scenario.pointTrace).2 (by decide),
   (timeChanged_direction 5 (-1) Scenario.pointTrace).2 (by decide)⟩

/-- C8: a point series holds the samples `L = s.qtSeries` and an `XYSeriesClear` for it is
at the front of the queue. The forward handler of `timeAdvanced(t)` empties the series and
pushes the record that stores `L`; the backward handler of `timeRewound(t0)`, `t0` before
the event, run on that record restores exactly `L`. As whole calls, when no other queued
event is due at `t`, no older record is at or after `t0` and no category series is
auto-advancing: `timeAdvanced(t)` empties the series and leaves that record on top, and
the following `timeRewound(t0)` restores `L`, the forward queue and the undo stack. -/
theorem clear_round_trip (t t0 : nanoseconds) (x : XYSeriesClear) (rest : List ChartEvent)
    (st : ChartManager) (s : XYSeriesTie)
    (hfront : st.events = .clear x :: rest)
    (hs : findSeries st.series x.seriesId = some (.xy s))
    (hdue : x.time ≤ t) (hback : t0 < x.time) :
    (∃ st1 st2, handleEvent t (.clear x) st = some (true, st1) ∧
      samplesOf st1 x.seriesId = some [] ∧
      st1.undoEvents = .clear { event := x, points := s.qtSeries } :: st.undoEvents ∧
      handleUndoEvent t0 (.clear { event := x, points := s.qtSeries }) st1 = some (true, st2) ∧
      samplesOf st2 x.seriesId = some s.qtSeries) ∧
    (noAutoUpdate st.series → (∀ e1 ∈ rest, t < e1.time) →
      (∀ r1 ∈ st.undoEvents, r1.event.time < t0) →
      ∃ a b, timeAdvanced t st = some a ∧ samplesOf a x.seriesId = some [] ∧
        a.undoEvents = .clear { event := x, points := s.qtSeries } :: st.undoEvents ∧
        timeRewound t0 a = some b ∧ samplesOf b x.seriesId = some s.qtSeries ∧
        b.events = st.events ∧ b.undoEvents = st.undoEvents) := by
  have hreg : targetsRegistered st.series (.clear x) := by
    simp [targetsRegistered, ChartEvent.seriesId, hs, tieKind, eventKind]
  have hsam : samplesOf st (ChartEvent.clear x).seriesId = some s.qtSeries := by
    simp [samplesOf, ChartEvent.seriesId, hs]
  constructor
  · obtain ⟨st1, r, st2, h1, _, h3, _, h5, h6, _, h8, _, _, _, h12⟩ :=
      handler_round_trip t t0 (.clear x) rest st s.qtSeries hfront hreg hsam hdue (le_of_lt hback)
    have hr := h5 x rfl
    subst hr
    exact ⟨st1, st2, h1, h6, h3, h8, (h12 _).trans hsam⟩
  · intro hno hrest hold
    obtain ⟨a, r, b, h1, _, h3, _, h5, h6, h7, h8, h9, h10⟩ :=
      call_round_trip t t0 (.clear x) rest st s.qtSeries hfront hreg hsam hdue (le_of_lt hback)
        hno hrest hold
    have hr := h5 x rfl
    subst hr
    exact ⟨a, b, h1, h6, h3, h7, (h10 _).trans hsam, h8, h9⟩

/-- Witness of C8: the point series of the plain trace holds 3 samples at time 7; the clear
event of time 9 is applied at `t = 9` and rewound to `t0 = 8`. -/
theorem clear_round_trip_witness :
    Scenario.pointTieAt7.qtSeries =
      [{ x := 1, y := 1 }, { x := 2, y := 4 }, { x := 7, y := 7 }] ∧
    (∃ st1 st2, handleEvent 9 (.clear Scenario.clearAt9) Scenario.plainAt7 = some (true, st1) ∧
      samplesOf st1 Scenario.clearAt9.seriesId = some [] ∧
      st1.undoEvents = Scenario.clearRecord :: Scenario.plainAt7.undoEvents ∧
      handleUndoEvent 8 Scenario.clearRecord st1 = some (true, st2) ∧
      samplesOf st2 Scenario.clearAt9.seriesId = some Scenario.pointTieAt7.qtSeries) ∧
    (∃ a b, timeAdvanced 9 Scenario.plainAt7 = some a ∧
      samplesOf a Scenario.clearAt9.seriesId = some [] ∧
      a.undoEvents = Scenario.clearRecord :: Scenario.plainAt7.undoEvents ∧
      timeRewound 8 a = some b ∧
      samplesOf b Scenario.clearAt9.seriesId = some Scenario.pointTieAt7.qtSeries ∧
      b.events = Scenario.plainAt7.events ∧
      b.undoEvents = Scenario.plainAt7.undoEvents) :=
  ⟨by decide,
    (clear_round_trip 9 8 Scenario.clearAt9 [] Scenario.plainAt7 Scenario.pointTieAt7
      (by decide) (by with_unfolding_all decide) (by decide) (by decide)).1,
    (clear_round_trip 9 8 Scenario.clearAt9 [] Scenario.plainAt7 Scenario.pointTieAt7
      (by decide) (by with_unfolding_all decide) (by decide) (by decide)).2
      (by decide) (by decide) (by decide)⟩

/-- C9: a series holds the samples `L` and an `XYSeriesAddValue`, an `XYSeriesAddValues`
(any number of points, zero included) or a `CategorySeriesAddValue` event `e` for it is at
the front of the queue. The forward handler of `timeAdvanced(t)` appends the samples of
`e` to the end of `L` in order and pushes the record of `e`; the backward handler of
`timeRewound(t0)`, `t0` before the event, run on that record removes them again and gives
back exactly `L`. As whole calls, when no other queued event is due at `t`, no older
record is at or after `t0` and no category series is auto-advancing: `timeAdvanced(t)`
leaves `L ++ appended e` and that record on top, and the following `timeRewound(t0)`
restores `L`, the forward queue and the undo stack. -/
theorem append_round_trip (t t0 : nanoseconds) (e : ChartEvent) (rest : List ChartEvent)
    (st : ChartManager) (L : List QPointF)
    (hfront : st.events = e :: rest)
    (hkind : isClear e = false)
    (hreg : targetsRegistered st.series e)
    (hL : samplesOf st e.seriesId = some L)
    (hdue : e.time ≤ t) (hback : t0 < e.time) :
    (∃ st1 r st2, handleEvent t e st = some (true, st1) ∧
      samplesOf st1 e.seriesId = some (L ++ appended e) ∧
      st1.undoEvents = r :: st.undoEvents ∧ r.event = e ∧
      handleUndoEvent t0 r st1 = some (true, st2) ∧
      samplesOf st2 e.seriesId = some L) ∧
    (noAutoUpdate st.series → (∀ e1 ∈ rest, t < e1.time) →
      (∀ r1 ∈ st.undoEvents, r1.event.time < t0) →
      ∃ a r b, timeAdvanced t st = some a ∧ samplesOf a e.seriesId = some (L ++ appended e) ∧
        a.undoEvents = r :: st.undoEvents ∧ r.event = e ∧
        timeRewound t0 a = some b ∧ samplesOf b e.seriesId = some L ∧
        b.events = st.events ∧ b.undoEvents = st.undoEvents) := by
  have hafter : samplesAfter e L = L ++ appended e := by
    cases e with
    | clear x => simp [isClear] at hkind
    | addValue _ => rfl
    | addValues _ => rfl
    | categoryAddValue _ => rfl
  constructor
  · obtain ⟨st1, r, st2, h1, _, h3, h4, _, h6, _, h8, _, _, _, h12⟩ :=
      handler_round_trip t t0 e rest st L hfront hreg hL hdue (le_of_lt hback)
    exact ⟨st1, r, st2, h1, by rw [h6, hafter], h3, h4, h8, (h12 _).trans hL⟩
  · intro hno hrest hold
    obtain ⟨a, r, b, h1, _, h3, h4, _, h6, h7, h8, h9, h10⟩ :=
      call_round_trip t t0 e rest st L hfront hreg hL hdue (le_of_lt hback) hno hrest hold
    exact ⟨a, r, b, h1, by rw [h6, hafter], h3, h4, h7, (h10 _).trans hL, h8, h9⟩

/-- Witness of C9 on the plain trace: the single point of time 7 appended to two samples,
the batch of time 1 appended to the empty series, and the category sample of time 5. -/
theorem append_round_trip_witness :
    (∃ a r b, timeAdvanced 7 Scenario.plainAt5 = some a ∧
      samplesOf a 1 = some ([{ x := 1, y := 1 }, { x := 2, y := 4 }] ++
        appended Scenario.pointAt7) ∧
      a.undoEvents = r :: Scenario.plainAt5.undoEvents ∧ r.event = Scenario.pointAt7 ∧
      timeRewound 6 a = some b ∧
      samplesOf b 1 = some [{ x := 1, y := 1 }, { x := 2, y := 4 }] ∧
      b.events = Scenario.plainAt5.events ∧ b.undoEvents = Scenario.plainAt5.undoEvents) ∧
    (∃ st1 r st2, handleEvent 1 Scenario.batchAt1 Scenario.plainTrace = some (true, st1) ∧
      samplesOf st1 1 = some ([] ++ appended Scenario.batchAt1) ∧
      st1.undoEvents = r :: Scenario.plainTrace.undoEvents ∧ r.event = Scenario.batchAt1 ∧
      handleUndoEvent 0 r st1 = some (true, st2) ∧ samplesOf st2 1 = some []) ∧
    (∃ st1 r st2, handleEvent 5 Scenario.modeAt5 Scenario.plainAt1 = some (true, st1) ∧
      samplesOf st1 3 = some ([] ++ appended Scenario.modeAt5) ∧
      st1.undoEvents = r :: Scenario.plainAt1.undoEvents ∧ r.event = Scenario.modeAt5 ∧
      handleUndoEvent 4 r st1 = some (true, st2) ∧ samplesOf st2 3 = some []) :=
  ⟨(append_round_trip 7 6 Scenario.pointAt7 [.clear Scenario.clearAt9] Scenario.plainAt5
      [{ x := 1, y := 1 }, { x := 2, y := 4 }] (by decide) (by decide) (by decide)
      (by decide) (by decide) (by decide)).2 (by decide) (by decide) (by decide),
    (append_round_trip 1 0 Scenario.batchAt1
      [Scenario.modeAt5, Scenario.pointAt7, .clear Scenario.clearAt9] Scenario.plainTrace []
      (by decide) (by decide) (by decide) (by decide) (by decide) (by decide)).1,
    (append_round_trip 5 4 Scenario.modeAt5 [Scenario.pointAt7, .clear Scenario.clearAt9]
      Scenario.plainAt1 [] (by decide) (by decide) (by decide) (by decide) (by decide)
      (by decide)).1⟩

/-- C10: widen rule. For a value or logarithmic axis with range [min, max] (min ≤ max) and
an observed value `v`, `updateRange` sets `max` to `v + v * 0.05` when `v > max`, sets `min`
to `v - v * 0.05` when `v < min`, and changes nothing when `min ≤ v ≤ max`; the kind and
the other bound are kept in each case. -/
theorem updateRange_widen_rule (axis : QAbstractAxis) (v : ℚ)
    (hkind : axis.kind ≠ AxisKind.Other) (hrange : axis.min ≤ axis.max) :
    (v > axis.max → updateRange axis v = { axis with max := v + v * 0.05 }) ∧
    (v < axis.min → updateRange axis v = { axis with min := v - v * 0.05 }) ∧
    (axis.min ≤ v → v ≤ axis.max → updateRange axis v = axis) := by
  refine ⟨?_, ?_, ?_⟩
  · intro h
    unfold updateRange
    cases hk : axis.kind <;> simp_all
  · intro h
    have h1 : ¬ v > axis.max := not_lt.mpr (le_trans (le_of_lt h) hrange)
    unfold updateRange
    cases hk : axis.kind <;> simp_all
  · intro h1 h2
    have h3 : ¬ v > axis.max := not_lt.mpr h2
    have h4 : ¬ v < axis.min := not_lt.mpr h1
    unfold updateRange
    cases hk : axis.kind <;> simp only [if_neg h3, if_neg h4]

/-- Witness of C10 on the linear axis [0, 10] with the values 15, -2 and 4. -/
theorem updateRange_widen_rule_witness :
    updateRange { kind := .ValueAxis, min := 0, max := 10 } 15 =
      { kind := .ValueAxis, min := 0, max := 15 + 15 * 0.05 } ∧
    updateRange { kind := .ValueAxis, min := 0, max := 10 } (-2) =
      { kind := .ValueAxis, min := -2 - -2 * 0.05, max := 10 } ∧
    updateRange { kind := .ValueAxis, min := 0, max := 10 } 4 =
      { kind := .ValueAxis, min := 0, max := 10 } :=
  ⟨(updateRange_widen_rule { kind := .ValueAxis, min := 0, max := 10 } 15
      (by decide) (by norm_num)).1 (by norm_num),
   (updateRange_widen_rule { kind := .ValueAxis, min := 0, max := 10 } (-2)
      (by decide) (by norm_num)).2.1 (by norm_num),
   (updateRange_widen_rule { kind := .ValueAxis, min := 0, max := 10 } 4
      (by decide) (by norm_num)).2.2 (by norm_num) (by norm_num)⟩

/-! ## Views of the registry that a write through `series[id]` keeps -/

theorem map_setSeries_of_eq {β : Type} (f : TieVariant → β) (series : List (Nat × TieVariant))
    (id : Nat) (tie old : TieVariant) (hold : findSeries series id = some old)
    (hf : f tie = f old) :
    (setSeries series id tie).map (fun entry => (entry.1, f entry.2)) =
      series.map fun entry => (entry.1, f entry.2) := by
  induction series with
  | nil => rfl
  | cons hd tl ih =>
    obtain ⟨k, v⟩ := hd
    by_cases hk : k = id
    · simp only [findSeries, hk, if_true, Option.some.injEq] at hold
      subst hold
      simp [setSeries, hk, hf]
    · simp only [findSeries, hk, if_false] at hold
      simp [setSeries, hk, ih hold]

theorem findSeries_of_map_eq {β : Type} (f : TieVariant → β)
    {s1 s2 : List (Nat × TieVariant)}
    (h : s1.map (fun entry => (entry.1, f entry.2)) = s2.map fun entry => (entry.1, f entry.2))
    (id : Nat) : (findSeries s1 id).map f = (findSeries s2 id).map f := by
  induction s1 generalizing s2 with
  | nil =>
    cases s2 with
    | nil => rfl
    | cons _ _ => simp at h
  | cons hd tl ih =>
    cases s2 with
    | nil => simp at h
    | cons hd2 tl2 =>
      simp only [List.map_cons, List.cons.injEq, Prod.mk.injEq] at h
      obtain ⟨⟨hk, hm⟩, htl⟩ := h
      obtain ⟨k, v⟩ := hd
      obtain ⟨k2, v2⟩ := hd2
      simp only at hk hm
      subst hk
      simp only [findSeries]
      by_cases hid : k = id
      · simp [hid, hm]
      · simp only [hid, if_false]; exact ih htl

/-- The backward handler writes nothing but the points of one series. -/
theorem handleUndoEvent_keeps {β : Type} (f : TieVariant → β)
    (hxy : ∀ (s : XYSeriesTie) (p : List QPointF), f (.xy { s with qtSeries := p }) = f (.xy s))
    (hcat : ∀ (s : CategoryValueTie) (p : List QPointF),
      f (.category { s with qtSeries := p }) = f (.category s))
    (t : nanoseconds) (r : UndoEvent) (st st1 : ChartManager) (b : Bool)
    (h : handleUndoEvent t r st = some (b, st1)) :
    st1.series.map (fun entry => (entry.1, f entry.2)) =
      st.series.map fun entry => (entry.1, f entry.2) := by
  unfold handleUndoEvent at h
  split at h
  · simp only [Option.some.injEq, Prod.mk.injEq] at h
    rw [← h.2]
  · cases r with
    | addValue e =>
      simp only at h
      split at h
      · rename_i s hs
        split at h
        · simp only [Option.some.injEq, Prod.mk.injEq] at h
          rw [← h.2]
          exact map_setSeries_of_eq f _ _ _ _ hs (hxy _ _)
        · simp at h
      · simp at h
    | addValues e =>
      simp only at h
      split at h
      · rename_i s hs
        split at h
        · simp only [Option.some.injEq, Prod.mk.injEq] at h
          rw [← h.2]
          exact map_setSeries_of_eq f _ _ _ _ hs (hxy _ _)
        · simp at h
      · simp at h
    | clear e =>
      simp only at h
      split at h
      · rename_i s hs
        simp only [Option.some.injEq, Prod.mk.injEq] at h
        rw [← h.2]
        exact map_setSeries_of_eq f _ _ _ _ hs (hxy _ _)
      · simp at h
    | categoryAddValue e =>
      simp only at h
      split at h
      · rename_i s hs
        split at h
        · simp only [Option.some.injEq, Prod.mk.injEq] at h
          rw [← h.2]
          exact map_setSeries_of_eq f _ _ _ _ hs (hcat _ _)
        · simp at h
      · simp at h

theorem drainUndoEvents_keeps {β : Type} (f : TieVariant → β)
    (hxy : ∀ (s : XYSeriesTie) (p : List QPointF), f (.xy { s with qtSeries := p }) = f (.xy s))
    (hcat : ∀ (s : CategoryValueTie) (p : List QPointF),
      f (.category { s with qtSeries := p }) = f (.category s))
    (t : nanoseconds) (fuel : Nat) :
    ∀ st st1 : ChartManager, drainUndoEvents t fuel st = some st1 →
      st1.series.map (fun entry => (entry.1, f entry.2)) =
        st.series.map fun entry => (entry.1, f entry.2) := by
  induction fuel with
  | zero =>
    intro st st1 h
    simp only [drainUndoEvents, Option.some.injEq] at h
    rw [← h]
  | succ fuel ih =>
    intro st st1 h
    simp only [drainUndoEvents] at h
    split at h
    · simp only [Option.some.injEq] at h; rw [← h]
    · rename_i r rest hev
      split at h
      · simp at h
      · rename_i st2 hh
        simp only [Option.some.injEq] at h
        rw [← h]; exact handleUndoEvent_keeps f hxy hcat t r st st2 false hh
      · rename_i st2 hh
        rw [ih _ st1 h]; exact handleUndoEvent_keeps f hxy hcat t r st st2 true hh

theorem axisRangesOf_of_registryAxes (s1 s2 : ChartManager)
    (h : registryAxes s1.series = registryAxes s2.series) (id : Nat) :
    axisRangesOf s1 id = axisRangesOf s2 id := by
  have hf := findSeries_of_map_eq axesOf h id
  unfold axisRangesOf
  cases h1 : findSeries s1.series id with
  | none =>
    cases h2 : findSeries s2.series id with
    | none => rfl
    | some b => rw [h1, h2] at hf; simp at hf
  | some a =>
    cases h2 : findSeries s2.series id with
    | none => rw [h1, h2] at hf; simp at hf
    | some b =>
      rw [h1, h2] at hf
      simp only [Option.map_some', Option.some.injEq] at hf
      cases a <;> cases b <;> simp [axesOf] at hf <;> simp [hf]

/-! ## Claims C11 to C20 -/

/-- C11 (the code at the failing input): on the axis [-10, -5.1] the observed value -5,
which is above `max`, moves `max` down to -5.25; on the axis [-5, 0] the observed value
-5.1, which is below `min`, moves `min` up to -4.845. In both cases the range shrinks. -/
theorem updateRange_shrinks_for_negative_value :
    (updateRange { kind := .ValueAxis, min := -10, max := -5.1 } (-5) =
        { kind := .ValueAxis, min := -10, max := -5.25 } ∧ (-5.25 : ℚ) < -5.1) ∧
    (updateRange { kind := .ValueAxis, min := -5, max := 0 } (-5.1) =
        { kind := .ValueAxis, min := -4.845, max := 0 } ∧ (-5 : ℚ) < -4.845) := by
  refine ⟨⟨?_, ?_⟩, ⟨?_, ?_⟩⟩ <;> norm_num [updateRange]

/-- C12 (the code at the failing input): on the axis [-20, -10] the observed value -5 gives
the new `max` -5.25, so the value lies beyond the new range; on the axis [-10, -5] the
observed value 0 gives the new `max` 0, so the value lies on the boundary. -/
theorem updateRange_leaves_value_outside :
    (updateRange { kind := .ValueAxis, min := -20, max := -10 } (-5) =
        { kind := .ValueAxis, min := -20, max := -5.25 } ∧ ¬ ((-5 : ℚ) < -5.25)) ∧
    (updateRange { kind := .ValueAxis, min := -10, max := -5 } 0 =
        { kind := .ValueAxis, min := -10, max := 0 } ∧ ¬ ((0 : ℚ) < 0)) := by
  refine ⟨⟨?_, ?_⟩, ⟨?_, ?_⟩⟩ <;> norm_num [updateRange]

/-- C13: whenever `timeRewound(t)` returns, every axis object of every series and of every
collection is what it was before the call: the registry keeps its keys and its axes, and
so the ranges looked up under any id are unchanged. -/
theorem timeRewound_keeps_axes (t : nanoseconds) (st st1 : ChartManager)
    (h : timeRewound t st = some st1) :
    registryAxes st1.series = registryAxes st.series ∧
    ∀ id, axisRangesOf st1 id = axisRangesOf st id := by
  have h1 : registryAxes st1.series = registryAxes st.series :=
    drainUndoEvents_keeps axesOf (fun _ _ => rfl) (fun _ _ => rfl) t _ st st1 h
  exact ⟨h1, axisRangesOf_of_registryAxes st1 st h1⟩

/-- Witness of C13, scenario A: the point series with range [0, 10] on its tracking y axis
receives the point y = 15 at time 5 and gets the y range [0, 15.75]; the rewind to time 0
removes the sample and the y range stays [0, 15.75]. -/
theorem timeRewound_keeps_axes_witness :
    axisRangesOf Scenario.pointTrace 1 = some [(0, 10), (0, 10)] ∧
    timeAdvanced 5 Scenario.pointTrace = some Scenario.pointAt5 ∧
    samplesOf Scenario.pointAt5 1 = some [{ x := 1, y := 15 }] ∧
    axisRangesOf Scenario.pointAt5 1 = some [(0, 10), (0, 15.75)] ∧
    timeRewound 0 Scenario.pointAt5 = some Scenario.pointBackAt0 ∧
    samplesOf Scenario.pointBackAt0 1 = some [] ∧
    axisRangesOf Scenario.pointBackAt0 1 = some [(0, 10), (0, 15.75)] ∧
    registryAxes Scenario.pointBackAt0.series = registryAxes Scenario.pointAt5.series := by
  have h1 : timeRewound 0 Scenario.pointAt5 = some Scenario.pointBackAt0 := by
    with_unfolding_all decide
  exact ⟨by with_unfolding_all decide, by with_unfolding_all decide,
    by with_unfolding_all decide, by with_unfolding_all decide, h1,
    by with_unfolding_all decide, by with_unfolding_all decide,
    (timeRewound_keeps_axes 0 Scenario.pointAt5 Scenario.pointBackAt0 h1).1⟩

/-- C19: after `reset()` the forward queue, the undo stack, the series registry and the
dropdown element list are all empty, whatever the state was. -/
theorem reset_empties (st : ChartManager) :
    (reset st).events = [] ∧ (reset st).undoEvents = [] ∧ (reset st).series = [] ∧
    (reset st).dropdownElements = [] :=
  ⟨rfl, rfl, rfl, rfl⟩

/-- A write through `series[id]` reaches an entry of the kind found under `id` only. -/
theorem get?_setSeries_of_kind_ne (series : List (Nat × TieVariant)) (id : Nat)
    (tie old : TieVariant) (hold : findSeries series id = some old) :
    ∀ (i key : Nat) (v : TieVariant), series.get? i = some (key, v) →
      tieKind v ≠ tieKind old → (setSeries series id tie).get? i = some (key, v) := by
  induction series with
  | nil => simp [findSeries] at hold
  | cons hd tl ih =>
    obtain ⟨k, v0⟩ := hd
    intro i key v hget hk
    by_cases hkid : k = id
    · simp only [findSeries, hkid, if_true, Option.some.injEq] at hold
      subst hold
      cases i with
      | zero =>
        simp only [List.get?_cons_zero, Option.some.injEq, Prod.mk.injEq] at hget
        exact absurd (congrArg tieKind hget.2.symm) hk
      | succ j => simpa [setSeries, hkid] using hget
    · simp only [findSeries, hkid, if_false] at hold
      cases i with
      | zero => simpa [setSeries, hkid] using hget
      | succ j =>
        simp only [setSeries, hkid, if_false, List.get?_cons_succ]
        simp only [List.get?_cons_succ] at hget
        exact ih hold j key v hget hk

theorem get?_updateCollectionRanges (series : List (Nat × TieVariant)) (seriesId : Nat)
    (x y : ℚ) (i : Nat) :
    (updateCollectionRanges series seriesId x y).get? i =
      (series.get? i).map (updateCollectionEntry seriesId x y) := by
  simp [updateCollectionRanges]

/-- What the `XYSeriesAddValue` branch does to the collection stored at any position. -/
theorem handleEvent_addValue_collection (t : nanoseconds) (e : XYSeriesAddValue)
    (st st1 : ChartManager) (h : handleEvent t (.addValue e) st = some (true, st1))
    (i key : Nat) (c : SeriesCollectionTie) (hget : st.series.get? i = some (key, .collection c)) :
    st1.series.get? i =
      some (updateCollectionEntry e.seriesId e.point.x e.point.y (key, .collection c)) := by
  unfold handleEvent at h
  split at h
  · simp at h
  · simp only at h
    split at h
    · rename_i s hs
      simp only [Option.some.injEq, Prod.mk.injEq, true_and] at h
      subst h
      simp only [appendPoint]
      have h1 := findSeries_updateCollectionRanges_kind st.series e.seriesId e.point.x e.point.y
      obtain ⟨o1, ho1, hk1⟩ := findSeries_of_kind (k := .XY) (by rw [h1, hs]; rfl)
      generalize hu :
        updateCollectionEntry e.seriesId e.point.x e.point.y (key, .collection c) = u
      have hk := updateCollectionEntry_kind e.seriesId e.point.x e.point.y (key, .collection c)
      rw [hu] at hk
      obtain ⟨k2, v2⟩ := u
      apply get?_setSeries_of_kind_ne _ _ _ o1 ho1 i k2 v2
      · rw [get?_updateCollectionRanges, hget, Option.map_some', hu]
      · simp only at hk
        rw [hk, hk1]
        simp [tieKind]
    · simp at h

/-- C14: when the forward handler applies the point (x, y) of an `XYSeriesAddValue` event
to series A, every collection entry of the registry whose member list contains A's id has
each axis whose declared bound mode is `HighestValue` replaced by `updateRange` of that
axis with x (x axis) or y (y axis), and each axis declared `Fixed` kept; every collection
entry that does not contain A's id is unchanged. Nothing here depends on the bound modes of
A's own axes. -/
theorem addValue_propagates_to_collections (t : nanoseconds) (e : XYSeriesAddValue)
    (st st1 : ChartManager) (h : handleEvent t (.addValue e) st = some (true, st1))
    (i key : Nat) (c : SeriesCollectionTie)
    (hget : st.series.get? i = some (key, .collection c)) :
    (e.seriesId ∈ c.model.series →
      ∃ c1 : SeriesCollectionTie, st1.series.get? i = some (key, .collection c1) ∧
        c1.model = c.model ∧
        (c.model.xAxis.boundMode = .HighestValue → c1.xAxis = updateRange c.xAxis e.point.x) ∧
        (c.model.xAxis.boundMode = .Fixed → c1.xAxis = c.xAxis) ∧
        (c.model.yAxis.boundMode = .HighestValue → c1.yAxis = updateRange c.yAxis e.point.y) ∧
        (c.model.yAxis.boundMode = .Fixed → c1.yAxis = c.yAxis)) ∧
    (e.seriesId ∉ c.model.series → st1.series.get? i = some (key, .collection c)) := by
  have h1 := handleEvent_addValue_collection t e st st1 h i key c hget
  constructor
  · intro hmem
    refine ⟨{ c with
        xAxis := updateTracked c.model.xAxis.boundMode c.xAxis e.point.x
        yAxis := updateTracked c.model.yAxis.boundMode c.yAxis e.point.y }, ?_, rfl, ?_, ?_, ?_, ?_⟩
    · rw [h1]; simp only [updateCollectionEntry, hmem, if_true]
    · intro hm; simp only [hm, updateTracked]
    · intro hm; simp only [hm, updateTracked]
    · intro hm; simp only [hm, updateTracked]
    · intro hm; simp only [hm, updateTracked]
  · intro hmem
    rw [h1]; simp only [updateCollectionEntry, hmem, if_false]

/-- Witness of C14, scenario C: the collection of A and B has the y range [0, 10] and a
tracking y axis; the point y = 20 appended to A, whose own axes are fixed, gives the
collection the y range [0, 21], leaves A's ranges and the collection of B alone. -/
theorem addValue_propagates_to_collections_witness :
    Scenario.collectionTrace.series.get? 0 =
      some (5, .collection (makeTieCollection Scenario.bothCollection)) ∧
    timeAdvanced 5 Scenario.collectionTrace = some Scenario.collectionAt5 ∧
    axisRangesOf Scenario.collectionTrace 5 = some [(0, 10), (0, 10)] ∧
    axisRangesOf Scenario.collectionAt5 5 = some [(0, 10), (0, 21)] ∧
    axisRangesOf Scenario.collectionAt5 6 = some [(0, 10), (0, 10)] ∧
    axisRangesOf Scenario.collectionAt5 1 = some [(0, 10), (0, 10)] ∧
    samplesOf Scenario.collectionAt5 1 = some [{ x := 1, y := 20 }] ∧
    ∃ c1 : SeriesCollectionTie,
      Scenario.collectionAt5.series.get? 0 = some (5, .collection c1) ∧
      c1.yAxis = updateRange (makeTieCollection Scenario.bothCollection).yAxis 20 ∧
      c1.xAxis = (makeTieCollection Scenario.bothCollection).xAxis := by
  have hget : Scenario.collectionTrace.series.get? 0 =
      some (5, .collection (makeTieCollection Scenario.bothCollection)) := by
    with_unfolding_all decide
  have hrun : handleEvent 5 (.addValue Scenario.appendToA) Scenario.collectionTrace =
      some (true, Scenario.collectionAt5) := by
    with_unfolding_all decide
  obtain ⟨c1, g1, _, _, g3, g4, _⟩ :=
    (addValue_propagates_to_collections 5 Scenario.appendToA Scenario.collectionTrace
      Scenario.collectionAt5 hrun 0 5 (makeTieCollection Scenario.bothCollection) hget).1
      (by decide)
  exact ⟨hget, by with_unfolding_all decide, by with_unfolding_all decide,
    by with_unfolding_all decide, by with_unfolding_all decide, by with_unfolding_all decide,
    by with_unfolding_all decide, c1, g1, g4 rfl, g3 rfl⟩

theorem emplaceSeries_of_registered (series : List (Nat × TieVariant)) (id : Nat)
    (tie : TieVariant) (h : findSeries series id ≠ none) : emplaceSeries series id tie = series := by
  unfold emplaceSeries
  cases hf : findSeries series id with
  | none => exact absurd hf h
  | some _ => rfl

/-- Selecting an id that is neither the placeholder nor registered inserts an entry. -/
theorem seriesSelected_missing_inserts (placeholderId : Nat) (dflt : TieVariant) (id : Nat)
    (st : ChartManager) (hp : id ≠ placeholderId) (h : findSeries st.series id = none) :
    (seriesSelected placeholderId dflt id st).series = st.series ++ [(id, dflt)] := by
  simp only [seriesSelected, hp, if_false, emplaceSeries, h]

/-- C18 (counterexample): the id 7 is not registered in the point trace, and looking it up
aborts the program. -/
theorem getSeries_missing_aborts_example :
    findSeries Scenario.pointTrace.series 7 = none ∧
    getSeries Scenario.pointTrace 7 = .error .abort := by
  have h : findSeries Scenario.pointTrace.series 7 = none := by decide
  exact ⟨h, by simp only [getSeries, h]⟩

/-- C18 (amended): `getSeries(id)` aborts the program when the id is not registered and
returns the registered tie otherwise; `seriesSelected(widget, id)` leaves the registry,
the forward queue and the undo stack as they were when the id is the placeholder id or a
registered id. -/
theorem getSeries_aborts_or_returns (st : ChartManager) (id : Nat) :
    (findSeries st.series id = none → getSeries st id = .error .abort) ∧
    (∀ tie, findSeries st.series id = some tie → getSeries st id = .ok tie) ∧
    (∀ (placeholderId : Nat) (dflt : TieVariant),
      id = placeholderId ∨ findSeries st.series id ≠ none →
        seriesSelected placeholderId dflt id st = st) := by
  refine ⟨?_, ?_, ?_⟩
  · intro h; simp only [getSeries, h]
  · intro tie h; simp only [getSeries, h]
  · intro p dflt h
    unfold seriesSelected
    by_cases hp : id = p
    · simp [hp]
    · rcases h with h | h
      · exact absurd h hp
      · simp only [hp, if_false, emplaceSeries_of_registered _ _ _ h]

/-- Witness of C18 (amended) on the point trace: the id 7 is missing and the lookup
aborts; the id 1 is registered, the lookup returns its tie and the selection changes
nothing. -/
theorem getSeries_aborts_or_returns_witness :
    findSeries Scenario.pointTrace.series 7 = none ∧
    getSeries Scenario.pointTrace 7 = .error .abort ∧
    getSeries Scenario.pointTrace 1 = .ok (.xy (makeTieXY Scenario.pointSeries)) ∧
    seriesSelected 0 (.xy (makeTieXY Scenario.pointSeries)) 1 Scenario.pointTrace =
      Scenario.pointTrace :=
  ⟨by decide,
    (getSeries_aborts_or_returns Scenario.pointTrace 7).1 (by decide),
    (getSeries_aborts_or_returns Scenario.pointTrace 1).2.1 _ (by with_unfolding_all decide),
    (getSeries_aborts_or_returns Scenario.pointTrace 1).2.2 0 _ (Or.inr (by decide))⟩

/-! ## The fake-event loop, entry by entry -/

theorem toUnsigned_natCast (c : Nat) : toUnsigned (c : ℚ) = c := by
  unfold toUnsigned
  have : Rat.floor (c : ℚ) = (c : Int) := by
    rw [Rat.floor_def']; simp
  rw [this]; simp

theorem fabricatedRecord_updateCollectionEntry (t : nanoseconds) (seriesId : Nat) (x y : ℚ)
    (entry : Nat × TieVariant) :
    fabricatedRecord t (updateCollectionEntry seriesId x y entry) = fabricatedRecord t entry := by
  unfold updateCollectionEntry
  split
  · rename_i c hc
    split
    · simp [fabricatedRecord, hc]
    · rfl
  · rfl

theorem updateCollectionEntry_category (seriesId : Nat) (x y : ℚ) (key : Nat)
    (v : CategoryValueTie) :
    updateCollectionEntry seriesId x y (key, .category v) = (key, .category v) := rfl

theorem isDue_false_of_getLast (t : nanoseconds) (key : Nat) (v : CategoryValueTie)
    (h : v.qtSeries.getLast? = none) : isDue t (key, .category v) = false := by
  have : v.qtSeries = [] := List.getLast?_eq_none_iff.mp h
  simp [isDue, this]

/-- One pass of the loop body: the record pushed and the category entry at any position. -/
theorem fakeEvent_entry (t : nanoseconds) (st : ChartManager) (i : Nat)
    (entry : Nat × TieVariant) (hget : st.series.get? i = some entry) :
    (fakeEvent t st i).undoEvents = (fabricatedRecord t entry).toList ++ st.undoEvents ∧
    ((fakeEvent t st i).series.drop (i + 1)).filterMap (fabricatedRecord t) =
      (st.series.drop (i + 1)).filterMap (fabricatedRecord t) ∧
    ∀ (j key : Nat) (v : CategoryValueTie), st.series.get? j = some (key, .category v) →
      (fakeEvent t st i).series.get? j =
        some (if j = i then advanceEntry t (key, .category v) else (key, .category v)) := by
  obtain ⟨key0, tie⟩ := entry
  unfold fakeEvent
  rw [hget]
  have hsame : ∀ (j key : Nat) (v : CategoryValueTie),
      st.series.get? j = some (key, .category v) →
      advanceEntry t (key, .category v) = (key, .category v) →
      st.series.get? j =
        some (if j = i then advanceEntry t (key, .category v) else (key, .category v)) := by
    intro j key v hj hadv
    rw [hj, hadv]; simp
  cases tie with
  | xy s =>
    refine ⟨by simp [fabricatedRecord], rfl, ?_⟩
    intro j key v hj
    by_cases hji : j = i
    · subst hji; rw [hget] at hj; simp at hj
    · rw [if_neg hji]; exact hj
  | collection s =>
    refine ⟨by simp [fabricatedRecord], rfl, ?_⟩
    intro j key v hj
    by_cases hji : j = i
    · subst hji; rw [hget] at hj; simp at hj
    · rw [if_neg hji]; exact hj
  | category value =>
    simp only
    have hentry : ∀ (j key : Nat) (v : CategoryValueTie),
        st.series.get? j = some (key, .category v) → j = i → key = key0 ∧ v = value := by
      intro j key v hj hji
      subst hji
      rw [hget] at hj
      simp only [Option.some.injEq, Prod.mk.injEq, TieVariant.category.injEq] at hj
      exact ⟨hj.1.symm, hj.2.symm⟩
    cases hauto : value.model.autoUpdate with
    | false =>
      have hdue : isDue t (key0, .category value) = false := by simp [isDue, hauto]
      rw [if_pos rfl]
      refine ⟨?_, rfl, ?_⟩
      · simp only [fabricatedRecord, hdue]
        cases value.qtSeries.getLast? <;> simp
      · intro j key v hj
        by_cases hji : j = i
        · obtain ⟨hk, hv⟩ := hentry j key v hj hji
          subst hk; subst hv
          apply hsame j key v hj
          simp only [advanceEntry, hdue]
          cases v.qtSeries.getLast? <;> simp
        · rw [if_neg hji]; exact hj
    | true =>
      rw [if_neg (by decide)]
      cases h2 : value.qtSeries.getLast? with
      | none =>
        have hdue := isDue_false_of_getLast t key0 value h2
        refine ⟨by simp [fabricatedRecord, h2], rfl, ?_⟩
        intro j key v hj
        by_cases hji : j = i
        · obtain ⟨hk, hv⟩ := hentry j key v hj hji
          subst hk; subst hv
          apply hsame j key v hj
          simp [advanceEntry, h2]
        · rw [if_neg hji]; exact hj
      | some lastValue =>
        have hne : value.qtSeries ≠ [] := by
          intro h; rw [h] at h2; simp at h2
        have hemp : value.qtSeries.isEmpty = false := by
          cases hq : value.qtSeries with
          | nil => exact absurd hq hne
          | cons _ _ => rfl
        simp only
        by_cases h3 : t - value.lastUpdatedTime < value.model.autoUpdateInterval
        · have hdue : isDue t (key0, .category value) = false := by
            simp [isDue, h3]
          rw [if_pos h3]
          refine ⟨by simp [fabricatedRecord, h2, hdue], rfl, ?_⟩
          intro j key v hj
          by_cases hji : j = i
          · obtain ⟨hk, hv⟩ := hentry j key v hj hji
            subst hk; subst hv
            apply hsame j key v hj
            simp [advanceEntry, h2, hdue]
          · rw [if_neg hji]; exact hj
        · have hdue : isDue t (key0, .category value) = true := by
            simp [isDue, h3, hauto, hemp]
          rw [if_neg h3]
          refine ⟨by simp [fabricatedRecord, h2, hdue, fabricatedEvent], ?_, ?_⟩
          · simp only [updateCollectionRanges, ← List.map_drop, List.filterMap_map]
            rw [List.drop_set_of_lt _ _ (Nat.lt_succ_self i)]
            congr 1
            funext e
            exact fabricatedRecord_updateCollectionEntry t _ _ _ e
          · intro j key v hj
            rw [get?_updateCollectionRanges]
            by_cases hji : j = i
            · obtain ⟨hk, hv⟩ := hentry j key v hj hji
              subst hk; subst hv
              have hlt : j < st.series.length := by
                rw [hji]; exact List.get?_eq_some.mp hget |>.1
              simp only [hji, if_true, advanceEntry, h2, hdue, fabricatedEvent]
              have hlt2 : i < st.series.length := hji ▸ hlt
              simp only [List.get?_eq_getElem?, List.getElem?_set_self hlt2, Option.map_some',
                updateCollectionEntry_category]
            · simp only [List.get?_eq_getElem?] at hj ⊢
              rw [List.getElem?_set_ne (Ne.symm hji), hj]
              simp only [hji, if_false, Option.map_some', updateCollectionEntry_category]

theorem advanceEntry_category (t : nanoseconds) (key : Nat) (v : CategoryValueTie) :
    ∃ v1 : CategoryValueTie, advanceEntry t (key, .category v) = (key, .category v1) := by
  unfold advanceEntry
  simp only
  cases v.qtSeries.getLast? with
  | none => exact ⟨v, rfl⟩
  | some lastValue =>
    simp only
    split
    · exact ⟨_, rfl⟩
    · exact ⟨v, rfl⟩

theorem foldl_fakeEvent_entries (t : nanoseconds) (k : Nat) :
    ∀ (i : Nat) (st : ChartManager), i + k = st.series.length →
      ((List.range' i k).foldl (fakeEvent t) st).undoEvents =
          ((st.series.drop i).filterMap (fabricatedRecord t)).reverse ++ st.undoEvents ∧
      ∀ (j key : Nat) (v : CategoryValueTie), st.series.get? j = some (key, .category v) →
        ((List.range' i k).foldl (fakeEvent t) st).series.get? j =
          some (if i ≤ j then advanceEntry t (key, .category v) else (key, .category v)) := by
  induction k with
  | zero =>
    intro i st h
    have hd : st.series.drop i = [] := List.drop_eq_nil_of_le (by omega)
    refine ⟨by simp [hd], ?_⟩
    intro j key v hj
    have hlt : j < st.series.length := (List.get?_eq_some.mp hj).1
    have hnot : ¬ i ≤ j := by omega
    simp only [List.range'_zero, List.foldl_nil, hnot, if_false]
    exact hj
  | succ k ih =>
    intro i st h
    have hi : i < st.series.length := by omega
    have hget : st.series.get? i = some st.series[i] := List.get?_eq_get hi
    obtain ⟨c1, c2, c3⟩ := fakeEvent_entry t st i _ hget
    have hlen : (fakeEvent t st i).series.length = st.series.length := by
      have := congrArg List.length (fakeEvent_declared t st i)
      simpa [declared] using this
    obtain ⟨d1, d2⟩ := ih (i + 1) (fakeEvent t st i) (by omega)
    rw [List.range'_succ, List.foldl_cons]
    constructor
    · rw [d1, c1, c2, List.drop_eq_getElem_cons hi, List.filterMap_cons]
      cases fabricatedRecord t st.series[i] <;> simp
    · intro j key v hj
      have hstep := c3 j key v hj
      by_cases hji : j = i
      · obtain ⟨v1, hv1⟩ := advanceEntry_category t key v
        rw [if_pos hji, hv1] at hstep
        rw [d2 j key v1 hstep, if_neg (by omega), if_pos (by omega), hv1]
      · rw [if_neg hji] at hstep
        rw [d2 j key v hstep]
        by_cases hle : i ≤ j
        · rw [if_pos (by omega), if_pos hle]
        · rw [if_neg (by omega), if_neg hle]

/-- The whole loop: one record per due entry, in iteration order, and every category
entry advanced when due. -/
theorem fakeEvents_entries (t : nanoseconds) (st : ChartManager) :
    (fakeEvents t st).undoEvents =
        (st.series.filterMap (fabricatedRecord t)).reverse ++ st.undoEvents ∧
    ∀ (j key : Nat) (v : CategoryValueTie), st.series.get? j = some (key, .category v) →
      (fakeEvents t st).series.get? j = some (advanceEntry t (key, .category v)) := by
  unfold fakeEvents
  rw [List.range_eq_range']
  obtain ⟨h1, h2⟩ := foldl_fakeEvent_entries t st.series.length 0 st (by omega)
  refine ⟨by simpa using h1, ?_⟩
  intro j key v hj
  rw [h2 j key v hj, if_pos (Nat.zero_le j)]

theorem fabricatedRecord_of_not_category (t : nanoseconds) (entry : Nat × TieVariant)
    (h : tieKind entry.2 ≠ .CategoryValue) : fabricatedRecord t entry = none := by
  obtain ⟨key, tie⟩ := entry
  cases tie with
  | xy s => rfl
  | collection s => rfl
  | category s => simp [tieKind] at h

/-- A due entry whose last point is (x, c): the record and the advanced entry. -/
theorem advance_of_due (t : nanoseconds) (key : Nat) (v : CategoryValueTie) (x : ℚ) (c : Nat)
    (hauto : v.model.autoUpdate = true) (hlast : v.qtSeries.getLast? = some ⟨x, (c : ℚ)⟩)
    (hdue : v.model.autoUpdateInterval ≤ t - v.lastUpdatedTime) :
    fabricatedRecord t (key, .category v) =
        some (.categoryAddValue
          { event :=
              { time := t, value := x + v.model.autoUpdateIncrement, category := c,
                seriesId := key } }) ∧
    ∃ v1 : CategoryValueTie, advanceEntry t (key, .category v) = (key, .category v1) ∧
      v1.qtSeries = v.qtSeries ++ [⟨x + v.model.autoUpdateIncrement, (c : ℚ)⟩] ∧
      v1.lastUpdatedTime = t ∧ v1.model = v.model ∧ v1.yAxis = v.yAxis := by
  have hne : v.qtSeries ≠ [] := by
    intro h; rw [h] at hlast; simp at hlast
  have hemp : v.qtSeries.isEmpty = false := by
    cases hq : v.qtSeries with
    | nil => exact absurd hq hne
    | cons _ _ => rfl
  have h3 : ¬ t - v.lastUpdatedTime < v.model.autoUpdateInterval := not_lt.mpr hdue
  have hd : isDue t (key, .category v) = true := by simp [isDue, h3, hauto, hemp]
  constructor
  · simp only [fabricatedRecord, hlast, hd, if_true, fabricatedEvent, toUnsigned_natCast]
  · refine ⟨{ v with
        xAxis := updateTracked v.model.xAxis.boundMode v.xAxis (x + v.model.autoUpdateIncrement)
        qtSeries := v.qtSeries ++ [⟨x + v.model.autoUpdateIncrement, (c : ℚ)⟩]
        lastUpdatedTime := t }, ?_, rfl, rfl, rfl, rfl⟩
    simp only [advanceEntry, hlast, hd, if_true, fabricatedEvent, toUnsigned_natCast,
      QXYSeries.append]

/-- An entry that is not due: no record, entry untouched. -/
theorem advance_of_not_due (t : nanoseconds) (key : Nat) (v : CategoryValueTie)
    (h : v.model.autoUpdate = false ∨ v.qtSeries = [] ∨
      t - v.lastUpdatedTime < v.model.autoUpdateInterval) :
    fabricatedRecord t (key, .category v) = none ∧
      advanceEntry t (key, .category v) = (key, .category v) := by
  have hd : isDue t (key, .category v) = false := by
    rcases h with h | h | h
    · simp [isDue, h]
    · simp [isDue, h]
    · simp [isDue, h]
  constructor
  · simp only [fabricatedRecord, hd]
    cases v.qtSeries.getLast? <;> simp
  · simp only [advanceEntry, hd]
    cases v.qtSeries.getLast? <;> simp

theorem drainEvents_nil (t : nanoseconds) (fuel : Nat) (st : ChartManager)
    (h : st.events = []) : drainEvents t fuel st = some st := by
  cases fuel with
  | zero => rfl
  | succ n => simp only [drainEvents, h]

/-- C15: at the end of `timeAdvanced(t)`, where `st` is the state the forward drain has
produced, the fake-event loop pushes exactly one undo record per registry entry it finds
due, in iteration order, and none for any other entry. For a category series with
`autoUpdate` set whose last sample is (x, c) and `t - lastUpdatedTime >= autoUpdateInterval`,
that record is a `CategorySeriesAddValue` with time t, value `x + autoUpdateIncrement`,
category c and the series' key, exactly the sample `(x + autoUpdateIncrement, c)` is
appended and `lastUpdatedTime` becomes t. A category series with the flag unset, without
samples or with the interval not elapsed gets no record and its tie (samples,
`lastUpdatedTime`) is untouched; the forward queue is untouched as well. -/
theorem fakeEvents_synthetic_event (t : nanoseconds) (st0 st : ChartManager)
    (hdrain : drainEvents t st0.events.length st0 = some st) :
    timeAdvanced t st0 = some (fakeEvents t st) ∧
    (fakeEvents t st).events = st.events ∧
    (fakeEvents t st).undoEvents =
      (st.series.filterMap (fabricatedRecord t)).reverse ++ st.undoEvents ∧
    (∀ entry ∈ st.series, tieKind entry.2 ≠ .CategoryValue → fabricatedRecord t entry = none) ∧
    ∀ (i key : Nat) (v : CategoryValueTie), st.series.get? i = some (key, .category v) →
      (∀ (x : ℚ) (c : Nat), v.model.autoUpdate = true →
        v.qtSeries.getLast? = some ⟨x, (c : ℚ)⟩ →
        v.model.autoUpdateInterval ≤ t - v.lastUpdatedTime →
          fabricatedRecord t (key, .category v) =
            some (.categoryAddValue
              { event :=
                  { time := t, value := x + v.model.autoUpdateIncrement, category := c,
                    seriesId := key } }) ∧
          ∃ v1 : CategoryValueTie,
            (fakeEvents t st).series.get? i = some (key, .category v1) ∧
            v1.qtSeries = v.qtSeries ++ [⟨x + v.model.autoUpdateIncrement, (c : ℚ)⟩] ∧
            v1.lastUpdatedTime = t ∧ v1.model = v.model) ∧
      (v.model.autoUpdate = false ∨ v.qtSeries = [] ∨
          t - v.lastUpdatedTime < v.model.autoUpdateInterval →
        fabricatedRecord t (key, .category v) = none ∧
          (fakeEvents t st).series.get? i = some (key, .category v)) := by
  obtain ⟨h1, h2⟩ := fakeEvents_entries t st
  refine ⟨by simp only [timeAdvanced, hdrain, Option.map_some'],
    (foldl_fakeEvent_spec t _ st).1, h1,
    fun entry _ hk => fabricatedRecord_of_not_category t entry hk, ?_⟩
  intro i key v hget
  constructor
  · intro x c hauto hlast hdue
    obtain ⟨g1, v1, g2, g3, g4, g5, _⟩ := advance_of_due t key v x c hauto hlast hdue
    exact ⟨g1, v1, by rw [h2 i key v hget, g2], g3, g4, g5⟩
  · intro hnot
    obtain ⟨g1, g2⟩ := advance_of_not_due t key v hnot
    exact ⟨g1, by rw [h2 i key v hget, g2]⟩

/-- Witness of C15: the category series of scenario B holds the sample (0, 2) with
`lastUpdatedTime` 0 and interval 100; `timeAdvanced(100)` appends (1, 2) and pushes one
record with time 100 on top of the record of the real event. -/
theorem fakeEvents_synthetic_event_witness :
    drainEvents 100 Scenario.categoryAt0.events.length Scenario.categoryAt0 =
      some Scenario.categoryAt0 ∧
    timeAdvanced 100 Scenario.categoryAt0 = some (fakeEvents 100 Scenario.categoryAt0) ∧
    samplesOf Scenario.categoryAt0 2 = some [{ x := 0, y := 2 }] ∧
    samplesOf (fakeEvents 100 Scenario.categoryAt0) 2 =
      some [{ x := 0, y := 2 }, { x := 1, y := 2 }] ∧
    (fakeEvents 100 Scenario.categoryAt0).undoEvents =
      [.categoryAddValue { event := { time := 100, seriesId := 2, value := 1, category := 2 } },
       .categoryAddValue { event := { time := 0, seriesId := 2, value := 0, category := 2 } }] := by
  have h : drainEvents 100 Scenario.categoryAt0.events.length Scenario.categoryAt0 =
      some Scenario.categoryAt0 := by
    with_unfolding_all decide
  exact ⟨h, (fakeEvents_synthetic_event 100 Scenario.categoryAt0 Scenario.categoryAt0 h).1,
    by with_unfolding_all decide, by with_unfolding_all decide, by with_unfolding_all decide⟩

/-- C16 (counterexample): scenario B. The category series has `autoUpdate` set, interval
100, increment 1, `lastUpdatedTime` 0 and the last sample (0, 2), and no event is pending;
the single forward call to time 250 appends the one sample (1, 2), pushes one record and
sets `lastUpdatedTime` to 250: the samples are not (0, 2), (1, 2), (2, 2). -/
theorem single_call_fabricates_once :
    Scenario.categoryAt0.events = [] ∧
    Scenario.categoryAt0.series = [(2, .category Scenario.categoryTieAt0)] ∧
    Scenario.categoryTieAt0.model.autoUpdate = true ∧
    Scenario.categoryTieAt0.model.autoUpdateInterval = 100 ∧
    Scenario.categoryTieAt0.model.autoUpdateIncrement = 1 ∧
    Scenario.categoryTieAt0.lastUpdatedTime = 0 ∧
    Scenario.categoryTieAt0.qtSeries = [{ x := 0, y := 2 }] ∧
    timeChanged 250 250 Scenario.categoryAt0 = some Scenario.categoryAt250 ∧
    samplesOf Scenario.categoryAt250 2 = some [{ x := 0, y := 2 }, { x := 1, y := 2 }] ∧
    samplesOf Scenario.categoryAt250 2 ≠
      some [{ x := 0, y := 2 }, { x := 1, y := 2 }, { x := 2, y := 2 }] ∧
    Scenario.categoryAt250.undoEvents.length = Scenario.categoryAt0.undoEvents.length + 1 := by
  refine ⟨?_, ?_, ?_, ?_, ?_, ?_, ?_, ?_, ?_, ?_, ?_⟩ <;> with_unfolding_all decide

/-- C16 (amended): for a category series with `autoUpdate` set, interval 100, increment 1,
`lastUpdatedTime` 0 and last sample (0, 2), a single forward call to any time t >= 100 (250
included) with no event pending returns, appends exactly the one sample (1, 2), pushes for
that series exactly one record, stamped t, and sets `lastUpdatedTime` to t: one fabricated
event per call, however many intervals have elapsed. -/
theorem single_call_one_synthetic_event (t increment : nanoseconds) (st : ChartManager)
    (i key : Nat) (v : CategoryValueTie) (hinc : 0 < increment) (hq : st.events = [])
    (hget : st.series.get? i = some (key, .category v)) (hauto : v.model.autoUpdate = true)
    (hint : v.model.autoUpdateInterval = 100) (hstep : v.model.autoUpdateIncrement = 1)
    (hupd : v.lastUpdatedTime = 0) (hlast : v.qtSeries.getLast? = some ⟨0, 2⟩)
    (ht : 100 ≤ t) :
    ∃ (st1 : ChartManager) (v1 : CategoryValueTie),
      timeChanged t increment st = some st1 ∧
      st1.series.get? i = some (key, .category v1) ∧
      v1.qtSeries = v.qtSeries ++ [⟨1, 2⟩] ∧ v1.lastUpdatedTime = t ∧
      st1.events = [] ∧
      st1.undoEvents = (st.series.filterMap (fabricatedRecord t)).reverse ++ st.undoEvents ∧
      fabricatedRecord t (key, .category v) =
        some (.categoryAddValue
          { event := { time := t, value := 1, category := 2, seriesId := key } }) := by
  have hdrain : drainEvents t st.events.length st = some st := drainEvents_nil t _ st hq
  have hlast2 : v.qtSeries.getLast? = some ⟨0, ((2 : Nat) : ℚ)⟩ := by
    rw [hlast]; norm_num
  have hdue : v.model.autoUpdateInterval ≤ t - v.lastUpdatedTime := by
    rw [hint, hupd]; simpa using ht
  obtain ⟨g1, v1, g2, g3, g4, _, _⟩ := advance_of_due t key v 0 2 hauto hlast2 hdue
  obtain ⟨h1, h2⟩ := fakeEvents_entries t st
  refine ⟨fakeEvents t st, v1, ?_, by rw [h2 i key v hget, g2], ?_, g4, ?_, h1, ?_⟩
  · simp only [timeChanged, hinc, gt_iff_lt, if_true, timeAdvanced, hdrain, Option.map_some']
  · rw [g3, hstep]; norm_num
  · exact ((foldl_fakeEvent_spec t _ st).1).trans hq
  · rw [g1, hstep]; norm_num

/-- Witness of C16 (amended): scenario B with the call (250, 250). -/
theorem single_call_one_synthetic_event_witness :
    ∃ (st1 : ChartManager) (v1 : CategoryValueTie),
      timeChanged 250 250 Scenario.categoryAt0 = some st1 ∧
      st1.series.get? 0 = some (2, .category v1) ∧
      v1.qtSeries = Scenario.categoryTieAt0.qtSeries ++ [⟨1, 2⟩] ∧ v1.lastUpdatedTime = 250 ∧
      st1.events = [] ∧
      st1.undoEvents =
        (Scenario.categoryAt0.series.filterMap (fabricatedRecord 250)).reverse ++
          Scenario.categoryAt0.undoEvents ∧
      fabricatedRecord 250 (2, .category Scenario.categoryTieAt0) =
        some (.categoryAddValue
          { event := { time := 250, value := 1, category := 2, seriesId := 2 } }) :=
  single_call_one_synthetic_event 250 250 Scenario.categoryAt0 0 2 Scenario.categoryTieAt0
    (by decide) (by with_unfolding_all decide) (by with_unfolding_all decide)
    (by with_unfolding_all decide) (by with_unfolding_all decide) (by with_unfolding_all decide)
    (by with_unfolding_all decide) (by with_unfolding_all decide) (by decide)

/-! ## Rewinding to a time no event precedes -/

theorem drainEvents_sample (t : nanoseconds) (fuel : Nat) :
    ∀ st st1 : ChartManager, st.events.length ≤ fuel → drainEvents t fuel st = some st1 →
      sRun (st.events.takeWhile fun e => decide (e.time ≤ t)) (sampleState st) =
        some (sampleState st1) := by
  induction fuel with
  | zero =>
    intro st st1 hlen h
    have hnil : st.events = [] := List.length_eq_zero.mp (Nat.le_zero.mp hlen)
    simp only [drainEvents, Option.some.injEq] at h
    rw [hnil, ← h]; rfl
  | succ fuel ih =>
    intro st st1 hlen h
    cases hev : st.events with
    | nil =>
      simp only [drainEvents, hev, Option.some.injEq] at h
      rw [← h]; rfl
    | cons front tl =>
      simp only [drainEvents, hev] at h
      cases hh : handleEvent t front st with
      | none => rw [hh] at h; simp at h
      | some r =>
        obtain ⟨b, st2⟩ := r
        rw [hh] at h
        cases b with
        | false =>
          simp only [Option.some.injEq] at h
          obtain ⟨g1, g2⟩ := handleEvent_false t front st st2 hh
          have hnot : ¬ front.time ≤ t := not_le.mpr g2
          rw [← h, g1]
          simp [List.takeWhile, hnot, sRun]
        | true =>
          simp only at h
          obtain ⟨g1, g2, _, _⟩ := handleEvent_true t front st st2 hh
          have hs := handleEvent_sample t front st g1
          rw [hh] at hs
          have hap : sApply front (sampleState st) = some (sampleState st2) := by
            cases hq : sApply front (sampleState st) with
            | none => rw [hq] at hs; simp at hs
            | some c =>
              rw [hq] at hs
              simp only [Option.map_some', Option.some.injEq, Prod.mk.injEq, true_and] at hs
              rw [hs]
          have htl : st2.events = tl := by rw [g2, hev]; rfl
          have hlen2 : st2.events.length ≤ fuel := by
            rw [htl]; rw [hev] at hlen; simpa using hlen
          have := ih st2 st1 hlen2 h
          rw [htl] at this
          simp only [List.takeWhile, g1, decide_True, sRun, hap, Option.some_bind]
          exact this

theorem events_of_replayed (evs : List ChartEvent) (c0 : SampleState) (st : ChartManager)
    (hc0 : c0.events = evs) (done rest : List ChartEvent) (hsplit : evs = done ++ rest)
    (hrun : sRun done c0 = some (sampleState st)) : st.events = rest :=
  (sRun_shape done c0 (sampleState st) rest (by rw [hc0, hsplit]) hrun).1

theorem timeAdvanced_keeps_replayed (evs : List ChartEvent) (c0 : SampleState)
    (t : nanoseconds) (st st1 : ChartManager) (hno : noAutoUpdate st.series)
    (hc0 : c0.events = evs) (hinv : Replayed evs c0 st) (h : timeAdvanced t st = some st1) :
    Replayed evs c0 st1 := by
  obtain ⟨done, rest, hsplit, hrun⟩ := hinv
  have hq := events_of_replayed evs c0 st hc0 done rest hsplit hrun
  unfold timeAdvanced at h
  cases hd : drainEvents t st.events.length st with
  | none => rw [hd] at h; simp at h
  | some st2 =>
    rw [hd] at h
    simp only [Option.map_some', Option.some.injEq] at h
    have hno2 : noAutoUpdate st2.series :=
      noAutoUpdate_of_declared (drainEvents_declared t _ st st2 hd) hno
    rw [fakeEvents_of_noAutoUpdate t st2 hno2] at h
    subst h
    have hs := drainEvents_sample t _ st st2 (le_refl _) hd
    rw [hq] at hs
    refine ⟨done ++ rest.takeWhile (fun e => decide (e.time ≤ t)),
      rest.dropWhile (fun e => decide (e.time ≤ t)), ?_, ?_⟩
    · rw [List.append_assoc, List.takeWhile_append_dropWhile]; exact hsplit
    · rw [sRun_append, hrun]; exact hs

theorem timeRewound_keeps_replayed (evs : List ChartEvent) (c0 : SampleState)
    (t : nanoseconds) (st : ChartManager) (hc0 : c0.events = evs) (hc0u : c0.undoEvents = [])
    (hinv : Replayed evs c0 st) :
    ∃ (st1 : ChartManager) (done1 rest1 : List ChartEvent), timeRewound t st = some st1 ∧
      evs = done1 ++ rest1 ∧ sRun done1 c0 = some (sampleState st1) ∧
      ∀ e ∈ done1.getLast?, e.time < t := by
  obtain ⟨done, rest, hsplit, hrun⟩ := hinv
  obtain ⟨st1, done1, popped, h1, _, h3, h4, _, h6⟩ :=
    drainUndoEvents_replayed c0 t hc0u st.undoEvents.length done rest st
      (by rw [hc0, hsplit]) hrun (le_refl _)
  exact ⟨st1, done1, popped ++ rest, h1, by rw [hsplit, h3, List.append_assoc], h4, h6⟩

theorem timeChanged_keeps_replayed (evs : List ChartEvent) (c0 : SampleState)
    (t inc : nanoseconds) (st st1 : ChartManager) (hno : noAutoUpdate st.series)
    (hc0 : c0.events = evs) (hc0u : c0.undoEvents = [])
    (hinv : Replayed evs c0 st) (h : timeChanged t inc st = some st1) :
    Replayed evs c0 st1 := by
  unfold timeChanged at h
  split at h
  · exact timeAdvanced_keeps_replayed evs c0 t st st1 hno hc0 hinv h
  · obtain ⟨st2, done1, rest1, g1, g2, g3, _⟩ :=
      timeRewound_keeps_replayed evs c0 t st hc0 hc0u hinv
    rw [g1] at h
    simp only [Option.some.injEq] at h
    subst h
    exact ⟨done1, rest1, g2, g3⟩

theorem runCalls_keeps_replayed (evs : List ChartEvent) (c0 : SampleState)
    (hc0 : c0.events = evs) (hc0u : c0.undoEvents = [])
    (calls : List (nanoseconds × nanoseconds)) :
    ∀ st st1 : ChartManager, noAutoUpdate st.series → Replayed evs c0 st →
      runCalls calls st = some st1 → noAutoUpdate st1.series ∧ Replayed evs c0 st1 := by
  induction calls with
  | nil =>
    intro st st1 hno hinv h
    simp only [runCalls, Option.some.injEq] at h
    subst h
    exact ⟨hno, hinv⟩
  | cons call calls ih =>
    intro st st1 hno hinv h
    simp only [runCalls] at h
    cases hc : timeChanged call.1 call.2 st with
    | none => rw [hc] at h; simp at h
    | some st2 =>
      rw [hc] at h
      simp only [Option.some_bind] at h
      exact ih st2 st1
        (noAutoUpdate_of_declared (timeChanged_declared call.1 call.2 st st2 hc) hno)
        (timeChanged_keeps_replayed evs c0 call.1 call.2 st st2 hno hc0 hc0u hinv hc) h

/-- A backward call to a time that no event precedes undoes the whole replay. -/
theorem timeRewound_to_start (evs : List ChartEvent) (c0 : SampleState) (t : nanoseconds)
    (st : ChartManager) (hc0 : c0.events = evs) (hc0u : c0.undoEvents = [])
    (htime : ∀ e ∈ evs, t ≤ e.time) (hinv : Replayed evs c0 st) :
    ∃ st1, timeRewound t st = some st1 ∧ sampleState st1 = c0 := by
  obtain ⟨st1, done1, rest1, g1, g2, g3, g4⟩ :=
    timeRewound_keeps_replayed evs c0 t st hc0 hc0u hinv
  refine ⟨st1, g1, ?_⟩
  rcases List.eq_nil_or_concat done1 with hd | ⟨d, x, hd⟩
  · rw [hd] at g3
    simp only [sRun, Option.some.injEq] at g3
    exact g3.symm
  · rw [List.concat_eq_append] at hd
    have hx : x.time < t := g4 x (by rw [hd]; simp)
    have hmem : x ∈ evs := by rw [g2, hd]; simp
    exact absurd (htime x hmem) (not_le.mpr hx)

theorem emplaceSeries_tieSamples (series : List (Nat × TieVariant)) (id : Nat)
    (tie : TieVariant) (h : ∀ entry ∈ series, tieSamples entry.2 = [])
    (ht : tieSamples tie = []) : ∀ entry ∈ emplaceSeries series id tie, tieSamples entry.2 = [] := by
  unfold emplaceSeries
  split
  · exact h
  · intro entry he
    rcases List.mem_append.mp he with he | he
    · exact h entry he
    · rw [List.mem_singleton.mp he]; exact ht

theorem foldl_addCollection_tieSamples (l : List SeriesCollection) (acc : ChartManager)
    (h : ∀ entry ∈ acc.series, tieSamples entry.2 = []) :
    ∀ entry ∈ (l.foldl addCollection acc).series, tieSamples entry.2 = [] := by
  induction l generalizing acc with
  | nil => exact h
  | cons c l ih =>
    rw [List.foldl_cons]
    exact ih _ (emplaceSeries_tieSamples _ _ _ h rfl)

theorem foldl_addXYSeries_tieSamples (l : List XYSeries) (acc : ChartManager)
    (h : ∀ entry ∈ acc.series, tieSamples entry.2 = []) :
    ∀ entry ∈ (l.foldl addXYSeries acc).series, tieSamples entry.2 = [] := by
  induction l generalizing acc with
  | nil => exact h
  | cons c l ih =>
    rw [List.foldl_cons]
    exact ih _ (emplaceSeries_tieSamples _ _ _ h rfl)

theorem foldl_addCategorySeries_tieSamples (l : List CategoryValueSeries) (acc : ChartManager)
    (h : ∀ entry ∈ acc.series, tieSamples entry.2 = []) :
    ∀ entry ∈ (l.foldl addCategorySeries acc).series, tieSamples entry.2 = [] := by
  induction l generalizing acc with
  | nil => exact h
  | cons c l ih =>
    rw [List.foldl_cons]
    exact ih _ (emplaceSeries_tieSamples _ _ _ h rfl)

theorem findSeries_mem (series : List (Nat × TieVariant)) (id : Nat) (tie : TieVariant)
    (h : findSeries series id = some tie) : (id, tie) ∈ series := by
  induction series with
  | nil => simp [findSeries] at h
  | cons hd tl ih =>
    obtain ⟨k, v⟩ := hd
    by_cases hk : k = id
    · simp only [findSeries, hk, if_true, Option.some.injEq] at h
      rw [hk, h]; exact List.mem_cons_self _ _
    · simp only [findSeries, hk, if_false] at h
      exact List.mem_cons_of_mem _ (ih h)

theorem samplesOf_of_tieSamples (st : ChartManager)
    (h : ∀ entry ∈ st.series, tieSamples entry.2 = []) (id : Nat) (points : List QPointF)
    (hs : samplesOf st id = some points) : points = [] := by
  unfold samplesOf at hs
  cases hf : findSeries st.series id with
  | none => rw [hf] at hs; simp at hs
  | some tie =>
    rw [hf] at hs
    have := h (id, tie) (findSeries_mem _ _ _ hf)
    cases tie with
    | xy s => simp only [Option.some.injEq] at hs; rw [← hs]; exact this
    | collection s => simp at hs
    | category s => simp only [Option.some.injEq] at hs; rw [← hs]; exact this

theorem addSeries_tieSamples (xySeries : List XYSeries) (collections : List SeriesCollection)
    (categoryValueSeries : List CategoryValueSeries) (st : ChartManager)
    (h : ∀ entry ∈ st.series, tieSamples entry.2 = []) :
    ∀ entry ∈ (addSeries xySeries collections categoryValueSeries st).series,
      tieSamples entry.2 = [] :=
  foldl_addCategorySeries_tieSamples _ _
    (foldl_addXYSeries_tieSamples _ _ (foldl_addCollection_tieSamples _ _ h))

/-- C20: when every event time is >= 0 and no registered category series is
auto-advancing, then from every state reached by a run of `timeChanged` calls from
`reset`, `addSeries` and `enqueueEvents` of the events `evs`, a backward call to time 0
(`timeChanged(0, increment)` with a negative increment) returns, empties the undo stack,
makes the forward queue equal to `evs` in the original order, and leaves every series with
the samples of the initial state, which are none. -/
theorem rewind_to_zero_resets (s : ChartManager) (xySeries : List XYSeries)
    (collections : List SeriesCollection) (categoryValueSeries : List CategoryValueSeries)
    (evs : List ChartEvent) (calls : List (nanoseconds × nanoseconds)) (st : ChartManager)
    (increment : nanoseconds)
    (hreach : runCalls calls
      (enqueueEvents evs (addSeries xySeries collections categoryValueSeries (reset s))) =
        some st)
    (htime : ∀ e ∈ evs, 0 ≤ e.time)
    (hno : ∀ c ∈ categoryValueSeries, c.autoUpdate = false)
    (hinc : increment < 0) :
    ∃ st1, timeChanged 0 increment st = some st1 ∧ st1.undoEvents = [] ∧ st1.events = evs ∧
      (∀ id, samplesOf st1 id =
        samplesOf
          (enqueueEvents evs (addSeries xySeries collections categoryValueSeries (reset s)))
          id) ∧
      ∀ id points, samplesOf st1 id = some points → points = [] := by
  obtain ⟨e1, e2⟩ := addSeries_events xySeries collections categoryValueSeries (reset s)
  generalize hst0 :
    enqueueEvents evs (addSeries xySeries collections categoryValueSeries (reset s)) = st0
    at hreach
  have hev : st0.events = evs := by
    rw [← hst0]
    show (addSeries xySeries collections categoryValueSeries (reset s)).events ++ evs = evs
    rw [e1]; rfl
  have hun : st0.undoEvents = [] := by
    rw [← hst0]
    show (addSeries xySeries collections categoryValueSeries (reset s)).undoEvents = []
    rw [e2]; rfl
  have hnoauto : noAutoUpdate st0.series := by
    rw [← hst0]
    exact addSeries_noAutoUpdate xySeries collections categoryValueSeries (reset s)
      (by intro entry he; simp [reset, declared] at he) hno
  have hempty : ∀ entry ∈ st0.series, tieSamples entry.2 = [] := by
    rw [← hst0]
    exact addSeries_tieSamples xySeries collections categoryValueSeries (reset s)
      (by intro entry he; simp [reset] at he)
  have hinv0 : Replayed evs (sampleState st0) st0 := ⟨[], evs, rfl, rfl⟩
  obtain ⟨_, hinv⟩ :=
    runCalls_keeps_replayed evs (sampleState st0) hev hun calls st0 st hnoauto hinv0 hreach
  obtain ⟨st1, g1, g2⟩ :=
    timeRewound_to_start evs (sampleState st0) 0 st hev hun htime hinv
  have hsamples : ∀ id, samplesOf st1 id = samplesOf st0 id :=
    samplesOf_of_sampleState st1 st0 g2
  refine ⟨st1, ?_, ?_, ?_, hsamples, ?_⟩
  · simp only [timeChanged, gt_iff_lt, not_lt.mpr (le_of_lt hinc), if_false]
    exact g1
  · have := congrArg SampleState.undoEvents g2
    exact this.trans hun
  · have := congrArg SampleState.events g2
    exact this.trans hev
  · intro id points hp
    rw [hsamples id] at hp
    exact samplesOf_of_tieSamples st0 hempty id points hp

/-- Witness of C20: the plain trace (events at times 1, 5, 7 and 9, no auto-advancing
series) after the calls (7, 7) and (3, -4); the call (0, -3) returns with an empty undo
stack, the four events queued in order and no sample in any series. -/
theorem rewind_to_zero_resets_witness :
    runCalls [(7, 7), (3, -4)] Scenario.plainTrace = some Scenario.plainVisited ∧
    Scenario.plainVisited.undoEvents.length = 1 ∧
    samplesOf Scenario.plainVisited 1 = some [{ x := 1, y := 1 }, { x := 2, y := 4 }] ∧
    ∃ st1, timeChanged 0 (-3) Scenario.plainVisited = some st1 ∧ st1.undoEvents = [] ∧
      st1.events = Scenario.plainEvents ∧
      (∀ id, samplesOf st1 id = samplesOf Scenario.plainTrace id) ∧
      ∀ id points, samplesOf st1 id = some points → points = [] := by
  have h : runCalls [(7, 7), (3, -4)] Scenario.plainTrace = some Scenario.plainVisited := by
    with_unfolding_all decide
  exact ⟨h, by with_unfolding_all decide, by with_unfolding_all decide,
    rewind_to_zero_resets Scenario.empty [Scenario.pointSeries] [] [Scenario.plainCategory]
      Scenario.plainEvents [(7, 7), (3, -4)] Scenario.plainVisited (-3) h (by decide)
      (by decide) (by decide)⟩

/-! ## Claims C21 to C30 -/

theorem foldl_inCollections (series : List (Nat × TieVariant)) (id : Nat) (acc : List Nat) :
    series.foldl
      (fun collections entry =>
        match entry.2 with
        | .collection value =>
          if id ∈ value.model.series then collections ++ [value.model.id] else collections
        | _ => collections)
      acc =
    acc ++ (series.filter (containsMember id)).filterMap fun entry =>
      match entry.2 with
      | .collection value => some value.model.id
      | _ => none := by
  induction series generalizing acc with
  | nil => simp
  | cons hd tl ih =>
    obtain ⟨key, tie⟩ := hd
    rw [List.foldl_cons, ih]
    cases tie with
    | xy s => simp [containsMember]
    | category s => simp [containsMember]
    | collection c =>
      by_cases hm : id ∈ c.model.series
      · simp [containsMember, hm]
      · simp [containsMember, hm]

/-- The result of `inCollections`: the model ids of the entries that are collections
containing `id`, one per entry, in iteration order. -/
theorem inCollections_eq (series : List (Nat × TieVariant)) (id : Nat) :
    inCollections series id =
      (series.filter (containsMember id)).filterMap fun entry =>
        match entry.2 with
        | .collection value => some value.model.id
        | _ => none := by
  unfold inCollections
  rw [foldl_inCollections]; simp

theorem mem_inCollections (series : List (Nat × TieVariant)) (id cid : Nat) :
    cid ∈ inCollections series id ↔
      ∃ entry ∈ series, ∃ c : SeriesCollectionTie,
        entry.2 = .collection c ∧ id ∈ c.model.series ∧ c.model.id = cid := by
  rw [inCollections_eq]
  simp only [List.mem_filterMap, List.mem_filter]
  constructor
  · rintro ⟨entry, ⟨hmem, hc⟩, hid⟩
    obtain ⟨key, tie⟩ := entry
    cases tie with
    | xy s => simp at hid
    | category s => simp at hid
    | collection c =>
      simp only [Option.some.injEq] at hid
      simp only [containsMember, decide_eq_true_eq] at hc
      exact ⟨(key, .collection c), hmem, c, rfl, hc, hid⟩
  · rintro ⟨entry, hmem, c, hc, hm, hid⟩
    obtain ⟨key, tie⟩ := entry
    simp only at hc
    subst hc
    exact ⟨(key, .collection c), ⟨hmem, by simp [containsMember, hm]⟩, by simp [hid]⟩

theorem length_inCollections (series : List (Nat × TieVariant)) (id : Nat) :
    (inCollections series id).length = series.countP (containsMember id) := by
  rw [inCollections_eq, List.countP_eq_length_filter]
  induction series with
  | nil => rfl
  | cons hd tl ih =>
    obtain ⟨key, tie⟩ := hd
    cases tie with
    | xy s => simpa [containsMember, List.filter_cons] using ih
    | category s => simpa [containsMember, List.filter_cons] using ih
    | collection c =>
      by_cases hm : id ∈ c.model.series
      · simpa [containsMember, List.filter_cons, hm] using ih
      · simpa [containsMember, List.filter_cons, hm] using ih

theorem findSeries_of_mem_nodup (series : List (Nat × TieVariant))
    (hnodup : (series.map Prod.fst).Nodup) (key : Nat) (tie : TieVariant)
    (hmem : (key, tie) ∈ series) : findSeries series key = some tie := by
  induction series with
  | nil => simp at hmem
  | cons hd tl ih =>
    obtain ⟨k, v⟩ := hd
    simp only [List.map_cons, List.nodup_cons] at hnodup
    rcases List.mem_cons.mp hmem with h | h
    · simp only [Prod.mk.injEq] at h
      simp [findSeries, h.1, h.2]
    · have hne : k ≠ key := by
        intro hk
        apply hnodup.1
        rw [hk]
        exact List.mem_map.mpr ⟨(key, tie), h, rfl⟩
      simp only [findSeries, hne, if_false]
      exact ih hnodup.2 h

theorem nodup_inCollections (series : List (Nat × TieVariant)) (id : Nat)
    (hnodup : (series.map Prod.fst).Nodup)
    (hkey : ∀ entry ∈ series, modelId entry.2 = entry.1) :
    (inCollections series id).Nodup := by
  rw [inCollections_eq]
  induction series with
  | nil => simp
  | cons hd tl ih =>
    obtain ⟨key, tie⟩ := hd
    simp only [List.map_cons, List.nodup_cons] at hnodup
    have ihtl := ih hnodup.2 (fun entry he => hkey entry (List.mem_cons_of_mem _ he))
    by_cases hc : containsMember id (key, tie) = true
    · rw [List.filter_cons_of_pos hc]
      cases tie with
      | xy s => simp [containsMember] at hc
      | category s => simp [containsMember] at hc
      | collection c =>
        show (c.model.id :: List.filterMap _ (List.filter (containsMember id) tl)).Nodup
        rw [List.nodup_cons]
        refine ⟨?_, ihtl⟩
        intro hmem
        have hk : c.model.id = key := hkey (key, .collection c) (List.mem_cons_self _ _)
        rw [hk] at hmem
        simp only [List.mem_filterMap, List.mem_filter] at hmem
        obtain ⟨entry, ⟨he, _⟩, hid⟩ := hmem
        obtain ⟨k2, t2⟩ := entry
        cases t2 with
        | xy s => simp at hid
        | category s => simp at hid
        | collection c2 =>
          simp only [Option.some.injEq] at hid
          have hk2 : c2.model.id = k2 :=
            hkey (k2, .collection c2) (List.mem_cons_of_mem _ he)
          apply hnodup.1
          rw [← hid, hk2]
          exact List.mem_map.mpr ⟨(k2, .collection c2), he, rfl⟩
    · rw [List.filter_cons_of_neg hc]
      exact ihtl

/-- C21: for every registry and every id, `inCollections(id)` returns a collection id
exactly when a registry entry is a collection with that model id whose member list contains
`id`; every such entry contributes once (the result is as long as the number of such
entries) and no other entry contributes. When the registry keys are distinct and every
entry is stored under the id of its model, this means: a collection id is returned exactly
when that collection is registered and contains `id`, and no id is returned twice. -/
theorem inCollections_reverse_lookup (series : List (Nat × TieVariant)) (id : Nat) :
    (∀ cid, cid ∈ inCollections series id ↔
      ∃ entry ∈ series, ∃ c : SeriesCollectionTie,
        entry.2 = .collection c ∧ id ∈ c.model.series ∧ c.model.id = cid) ∧
    (inCollections series id).length = series.countP (containsMember id) ∧
    ((series.map Prod.fst).Nodup →
      (∀ entry ∈ series, modelId entry.2 = entry.1) →
      (inCollections series id).Nodup ∧
      ∀ cid, cid ∈ inCollections series id ↔
        ∃ c : SeriesCollectionTie,
          findSeries series cid = some (.collection c) ∧ id ∈ c.model.series) := by
  refine ⟨mem_inCollections series id, length_inCollections series id, ?_⟩
  intro hnodup hkey
  refine ⟨nodup_inCollections series id hnodup hkey, ?_⟩
  intro cid
  rw [mem_inCollections]
  constructor
  · rintro ⟨entry, hmem, c, hc, hm, hid⟩
    obtain ⟨key, tie⟩ := entry
    simp only at hc
    subst hc
    have hk : c.model.id = key := hkey (key, .collection c) hmem
    rw [← hid, hk]
    exact ⟨c, findSeries_of_mem_nodup series hnodup key _ hmem, hm⟩
  · rintro ⟨c, hf, hm⟩
    have hmem := findSeries_mem series cid _ hf
    exact ⟨(cid, .collection c), hmem, c, rfl, hm, hkey _ hmem⟩

/-- Witness of C21, scenario C: the collection 5 holds the series 1 and 4, the collection
6 holds the series 4 only. -/
theorem inCollections_reverse_lookup_witness :
    inCollections Scenario.collectionTrace.series 4 = [5, 6] ∧
    inCollections Scenario.collectionTrace.series 1 = [5] ∧
    inCollections Scenario.collectionTrace.series 5 = [] ∧
    (inCollections Scenario.collectionTrace.series 4).Nodup ∧
    ∀ cid, cid ∈ inCollections Scenario.collectionTrace.series 4 ↔
      ∃ c : SeriesCollectionTie,
        findSeries Scenario.collectionTrace.series cid = some (.collection c) ∧
          4 ∈ c.model.series := by
  have h := (inCollections_reverse_lookup Scenario.collectionTrace.series 4).2.2
    (by decide) (by with_unfolding_all decide)
  exact ⟨by decide, by decide, by decide, h.1, h.2⟩

/-! ## Termination of the two drain loops -/

theorem drainEvents_fuel (t : nanoseconds) (n : Nat) :
    ∀ (fuel : Nat) (st : ChartManager), st.events.length = n → n ≤ fuel →
      drainEvents t fuel st = drainEvents t n st := by
  induction n with
  | zero =>
    intro fuel st hlen _
    have hnil : st.events = [] := List.length_eq_zero.mp hlen
    rw [drainEvents_nil t fuel st hnil, drainEvents_nil t 0 st hnil]
  | succ n ih =>
    intro fuel st hlen hfuel
    cases fuel with
    | zero => omega
    | succ f =>
      cases hev : st.events with
      | nil => rw [hev] at hlen; simp at hlen
      | cons front tl =>
        simp only [drainEvents, hev]
        cases hh : handleEvent t front st with
        | none => rfl
        | some r =>
          obtain ⟨b, st2⟩ := r
          cases b with
          | false => rfl
          | true =>
            simp only
            obtain ⟨_, g2, _, _⟩ := handleEvent_true t front st st2 hh
            have hlen2 : st2.events.length = n := by
              rw [g2, hev]; rw [hev] at hlen; simpa using hlen
            exact ih f st2 hlen2 (by omega)

theorem drainUndoEvents_nil (t : nanoseconds) (fuel : Nat) (st : ChartManager)
    (h : st.undoEvents = []) : drainUndoEvents t fuel st = some st := by
  cases fuel with
  | zero => rfl
  | succ n => simp only [drainUndoEvents, h]

theorem drainUndoEvents_fuel (t : nanoseconds) (n : Nat) :
    ∀ (fuel : Nat) (st : ChartManager), st.undoEvents.length = n → n ≤ fuel →
      drainUndoEvents t fuel st = drainUndoEvents t n st := by
  induction n with
  | zero =>
    intro fuel st hlen _
    have hnil : st.undoEvents = [] := List.length_eq_zero.mp hlen
    rw [drainUndoEvents_nil t fuel st hnil, drainUndoEvents_nil t 0 st hnil]
  | succ n ih =>
    intro fuel st hlen hfuel
    cases fuel with
    | zero => omega
    | succ f =>
      cases hev : st.undoEvents with
      | nil => rw [hev] at hlen; simp at hlen
      | cons back tl =>
        simp only [drainUndoEvents, hev]
        cases hh : handleUndoEvent t back st with
        | none => rfl
        | some r =>
          obtain ⟨b, st2⟩ := r
          cases b with
          | false => rfl
          | true =>
            simp only
            obtain ⟨_, _, g3, _⟩ := handleUndoEvent_true t back st st2 hh
            have hlen2 : ({ st2 with undoEvents := st2.undoEvents.tail } : ChartManager).undoEvents.length
                = n := by
              show st2.undoEvents.tail.length = n
              rw [g3, hev]; rw [hev] at hlen; simpa using hlen
            exact ih f _ hlen2 (by omega)

/-- The forward loop has reached its exit test when it returns. -/
theorem drainEvents_exit (t : nanoseconds) (st st1 : ChartManager)
    (h : drainEvents t st.events.length st = some st1) :
    st1.events = [] ∨
      ∃ front rest, st1.events = front :: rest ∧ handleEvent t front st1 = some (false, st1) := by
  obtain ⟨_, h1, _, _, _⟩ := drainEvents_shape t _ st st1 (le_refl _) h
  cases hq : st1.events with
  | nil => exact Or.inl rfl
  | cons front rest =>
    refine Or.inr ⟨front, rest, rfl, ?_⟩
    have hhead : (st.events.dropWhile fun e => decide (e.time ≤ t)).head? = some front := by
      rw [← h1, hq]; rfl
    have hnot := List.head?_dropWhile_not (fun e : ChartEvent => decide (e.time ≤ t)) st.events
    rw [hhead] at hnot
    simp only [decide_eq_true_eq, Bool.not_eq_true, decide_eq_false_iff_not] at hnot
    have hgt : front.time > t := not_le.mp (by simpa using hnot)
    simp only [handleEvent, hgt, if_true]

/-- The backward loop has reached its exit test when it returns. -/
theorem drainUndoEvents_exit (t : nanoseconds) (st st1 : ChartManager)
    (h : drainUndoEvents t st.undoEvents.length st = some st1) :
    st1.undoEvents = [] ∨
      ∃ back rest, st1.undoEvents = back :: rest ∧
        handleUndoEvent t back st1 = some (false, st1) := by
  obtain ⟨h1, _, _⟩ := drainUndoEvents_spec t _ st st1 (le_refl _) h
  cases hq : st1.undoEvents with
  | nil => exact Or.inl rfl
  | cons back rest =>
    refine Or.inr ⟨back, rest, rfl, ?_⟩
    have hhead :
        (st.undoEvents.dropWhile fun r => decide (t ≤ r.event.time)).head? = some back := by
      rw [← h1, hq]; rfl
    have hnot :=
      List.head?_dropWhile_not (fun r : UndoEvent => decide (t ≤ r.event.time)) st.undoEvents
    rw [hhead] at hnot
    have hgt : t > back.event.time := not_le.mp (by simpa using hnot)
    simp only [handleUndoEvent, hgt, if_true]

/-- C24: `timeAdvanced` and `timeRewound` terminate for every state and target time. An
iteration of either loop that continues removes exactly one element (the front event, the
top record). The loops need no more iterations than the queue, or the stack, holds on
entry: giving them more changes nothing, and when they return the loop test is false (the
sequence is empty or the handler visited on its first element returns false). Hence
`timeAdvanced` pops a front part of the queue, at most as many events as it held, and
`timeRewound` pops a top part of the stack, at most as many records as it held. -/
theorem drains_terminate (t : nanoseconds) (st : ChartManager) :
    (∀ e st1, handleEvent t e st = some (true, st1) → st1.events = st.events.tail) ∧
    (∀ fuel, st.events.length ≤ fuel →
      drainEvents t fuel st = drainEvents t st.events.length st) ∧
    (∀ st1, drainEvents t st.events.length st = some st1 →
      (st1.events = [] ∨
        ∃ front rest, st1.events = front :: rest ∧
          handleEvent t front st1 = some (false, st1)) ∧
      ∃ popped, st.events = popped ++ st1.events ∧ popped.length ≤ st.events.length ∧
        st1.undoEvents.length = st.undoEvents.length + popped.length) ∧
    (∀ st2, timeAdvanced t st = some st2 →
      ∃ popped, st.events = popped ++ st2.events ∧ popped.length ≤ st.events.length) ∧
    (∀ r st1, handleUndoEvent t r st = some (true, st1) →
      ({ st1 with undoEvents := st1.undoEvents.tail } : ChartManager).undoEvents =
        st.undoEvents.tail) ∧
    (∀ fuel, st.undoEvents.length ≤ fuel →
      drainUndoEvents t fuel st = drainUndoEvents t st.undoEvents.length st) ∧
    (∀ st1, timeRewound t st = some st1 →
      (st1.undoEvents = [] ∨
        ∃ back rest, st1.undoEvents = back :: rest ∧
          handleUndoEvent t back st1 = some (false, st1)) ∧
      ∃ popped, st.undoEvents = popped ++ st1.undoEvents ∧
        popped.length ≤ st.undoEvents.length ∧
        st1.events.length = st.events.length + popped.length) := by
  refine ⟨?_, ?_, ?_, ?_, ?_, ?_, ?_⟩
  · intro e st1 h
    exact (handleEvent_true t e st st1 h).2.1
  · intro fuel hfuel
    exact drainEvents_fuel t _ fuel st rfl hfuel
  · intro st1 h
    refine ⟨drainEvents_exit t st st1 h, ?_⟩
    obtain ⟨records, h1, h2, h3, _⟩ := drainEvents_shape t _ st st1 (le_refl _) h
    refine ⟨st.events.takeWhile fun e => decide (e.time ≤ t), ?_, ?_, ?_⟩
    · rw [h1, List.takeWhile_append_dropWhile]
    · exact (List.takeWhile_sublist _).length_le
    · rw [h2, List.length_append, List.length_reverse, ← h3, List.length_map]; omega
  · intro st2 h
    unfold timeAdvanced at h
    cases hd : drainEvents t st.events.length st with
    | none => rw [hd] at h; simp at h
    | some st1 =>
      rw [hd] at h
      simp only [Option.map_some', Option.some.injEq] at h
      obtain ⟨_, h1, _, _, _⟩ := drainEvents_shape t _ st st1 (le_refl _) hd
      refine ⟨st.events.takeWhile fun e => decide (e.time ≤ t), ?_,
        (List.takeWhile_sublist _).length_le⟩
      have hq : (fakeEvents t st1).events = st1.events := (foldl_fakeEvent_spec t _ st1).1
      rw [← h, hq, h1, List.takeWhile_append_dropWhile]
  · intro r st1 h
    show st1.undoEvents.tail = st.undoEvents.tail
    rw [(handleUndoEvent_true t r st st1 h).2.2.1]
  · intro fuel hfuel
    exact drainUndoEvents_fuel t _ fuel st rfl hfuel
  · intro st1 h
    refine ⟨drainUndoEvents_exit t st st1 h, ?_⟩
    obtain ⟨h1, h2, _⟩ := drainUndoEvents_spec t _ st st1 (le_refl _) h
    refine ⟨st.undoEvents.takeWhile fun r => decide (t ≤ r.event.time), ?_, ?_, ?_⟩
    · rw [h1, List.takeWhile_append_dropWhile]
    · exact (List.takeWhile_sublist _).length_le
    · rw [h2, List.length_append, List.length_map, List.length_reverse]; omega

/-- C26 (the code at the failing input): for a point series and for a collection whose
axes are both declared logarithmic, `makeTie` creates a logarithmic x axis but a linear y
axis (a `QValueAxis`), with the declared range [1, 1000]; the y axis is linear for every
model, whatever scale is declared. -/
theorem makeTie_y_axis_always_linear :
    Scenario.logSeries.yAxis.scale = .Logarithmic ∧
    (makeTieXY Scenario.logSeries).xAxis = { kind := .LogValueAxis, min := 1, max := 1000 } ∧
    (makeTieXY Scenario.logSeries).yAxis = { kind := .ValueAxis, min := 1, max := 1000 } ∧
    Scenario.logCollection.yAxis.scale = .Logarithmic ∧
    (makeTieCollection Scenario.logCollection).xAxis =
      { kind := .LogValueAxis, min := 1, max := 1000 } ∧
    (makeTieCollection Scenario.logCollection).yAxis =
      { kind := .ValueAxis, min := 1, max := 1000 } ∧
    (∀ model : XYSeries, (makeTieXY model).yAxis.kind = .ValueAxis) ∧
    (∀ model : SeriesCollection, (makeTieCollection model).yAxis.kind = .ValueAxis) :=
  ⟨rfl, rfl, rfl, rfl, rfl, rfl, fun _ => rfl, fun _ => rfl⟩

/-- C27 (the code at the failing input): for the texture path `/home/evan/projects` of the
source comment, which holds no backslash, `rfind` gives `npos`, the position `npos + 1`
wraps to 0 and the file loaded is `resources/textures//home/evan/projects`, not
`resources/textures/projects`. -/
theorem textureFilepath_keeps_directories :
    ModelRenderInfo.afterLastSlash "/home/evan/projects" = "projects" ∧
    ModelRenderInfo.rfind "/home/evan/projects" ModelRenderInfo.backslash =
      ModelRenderInfo.npos ∧
    ModelRenderInfo.textureFilepath "/home/evan/projects" =
      some "resources/textures//home/evan/projects" ∧
    ModelRenderInfo.textureFilepath "/home/evan/projects" ≠
      some ("resources/textures/" ++ ModelRenderInfo.afterLastSlash "/home/evan/projects") := by
  refine ⟨?_, ?_, ?_, ?_⟩ <;> decide

/-! ## The log drain -/

theorem findStream_setStream (streams : List (Nat × LogStreamPair)) (id id1 : Nat)
    (pair old : LogStreamPair) (hold : ScenarioLogWidget.findStream streams id = some old) :
    ScenarioLogWidget.findStream (ScenarioLogWidget.setStream streams id pair) id1 =
      if id = id1 then some pair else ScenarioLogWidget.findStream streams id1 := by
  induction streams with
  | nil => simp [ScenarioLogWidget.findStream] at hold
  | cons hd tl ih =>
    obtain ⟨k, v⟩ := hd
    by_cases hk : k = id
    · subst hk
      by_cases h1 : k = id1
      · simp [ScenarioLogWidget.setStream, ScenarioLogWidget.findStream, h1]
      · simp [ScenarioLogWidget.setStream, ScenarioLogWidget.findStream, h1]
    · simp only [ScenarioLogWidget.findStream, hk, if_false] at hold
      simp only [ScenarioLogWidget.setStream, hk, if_false, ScenarioLogWidget.findStream]
      by_cases h1 : k = id1
      · have : ¬ id = id1 := fun h => hk (h1.trans h.symm)
        simp [h1, this]
      · simp only [h1, if_false]
        exact ih hold

theorem printSingle_frame (pair : LogStreamPair) (value : String) (w : ScenarioLogWidget) :
    (ScenarioLogWidget.printSingle pair value w).streams = w.streams ∧
    (ScenarioLogWidget.printSingle pair value w).events = w.events :=
  ⟨rfl, rfl⟩

theorem printToUnifiedLog_frame (pair : LogStreamPair) (value : String)
    (w : ScenarioLogWidget) :
    (ScenarioLogWidget.printToUnifiedLog pair value w).streams = w.streams ∧
    (ScenarioLogWidget.printToUnifiedLog pair value w).events = w.events := by
  unfold ScenarioLogWidget.printToUnifiedLog
  split
  · generalize value.splitOn (String.singleton newline) = lines
    induction lines generalizing w with
    | nil => exact ⟨rfl, rfl⟩
    | cons l ls ih =>
      rw [List.foldl_cons]
      obtain ⟨h1, h2⟩ := ih (ScenarioLogWidget.printSingle pair (l ++ String.singleton newline) w)
      exact ⟨h1, h2⟩
  · exact ⟨rfl, rfl⟩

theorem printSingle_events (pair : LogStreamPair) (value : String) (w : ScenarioLogWidget)
    (ev : List LogEvent) :
    ScenarioLogWidget.printSingle pair value { w with events := ev } =
      { ScenarioLogWidget.printSingle pair value w with events := ev } := rfl

theorem printToUnifiedLog_events (pair : LogStreamPair) (value : String)
    (w : ScenarioLogWidget) (ev : List LogEvent) :
    ScenarioLogWidget.printToUnifiedLog pair value { w with events := ev } =
      { ScenarioLogWidget.printToUnifiedLog pair value w with events := ev } := by
  unfold ScenarioLogWidget.printToUnifiedLog
  split
  · generalize value.splitOn (String.singleton newline) = lines
    induction lines generalizing w with
    | nil => rfl
    | cons l ls ih =>
      rw [List.foldl_cons, List.foldl_cons, printSingle_events, ih]
  · rfl

/-- The log handler does not read the queue. -/
theorem log_handleEvent_events (e : StreamAppendEvent) (w : ScenarioLogWidget)
    (ev : List LogEvent) :
    ScenarioLogWidget.handleEvent e { w with events := ev } =
      { ScenarioLogWidget.handleEvent e w with events := ev } := by
  cases hf : ScenarioLogWidget.findStream w.streams e.streamId with
  | none => simp only [ScenarioLogWidget.handleEvent, hf]
  | some pair =>
    simp only [ScenarioLogWidget.handleEvent, hf]
    exact printToUnifiedLog_events (pair.print e.value) e.value
      { w with streams := ScenarioLogWidget.setStream w.streams e.streamId (pair.print e.value) }
      ev

theorem log_handleEvent_frame (e : StreamAppendEvent) (w : ScenarioLogWidget) :
    (ScenarioLogWidget.handleEvent e w).events = w.events ∧
    ∀ id, ScenarioLogWidget.findStream (ScenarioLogWidget.handleEvent e w).streams id =
      if e.streamId = id then
        (ScenarioLogWidget.findStream w.streams id).map fun pair => pair.print e.value
      else ScenarioLogWidget.findStream w.streams id := by
  unfold ScenarioLogWidget.handleEvent
  cases hf : ScenarioLogWidget.findStream w.streams e.streamId with
  | none =>
    refine ⟨rfl, ?_⟩
    intro id
    by_cases h : e.streamId = id
    · simp only [h, if_true]; rw [h] at hf; rw [hf]; rfl
    · simp only [h, if_false]
  | some pair =>
    simp only
    obtain ⟨h1, h2⟩ := printToUnifiedLog_frame (pair.print e.value) e.value
      { w with streams := ScenarioLogWidget.setStream w.streams e.streamId (pair.print e.value) }
    refine ⟨h2, ?_⟩
    intro id
    rw [h1]
    show ScenarioLogWidget.findStream
      (ScenarioLogWidget.setStream w.streams e.streamId (pair.print e.value)) id = _
    rw [findStream_setStream _ _ _ _ pair hf]
    by_cases h : e.streamId = id
    · simp only [h, if_true]; rw [h] at hf; rw [hf]; rfl
    · simp only [h, if_false]

theorem log_foldl_events (l : List LogEvent) (w : ScenarioLogWidget) (ev : List LogEvent) :
    l.foldl (fun acc e => ScenarioLogWidget.handleEvent e acc) { w with events := ev } =
      { l.foldl (fun acc e => ScenarioLogWidget.handleEvent e acc) w with events := ev } := by
  induction l generalizing w with
  | nil => rfl
  | cons e l ih => rw [List.foldl_cons, List.foldl_cons, log_handleEvent_events, ih]

/-- The log loop: the handler run on the due front part of the queue, which is removed. -/
theorem log_drain_spec (t : ℚ) (fuel : Nat) :
    ∀ w : ScenarioLogWidget, w.events.length ≤ fuel →
      ScenarioLogWidget.drain t fuel w =
        { (w.events.takeWhile fun e => decide (e.time ≤ t)).foldl
            (fun acc e => ScenarioLogWidget.handleEvent e acc) w with
          events := w.events.dropWhile fun e => decide (e.time ≤ t) } := by
  induction fuel with
  | zero =>
    intro w hlen
    have hnil : w.events = [] := List.length_eq_zero.mp (Nat.le_zero.mp hlen)
    simp only [ScenarioLogWidget.drain, hnil, List.takeWhile_nil, List.dropWhile_nil,
      List.foldl_nil]
    cases w; simp_all
  | succ fuel ih =>
    intro w hlen
    cases hev : w.events with
    | nil =>
      simp only [ScenarioLogWidget.drain, hev, List.takeWhile_nil, List.dropWhile_nil,
        List.foldl_nil]
      cases w; simp_all
    | cons front tl =>
      simp only [ScenarioLogWidget.drain, hev, ScenarioLogWidget.handle]
      by_cases hlt : t < front.time
      · have hnot : ¬ front.time ≤ t := not_le.mpr hlt
        simp only [hlt, if_true, List.takeWhile, List.dropWhile, hnot, decide_False,
          List.foldl_nil]
        cases w; simp_all
      · have hle : front.time ≤ t := not_lt.mp hlt
        simp only [hlt, if_false, List.takeWhile, List.dropWhile, hle, decide_True,
          List.foldl_cons]
        have hq : (ScenarioLogWidget.handleEvent front w).events.tail = tl := by
          rw [(log_handleEvent_frame front w).1, hev]; rfl
        rw [hq]
        have hlen2 : ({ ScenarioLogWidget.handleEvent front w with events := tl } :
            ScenarioLogWidget).events.length ≤ fuel := by
          show tl.length ≤ fuel
          rw [hev] at hlen; simpa using hlen
        rw [ih _ hlen2]
        show ({ List.foldl (fun acc e => ScenarioLogWidget.handleEvent e acc)
            { ScenarioLogWidget.handleEvent front w with events := tl }
            (tl.takeWhile fun e => decide (e.time ≤ t)) with
          events := tl.dropWhile fun e => decide (e.time ≤ t) } : ScenarioLogWidget) = _
        rw [log_foldl_events]

theorem log_foldl_streams (l : List LogEvent) :
    ∀ (w : ScenarioLogWidget) (id : Nat),
      ScenarioLogWidget.findStream
          (l.foldl (fun acc e => ScenarioLogWidget.handleEvent e acc) w).streams id =
        (ScenarioLogWidget.findStream w.streams id).map fun pair =>
          ((l.filter fun e => e.streamId = id).map fun e => e.value).foldl
            (fun acc v => acc.print v) pair := by
  induction l with
  | nil =>
    intro w id
    simp only [List.foldl_nil, List.filter_nil, List.map_nil]
    cases ScenarioLogWidget.findStream w.streams id <;> rfl
  | cons e l ih =>
    intro w id
    rw [List.foldl_cons, ih, (log_handleEvent_frame e w).2 id]
    by_cases h : e.streamId = id
    · simp only [h, if_true, List.filter_cons, decide_True, List.map_cons, List.foldl_cons]
      cases ScenarioLogWidget.findStream w.streams id <;> rfl
    · simp only [h, if_false, List.filter_cons, decide_False]
      rfl

theorem foldl_print_data (values : List String) :
    ∀ pair : LogStreamPair,
      (values.foldl (fun acc v => acc.print v) pair).data =
        values.foldl (fun acc v => acc ++ v) pair.data ∧
      (values.foldl (fun acc v => acc.print v) pair).model = pair.model := by
  induction values with
  | nil => intro pair; exact ⟨rfl, rfl⟩
  | cons v vs ih =>
    intro pair
    rw [List.foldl_cons, List.foldl_cons]
    exact ih (pair.print v)

theorem log_foldl_registered (l : List LogEvent) :
    ∀ w : ScenarioLogWidget,
      l.foldl (fun acc e => ScenarioLogWidget.handleEvent e acc) w =
        (l.filter fun e => (ScenarioLogWidget.findStream w.streams e.streamId).isSome).foldl
          (fun acc e => ScenarioLogWidget.handleEvent e acc) w := by
  induction l with
  | nil => intro w; rfl
  | cons e l ih =>
    intro w
    rw [List.foldl_cons, ih]
    have hkeys : (fun x : LogEvent =>
        (ScenarioLogWidget.findStream (ScenarioLogWidget.handleEvent e w).streams
          x.streamId).isSome) =
        fun x : LogEvent => (ScenarioLogWidget.findStream w.streams x.streamId).isSome := by
      funext x
      rw [(log_handleEvent_frame e w).2 x.streamId]
      by_cases h : e.streamId = x.streamId
      · simp only [h, if_true]
        cases ScenarioLogWidget.findStream w.streams x.streamId <;> rfl
      · simp only [h, if_false]
    rw [hkeys]
    cases hf : ScenarioLogWidget.findStream w.streams e.streamId with
    | none =>
      have hw : ScenarioLogWidget.handleEvent e w = w := by
        simp only [ScenarioLogWidget.handleEvent, hf]
      rw [hw, List.filter_cons, hf]
      rfl
    | some pair =>
      rw [List.filter_cons, hf]
      rfl

/-- C30: for every queue of log events and every time t, `ScenarioLogWidget::timeAdvanced(t)`
removes exactly the longest front part of the queue whose events have time <= t; every
registered stream gets the values of the removed events that name it printed to it, in
order (printing puts the value at the end of the stream document), and no stream is added
or removed. An event whose `streamId` is not a
registered stream is popped like any other but the handler changes nothing for it: the
result is the handler run on the removed events that name a registered stream, so such an
event changes no stream document and not the unified log. -/
theorem log_timeAdvanced_drains_due (t : ℚ) (w : ScenarioLogWidget) :
    (ScenarioLogWidget.timeAdvanced t w).events =
      w.events.dropWhile (fun e => decide (e.time ≤ t)) ∧
    (∀ id, ScenarioLogWidget.findStream (ScenarioLogWidget.timeAdvanced t w).streams id =
      (ScenarioLogWidget.findStream w.streams id).map fun pair =>
        (((w.events.takeWhile fun e => decide (e.time ≤ t)).filter
          fun e => e.streamId = id).map fun e => e.value).foldl
          (fun acc v => acc.print v) pair) ∧
    (∀ (values : List String) (pair : LogStreamPair),
      (values.foldl (fun acc v => acc.print v) pair).data =
        values.foldl (fun acc v => acc ++ v) pair.data) ∧
    (∀ (e : StreamAppendEvent) (w0 : ScenarioLogWidget),
      ScenarioLogWidget.findStream w0.streams e.streamId = none → e.time ≤ t →
        ScenarioLogWidget.handleEvent e w0 = w0 ∧
        ScenarioLogWidget.handle t e w0 = (true, { w0 with events := w0.events.tail })) ∧
    ScenarioLogWidget.timeAdvanced t w =
      { ((w.events.takeWhile fun e => decide (e.time ≤ t)).filter fun e =>
            (ScenarioLogWidget.findStream w.streams e.streamId).isSome).foldl
          (fun acc e => ScenarioLogWidget.handleEvent e acc) w with
        events := w.events.dropWhile fun e => decide (e.time ≤ t) } := by
  have hspec := log_drain_spec t w.events.length w (le_refl _)
  refine ⟨?_, ?_, fun values pair => (foldl_print_data values pair).1, ?_, ?_⟩
  · unfold ScenarioLogWidget.timeAdvanced
    rw [hspec]
  · intro id
    unfold ScenarioLogWidget.timeAdvanced
    rw [hspec]
    exact log_foldl_streams _ w id
  · intro e w0 hf hdue
    have hw : ScenarioLogWidget.handleEvent e w0 = w0 := by
      simp only [ScenarioLogWidget.handleEvent, hf]
    refine ⟨hw, ?_⟩
    simp only [ScenarioLogWidget.handle, not_lt.mpr hdue, if_false, hw]
  · unfold ScenarioLogWidget.timeAdvanced
    rw [hspec, log_foldl_registered]

/-- Witness of C30: streams 1 and 2 are registered; the queue holds an event for stream 1
at time 1, one for the unregistered stream 7 at time 2 and one for stream 2 at time 6. At
time 3 the first two are removed, stream 1 holds "up", stream 2 is empty and the unified
log holds the one line of stream 1. -/
theorem log_timeAdvanced_drains_due_witness :
    (ScenarioLogWidget.timeAdvanced 3 Scenario.logWidget).events =
      [{ time := 6, streamId := 2, value := "sent" }] ∧
    ((ScenarioLogWidget.timeAdvanced 3 Scenario.logWidget).streams.map
      fun entry => (entry.1, entry.2.data)) = [(1, "up"), (2, "")] ∧
    (ScenarioLogWidget.timeAdvanced 3 Scenario.logWidget).unifiedStreamDocument =
      "[node]: up" ∧
    ScenarioLogWidget.handleEvent { time := 2, streamId := 7, value := "lost" }
      Scenario.logWidget = Scenario.logWidget := by
  refine ⟨?_, ?_, ?_, ?_⟩
  · rw [(log_timeAdvanced_drains_due 3 Scenario.logWidget).1]
    with_unfolding_all decide
  · with_unfolding_all decide
  · with_unfolding_all decide
  · exact ((log_timeAdvanced_drains_due 3 Scenario.logWidget).2.2.2.1
      { time := 2, streamId := 7, value := "lost" } Scenario.logWidget (by decide)
      (by with_unfolding_all decide)).1

/-- Witness of C24: the plain trace holds four events; `timeAdvanced(5)` pops the two that
are due, and ten iterations allowed give the same result as four. -/
theorem drains_terminate_witness :
    Scenario.plainTrace.events.length = 4 ∧
    drainEvents 5 10 Scenario.plainTrace = drainEvents 5 4 Scenario.plainTrace ∧
    timeAdvanced 5 Scenario.plainTrace = some Scenario.plainAt5 ∧
    Scenario.plainAt5.events.length = 2 ∧
    ∃ popped, Scenario.plainTrace.events = popped ++ Scenario.plainAt5.events ∧
      popped.length ≤ Scenario.plainTrace.events.length := by
  have h : timeAdvanced 5 Scenario.plainTrace = some Scenario.plainAt5 := by
    with_unfolding_all decide
  exact ⟨by decide, (drains_terminate 5 Scenario.plainTrace).2.1 10 (by decide), h,
    by with_unfolding_all decide, (drains_terminate 5 Scenario.plainTrace).2.2.2.1 _ h⟩

/-! ## Selection bookkeeping -/

theorem clearSelected_idem (p : Nat) (w : ChartWidget) :
    (w.clearSelected p).clearSelected p = w.clearSelected p := rfl

/-- Repeated `clearSeries` on one widget. -/
theorem foldl_clear_widget (p except : Nat) (ids : List Nat) :
    ∀ w : ChartWidget,
      ids.foldl
        (fun acc id =>
          if acc.handle = except then acc
          else if acc.currentSeries = id then acc.clearSelected p else acc) w =
      if w.handle ≠ except ∧ w.currentSeries ∈ ids then w.clearSelected p else w := by
  induction ids with
  | nil => intro w; simp
  | cons id ids ih =>
    intro w
    rw [List.foldl_cons, ih]
    by_cases he : w.handle = except
    · simp [he]
    · by_cases hs : w.currentSeries = id
      · have h1 : (w.clearSelected p).handle = w.handle := rfl
        simp only [he, if_false, hs, if_true, h1, ne_eq, not_false_eq_true, true_and,
          List.mem_cons, true_or, clearSelected_idem]
        split <;> rfl
      · simp only [he, if_false, hs, ne_eq, not_false_eq_true, true_and, List.mem_cons,
          false_or]

theorem foldl_clearSeries (p except : Nat) (ids : List Nat) :
    ∀ ws : List ChartWidget,
      ids.foldl (fun acc id => clearSeries p acc except id) ws =
        ws.map fun w =>
          if w.handle ≠ except ∧ w.currentSeries ∈ ids then w.clearSelected p else w := by
  induction ids with
  | nil => intro ws; simp
  | cons id ids ih =>
    intro ws
    rw [List.foldl_cons, ih]
    simp only [clearSeries, List.map_map]
    apply List.map_congr_left
    intro w _
    have := foldl_clear_widget p except (id :: ids) w
    rw [List.foldl_cons, foldl_clear_widget] at this
    simpa using this

theorem seriesSelectedWidgets_spec (p : Nat) (dflt : TieVariant) (widget selected : Nat)
    (st : ChartManager) (ws : List ChartWidget) (tie : TieVariant) (hp : selected ≠ p)
    (hf : findSeries st.series selected = some tie) :
    seriesSelectedWidgets p dflt widget selected st ws =
      ws.map fun w =>
        if w.handle ≠ widget ∧ w.currentSeries ∈ relatedSeries st.series selected tie then
          w.clearSelected p
        else w := by
  have hcons : ∀ ids : List Nat,
      ids.foldl (fun acc id => clearSeries p acc widget id) (clearSeries p ws widget selected) =
        (selected :: ids).foldl (fun acc id => clearSeries p acc widget id) ws := fun _ => rfl
  unfold seriesSelectedWidgets
  rw [if_neg hp, hf]
  cases tie with
  | xy s =>
    simp only [Option.getD_some, relatedSeries]
    rw [hcons, foldl_clearSeries]
  | collection c =>
    simp only [Option.getD_some, relatedSeries]
    rw [hcons, foldl_clearSeries]
  | category s =>
    simp only [Option.getD_some, relatedSeries]
    rw [← foldl_clearSeries p widget [selected] ws]
    rfl

/-- C22: `seriesSelected(widget, id)` with `id = PlaceholderId` changes no widget. For any
other registered id, a chart widget has its selection cleared exactly when it is not the
selecting widget and it currently shows `id`, or a member series of `id` when `id` is a
collection, or a collection that contains the series when `id` is an XY series (looked up
under the id of its model, which is `id` when the series is stored under its own id); the
selecting widget and the widgets showing any other series are left as they are. -/
theorem seriesSelected_clears_related (p : Nat) (dflt : TieVariant) (widget selected : Nat)
    (st : ChartManager) (ws : List ChartWidget) :
    seriesSelectedWidgets p dflt widget p st ws = ws ∧
    (selected ≠ p →
      (∀ c : SeriesCollectionTie, findSeries st.series selected = some (.collection c) →
        seriesSelectedWidgets p dflt widget selected st ws =
          ws.map fun w =>
            if w.handle ≠ widget ∧ w.currentSeries ∈ selected :: c.model.series then
              w.clearSelected p
            else w) ∧
      (∀ s : XYSeriesTie, findSeries st.series selected = some (.xy s) →
        s.model.id = selected →
        seriesSelectedWidgets p dflt widget selected st ws =
          ws.map fun w =>
            if w.handle ≠ widget ∧
                w.currentSeries ∈ selected :: inCollections st.series selected then
              w.clearSelected p
            else w) ∧
      (∀ s : CategoryValueTie, findSeries st.series selected = some (.category s) →
        seriesSelectedWidgets p dflt widget selected st ws =
          ws.map fun w =>
            if w.handle ≠ widget ∧ w.currentSeries ∈ [selected] then w.clearSelected p
            else w)) := by
  refine ⟨by simp [seriesSelectedWidgets], ?_⟩
  intro hp
  refine ⟨?_, ?_, ?_⟩
  · intro c hf
    exact seriesSelectedWidgets_spec p dflt widget selected st ws _ hp hf
  · intro s hf hid
    rw [seriesSelectedWidgets_spec p dflt widget selected st ws _ hp hf]
    simp only [relatedSeries, hid]
  · intro s hf
    exact seriesSelectedWidgets_spec p dflt widget selected st ws _ hp hf

/-- Witness of C22, scenario C: the widget 14 selects the collection 5 (members 1 and 4):
the widgets 10, 11 and 12, which show 5, 1 and 4, are cleared; the widget 13, which shows
the collection 6, and the selecting widget are not. The widget 12 selects the series 4:
the widgets showing the collections 5 and 6 are cleared, the widget showing series 1 is
not. -/
theorem seriesSelected_clears_related_witness :
    seriesSelectedWidgets 0 (.xy (makeTieXY Scenario.fixedSeries)) 14 5 Scenario.collectionTrace
        Scenario.chartWidgets =
      [{ handle := 10, currentSeries := 0 }, { handle := 11, currentSeries := 0 },
       { handle := 12, currentSeries := 0 }, { handle := 13, currentSeries := 6 },
       { handle := 14, currentSeries := 5 }] ∧
    seriesSelectedWidgets 0 (.xy (makeTieXY Scenario.fixedSeries)) 12 4 Scenario.collectionTrace
        Scenario.chartWidgets =
      [{ handle := 10, currentSeries := 0 }, { handle := 11, currentSeries := 1 },
       { handle := 12, currentSeries := 4 }, { handle := 13, currentSeries := 0 },
       { handle := 14, currentSeries := 0 }] ∧
    seriesSelectedWidgets 0 (.xy (makeTieXY Scenario.fixedSeries)) 14 0 Scenario.collectionTrace
        Scenario.chartWidgets = Scenario.chartWidgets := by
  refine ⟨?_, ?_, ?_⟩
  · rw [((seriesSelected_clears_related 0 (.xy (makeTieXY Scenario.fixedSeries)) 14 5
      Scenario.collectionTrace Scenario.chartWidgets).2 (by decide)).1
      (makeTieCollection Scenario.bothCollection) (by with_unfolding_all decide)]
    decide
  · with_unfolding_all decide
  · with_unfolding_all decide

/-! ## Stable views -/

theorem map_updateCollectionRanges_of_stable {β : Type} (f : TieVariant → β) (hf : Stable f)
    (series : List (Nat × TieVariant)) (seriesId : Nat) (x y : ℚ) :
    (updateCollectionRanges series seriesId x y).map (fun entry => (entry.1, f entry.2)) =
      series.map fun entry => (entry.1, f entry.2) := by
  simp only [updateCollectionRanges, List.map_map]
  apply List.map_congr_left
  intro entry _
  simp only [Function.comp, updateCollectionEntry_fst, hf.collection]

theorem map_set_of_eq {β : Type} (f : TieVariant → β) (series : List (Nat × TieVariant))
    (i key : Nat) (tie tie1 : TieVariant) (h : series.get? i = some (key, tie))
    (hm : f tie1 = f tie) :
    (series.set i (key, tie1)).map (fun entry => (entry.1, f entry.2)) =
      series.map fun entry => (entry.1, f entry.2) := by
  induction series generalizing i with
  | nil => rfl
  | cons hd tl ih =>
    cases i with
    | zero =>
      simp only [List.get?_cons_zero, Option.some.injEq] at h
      subst h
      simp [hm]
    | succ i =>
      simp only [List.get?_cons_succ] at h
      simp [ih i h]

theorem foldl_appendPoint_stable {β : Type} (f : TieVariant → β) (hf : Stable f)
    (seriesId : Nat) (points : List XYPoint) :
    ∀ acc : XYSeriesTie × List (Nat × TieVariant),
      (points.foldl (appendPoint seriesId) acc).2.map (fun entry => (entry.1, f entry.2)) =
        acc.2.map (fun entry => (entry.1, f entry.2)) ∧
      f (.xy (points.foldl (appendPoint seriesId) acc).1) = f (.xy acc.1) := by
  induction points with
  | nil => intro acc; exact ⟨rfl, rfl⟩
  | cons p ps ih =>
    intro acc
    rw [List.foldl_cons]
    obtain ⟨h1, h2⟩ := ih (appendPoint seriesId acc p)
    refine ⟨h1.trans ?_, h2.trans ?_⟩
    · exact map_updateCollectionRanges_of_stable f hf _ _ _ _
    · exact hf.xyPoint acc.1 p.x p.y _

theorem setSeries_stable {β : Type} (f : TieVariant → β)
    (series0 series : List (Nat × TieVariant)) (id : Nat) (old tie : TieVariant)
    (hmap : series.map (fun entry => (entry.1, f entry.2)) =
      series0.map fun entry => (entry.1, f entry.2))
    (hold : findSeries series0 id = some old) (hft : f tie = f old) :
    (setSeries series id tie).map (fun entry => (entry.1, f entry.2)) =
      series0.map fun entry => (entry.1, f entry.2) := by
  have h := findSeries_of_map_eq f hmap id
  rw [hold] at h
  cases h2 : findSeries series id with
  | none => rw [h2] at h; simp at h
  | some old2 =>
    rw [h2] at h
    simp only [Option.map_some', Option.some.injEq] at h
    rw [map_setSeries_of_eq f series id tie old2 h2 (hft.trans h.symm), hmap]

/-- The forward handler leaves every stable view of the registry alone. -/
theorem handleEvent_stable {β : Type} (f : TieVariant → β) (hf : Stable f)
    (t : nanoseconds) (e : ChartEvent) (st st1 : ChartManager) (b : Bool)
    (h : handleEvent t e st = some (b, st1)) :
    st1.series.map (fun entry => (entry.1, f entry.2)) =
      st.series.map fun entry => (entry.1, f entry.2) := by
  unfold handleEvent at h
  split at h
  · simp only [Option.some.injEq, Prod.mk.injEq] at h
    rw [← h.2]
  · cases e with
    | addValue e =>
      simp only at h
      split at h
      · rename_i s hs
        simp only [Option.some.injEq, Prod.mk.injEq] at h
        rw [← h.2]
        obtain ⟨g1, g2⟩ := foldl_appendPoint_stable f hf e.seriesId [e.point] (s, st.series)
        simp only [List.foldl_cons, List.foldl_nil] at g1 g2
        exact setSeries_stable f st.series _ e.seriesId (.xy s) _ g1 hs g2
      · simp at h
    | addValues e =>
      simp only at h
      split at h
      · rename_i s hs
        simp only [Option.some.injEq, Prod.mk.injEq] at h
        rw [← h.2]
        obtain ⟨g1, g2⟩ := foldl_appendPoint_stable f hf e.seriesId e.points (s, st.series)
        exact setSeries_stable f st.series _ e.seriesId (.xy s) _ g1 hs g2
      · simp at h
    | clear e =>
      simp only at h
      split at h
      · rename_i s hs
        simp only [Option.some.injEq, Prod.mk.injEq] at h
        rw [← h.2]
        exact setSeries_stable f st.series _ e.seriesId (.xy s) _ rfl hs (hf.xyPoints s [])
      · simp at h
    | categoryAddValue e =>
      simp only at h
      split at h
      · rename_i s hs
        simp only [Option.some.injEq, Prod.mk.injEq] at h
        rw [← h.2]
        show (updateCollectionRanges _ _ _ _).map _ = _
        rw [map_updateCollectionRanges_of_stable f hf]
        exact setSeries_stable f st.series _ e.seriesId (.category s) _ rfl hs
          (hf.categoryPoint s e.value t _)
      · simp at h

theorem drainEvents_stable {β : Type} (f : TieVariant → β) (hf : Stable f)
    (t : nanoseconds) (fuel : Nat) :
    ∀ st st1 : ChartManager, drainEvents t fuel st = some st1 →
      st1.series.map (fun entry => (entry.1, f entry.2)) =
        st.series.map fun entry => (entry.1, f entry.2) := by
  induction fuel with
  | zero =>
    intro st st1 h
    simp only [drainEvents, Option.some.injEq] at h
    rw [← h]
  | succ fuel ih =>
    intro st st1 h
    simp only [drainEvents] at h
    split at h
    · simp only [Option.some.injEq] at h; rw [← h]
    · rename_i front rest hev
      split at h
      · simp at h
      · rename_i st2 hh
        simp only [Option.some.injEq] at h
        rw [← h]; exact handleEvent_stable f hf t front st st2 false hh
      · rename_i st2 hh
        rw [ih st2 st1 h]; exact handleEvent_stable f hf t front st st2 true hh

theorem fakeEvent_stable {β : Type} (f : TieVariant → β) (hf : Stable f)
    (t : nanoseconds) (st : ChartManager) (i : Nat) :
    (fakeEvent t st i).series.map (fun entry => (entry.1, f entry.2)) =
      st.series.map fun entry => (entry.1, f entry.2) := by
  unfold fakeEvent
  split
  · rename_i key value hget
    split
    · rfl
    · split
      · rfl
      · split
        · rfl
        · show (updateCollectionRanges _ _ _ _).map _ = _
          rw [map_updateCollectionRanges_of_stable f hf]
          exact map_set_of_eq f _ _ _ _ _ hget (hf.categoryPoint value _ t _)
  · rfl

theorem fakeEvents_stable {β : Type} (f : TieVariant → β) (hf : Stable f)
    (t : nanoseconds) (st : ChartManager) :
    (fakeEvents t st).series.map (fun entry => (entry.1, f entry.2)) =
      st.series.map fun entry => (entry.1, f entry.2) := by
  unfold fakeEvents
  generalize List.range st.series.length = l
  induction l generalizing st with
  | nil => rfl
  | cons i l ih => rw [List.foldl_cons, ih, fakeEvent_stable f hf]

theorem timeChanged_stable {β : Type} (f : TieVariant → β) (hf : Stable f)
    (t inc : nanoseconds) (st st1 : ChartManager) (h : timeChanged t inc st = some st1) :
    st1.series.map (fun entry => (entry.1, f entry.2)) =
      st.series.map fun entry => (entry.1, f entry.2) := by
  unfold timeChanged at h
  split at h
  · unfold timeAdvanced at h
    cases hd : drainEvents t st.events.length st with
    | none => rw [hd] at h; simp at h
    | some st2 =>
      rw [hd] at h
      simp only [Option.map_some', Option.some.injEq] at h
      rw [← h, fakeEvents_stable f hf, drainEvents_stable f hf t _ st st2 hd]
  · exact drainUndoEvents_keeps f hf.xyPoints hf.categoryPoints t _ st st1 h

theorem runCalls_stable {β : Type} (f : TieVariant → β) (hf : Stable f)
    (calls : List (nanoseconds × nanoseconds)) :
    ∀ st st1 : ChartManager, runCalls calls st = some st1 →
      st1.series.map (fun entry => (entry.1, f entry.2)) =
        st.series.map fun entry => (entry.1, f entry.2) := by
  induction calls with
  | nil =>
    intro st st1 h
    simp only [runCalls, Option.some.injEq] at h
    rw [← h]
  | cons call calls ih =>
    intro st st1 h
    simp only [runCalls] at h
    cases hc : timeChanged call.1 call.2 st with
    | none => rw [hc] at h; simp at h
    | some st2 =>
      rw [hc] at h
      simp only [Option.some_bind] at h
      rw [ih st2 st1 h, timeChanged_stable f hf call.1 call.2 st st2 hc]

theorem fixedAxes_stable : Stable fixedAxes := by
  constructor
  · intro seriesId x y entry
    unfold updateCollectionEntry
    split
    · rename_i c hc
      split
      · simp only [hc, fixedAxes]
        cases c.model.xAxis.boundMode <;> cases c.model.yAxis.boundMode <;>
          simp [whenFixed, updateTracked]
      · rfl
    · rfl
  · intro s x y p
    simp only [fixedAxes]
    cases s.model.xAxis.boundMode <;> cases s.model.yAxis.boundMode <;>
      simp [whenFixed, updateTracked]
  · intro s p; rfl
  · intro s x t p
    simp only [fixedAxes]
    cases s.model.xAxis.boundMode <;> simp [whenFixed, updateTracked]
  · intro s p; rfl

theorem emplaceSeries_forall (P : TieVariant → Prop) (series : List (Nat × TieVariant))
    (id : Nat) (tie : TieVariant) (h : ∀ entry ∈ series, P entry.2) (ht : P tie) :
    ∀ entry ∈ emplaceSeries series id tie, P entry.2 := by
  unfold emplaceSeries
  split
  · exact h
  · intro entry he
    rcases List.mem_append.mp he with he | he
    · exact h entry he
    · rw [List.mem_singleton.mp he]; exact ht

theorem addSeries_forall (P : TieVariant → Prop)
    (hxy : ∀ m : XYSeries, P (.xy (makeTieXY m)))
    (hcoll : ∀ m : SeriesCollection, P (.collection (makeTieCollection m)))
    (hcat : ∀ m : CategoryValueSeries, P (.category (makeTieCategory m)))
    (xySeries : List XYSeries) (collections : List SeriesCollection)
    (categoryValueSeries : List CategoryValueSeries) (st : ChartManager)
    (h : ∀ entry ∈ st.series, P entry.2) :
    ∀ entry ∈ (addSeries xySeries collections categoryValueSeries st).series, P entry.2 := by
  have h1 : ∀ (l : List SeriesCollection) (acc : ChartManager),
      (∀ entry ∈ acc.series, P entry.2) →
      ∀ entry ∈ (l.foldl addCollection acc).series, P entry.2 := by
    intro l
    induction l with
    | nil => intro acc h; exact h
    | cons c l ih =>
      intro acc h
      rw [List.foldl_cons]
      exact ih _ (emplaceSeries_forall P _ _ _ h (hcoll c))
  have h2 : ∀ (l : List XYSeries) (acc : ChartManager),
      (∀ entry ∈ acc.series, P entry.2) →
      ∀ entry ∈ (l.foldl addXYSeries acc).series, P entry.2 := by
    intro l
    induction l with
    | nil => intro acc h; exact h
    | cons c l ih =>
      intro acc h
      rw [List.foldl_cons]
      exact ih _ (emplaceSeries_forall P _ _ _ h (hxy c))
  have h3 : ∀ (l : List CategoryValueSeries) (acc : ChartManager),
      (∀ entry ∈ acc.series, P entry.2) →
      ∀ entry ∈ (l.foldl addCategorySeries acc).series, P entry.2 := by
    intro l
    induction l with
    | nil => intro acc h; exact h
    | cons c l ih =>
      intro acc h
      rw [List.foldl_cons]
      exact ih _ (emplaceSeries_forall P _ _ _ h (hcat c))
  exact h3 _ _ (h2 _ _ (h1 _ _ h))

theorem makeAxis_range (model : ValueAxis) : hasDeclaredRange model (makeAxis model) := by
  unfold makeAxis hasDeclaredRange
  cases model.scale <;> exact ⟨rfl, rfl⟩

theorem addSeries_atDeclaredRange (xySeries : List XYSeries)
    (collections : List SeriesCollection) (categoryValueSeries : List CategoryValueSeries)
    (s : ChartManager) :
    ∀ entry ∈ (addSeries xySeries collections categoryValueSeries (reset s)).series,
      atDeclaredRange entry.2 :=
  addSeries_forall atDeclaredRange
    (fun m => ⟨makeAxis_range m.xAxis, rfl, rfl⟩)
    (fun m => ⟨makeAxis_range m.xAxis, rfl, rfl⟩)
    (fun m => makeAxis_range m.xAxis)
    xySeries collections categoryValueSeries (reset s)
    (by intro entry he; simp [reset] at he)

/-- A tie found after a run has the fixed axes and the model of the tie found before. -/
theorem fixedAxes_of_run (calls : List (nanoseconds × nanoseconds)) (st0 st : ChartManager)
    (hrun : runCalls calls st0 = some st) (id : Nat) (tie : TieVariant)
    (hf : findSeries st.series id = some tie) :
    ∃ tie0, findSeries st0.series id = some tie0 ∧ fixedAxes tie0 = fixedAxes tie := by
  have h := findSeries_of_map_eq fixedAxes (runCalls_stable fixedAxes fixedAxes_stable calls
    st0 st hrun) id
  rw [hf] at h
  cases h0 : findSeries st0.series id with
  | none => rw [h0] at h; simp at h
  | some tie0 =>
    rw [h0] at h
    simp only [Option.map_some', Option.some.injEq] at h
    exact ⟨tie0, rfl, h.symm⟩

theorem declaredRange_of_fixedAxes (tie0 tie : TieVariant) (h : fixedAxes tie0 = fixedAxes tie)
    (h0 : atDeclaredRange tie0) :
    (∀ s : XYSeriesTie, tie = .xy s →
      (s.model.xAxis.boundMode = .Fixed → hasDeclaredRange s.model.xAxis s.xAxis) ∧
      (s.model.yAxis.boundMode = .Fixed → hasDeclaredRange s.model.yAxis s.yAxis)) ∧
    (∀ s : SeriesCollectionTie, tie = .collection s →
      (s.model.xAxis.boundMode = .Fixed → hasDeclaredRange s.model.xAxis s.xAxis) ∧
      (s.model.yAxis.boundMode = .Fixed → hasDeclaredRange s.model.yAxis s.yAxis)) ∧
    (∀ s : CategoryValueTie, tie = .category s →
      (s.model.xAxis.boundMode = .Fixed → hasDeclaredRange s.model.xAxis s.xAxis)) := by
  refine ⟨?_, ?_, ?_⟩
  · intro s hs
    subst hs
    cases tie0 with
    | xy s0 =>
      simp only [fixedAxes, Prod.mk.injEq, SeriesModel.xy.injEq] at h
      obtain ⟨hm, hx, hy⟩ := h
      obtain ⟨a1, a2⟩ := h0
      rw [hm] at hx hy a1 a2
      constructor
      · intro hfix
        simp only [hfix, whenFixed, Option.some.injEq] at hx
        rw [← hx]; exact a1
      · intro hfix
        simp only [hfix, whenFixed, Option.some.injEq] at hy
        rw [← hy]; exact a2
    | collection s0 => simp [fixedAxes] at h
    | category s0 => simp [fixedAxes] at h
  · intro s hs
    subst hs
    cases tie0 with
    | collection s0 =>
      simp only [fixedAxes, Prod.mk.injEq, SeriesModel.collection.injEq] at h
      obtain ⟨hm, hx, hy⟩ := h
      obtain ⟨a1, a2⟩ := h0
      rw [hm] at hx hy a1 a2
      constructor
      · intro hfix
        simp only [hfix, whenFixed, Option.some.injEq] at hx
        rw [← hx]; exact a1
      · intro hfix
        simp only [hfix, whenFixed, Option.some.injEq] at hy
        rw [← hy]; exact a2
    | xy s0 => simp [fixedAxes] at h
    | category s0 => simp [fixedAxes] at h
  · intro s hs
    subst hs
    cases tie0 with
    | category s0 =>
      simp only [fixedAxes, Prod.mk.injEq, SeriesModel.category.injEq, and_true] at h
      obtain ⟨hm, hx⟩ := h
      have a1 : hasDeclaredRange s0.model.xAxis s0.xAxis := h0
      rw [hm] at hx a1
      intro hfix
      simp only [hfix, whenFixed, Option.some.injEq] at hx
      rw [← hx]; exact a1
    | xy s0 => simp [fixedAxes] at h
    | collection s0 => simp [fixedAxes] at h

/-- C25: no run of `timeChanged` calls (forward drains with their fabricated events,
backward drains) changes the model of a registry entry or any of its value axes whose
declared bound mode is `Fixed`: the registry keeps its keys and the fixed axes of every
entry. Started from `reset`, `addSeries` and `enqueueEvents`, every axis of a series or
collection found after the run whose bound mode is `Fixed` still has the declared range
[min, max]. -/
theorem fixed_axes_keep_declared_range (calls : List (nanoseconds × nanoseconds))
    (st0 st : ChartManager) (hrun : runCalls calls st0 = some st) :
    st.series.map (fun entry => (entry.1, fixedAxes entry.2)) =
      st0.series.map (fun entry => (entry.1, fixedAxes entry.2)) ∧
    ∀ (s0 : ChartManager) (xySeries : List XYSeries) (collections : List SeriesCollection)
      (categoryValueSeries : List CategoryValueSeries) (evs : List ChartEvent),
      st0 = enqueueEvents evs (addSeries xySeries collections categoryValueSeries (reset s0)) →
      ∀ id,
        (∀ s : XYSeriesTie, findSeries st.series id = some (.xy s) →
          (s.model.xAxis.boundMode = .Fixed → hasDeclaredRange s.model.xAxis s.xAxis) ∧
          (s.model.yAxis.boundMode = .Fixed → hasDeclaredRange s.model.yAxis s.yAxis)) ∧
        (∀ s : SeriesCollectionTie, findSeries st.series id = some (.collection s) →
          (s.model.xAxis.boundMode = .Fixed → hasDeclaredRange s.model.xAxis s.xAxis) ∧
          (s.model.yAxis.boundMode = .Fixed → hasDeclaredRange s.model.yAxis s.yAxis)) ∧
        (∀ s : CategoryValueTie, findSeries st.series id = some (.category s) →
          (s.model.xAxis.boundMode = .Fixed → hasDeclaredRange s.model.xAxis s.xAxis)) := by
  refine ⟨runCalls_stable fixedAxes fixedAxes_stable calls st0 st hrun, ?_⟩
  intro s0 xySeries collections categoryValueSeries evs hst0 id
  have hinit : ∀ entry ∈ st0.series, atDeclaredRange entry.2 := by
    rw [hst0]
    exact addSeries_atDeclaredRange xySeries collections categoryValueSeries s0
  have key : ∀ tie, findSeries st.series id = some tie →
      ∃ tie0, fixedAxes tie0 = fixedAxes tie ∧ atDeclaredRange tie0 := by
    intro tie hf
    obtain ⟨tie0, h0, h1⟩ := fixedAxes_of_run calls st0 st hrun id tie hf
    exact ⟨tie0, h1, hinit (id, tie0) (findSeries_mem _ _ _ h0)⟩
  refine ⟨?_, ?_, ?_⟩
  · intro s hf
    obtain ⟨tie0, h1, h2⟩ := key _ hf
    exact (declaredRange_of_fixedAxes tie0 _ h1 h2).1 s rfl
  · intro s hf
    obtain ⟨tie0, h1, h2⟩ := key _ hf
    exact (declaredRange_of_fixedAxes tie0 _ h1 h2).2.1 s rfl
  · intro s hf
    obtain ⟨tie0, h1, h2⟩ := key _ hf
    exact (declaredRange_of_fixedAxes tie0 _ h1 h2).2.2 s rfl

/-- Witness of C25, scenario C: series A has two fixed axes declared [0, 10]; after the
call (5, 5), which appends the point (1, 20) to A, the ranges of A are still [0, 10],
while the tracking y axis of the collection has grown. -/
theorem fixed_axes_keep_declared_range_witness :
    runCalls [(5, 5)] Scenario.collectionTrace = some Scenario.collectionAt5 ∧
    samplesOf Scenario.collectionAt5 1 = some [{ x := 1, y := 20 }] ∧
    axisRangesOf Scenario.collectionAt5 1 = some [(0, 10), (0, 10)] ∧
    axisRangesOf Scenario.collectionAt5 5 = some [(0, 10), (0, 21)] ∧
    Scenario.collectionAt5.series.map (fun entry => (entry.1, fixedAxes entry.2)) =
      Scenario.collectionTrace.series.map (fun entry => (entry.1, fixedAxes entry.2)) := by
  have h : runCalls [(5, 5)] Scenario.collectionTrace = some Scenario.collectionAt5 := by
    with_unfolding_all decide
  exact ⟨h, by with_unfolding_all decide, by with_unfolding_all decide,
    by with_unfolding_all decide,
    (fixed_axes_keep_declared_range [(5, 5)] Scenario.collectionTrace Scenario.collectionAt5
      h).1⟩

/-! ## `lastUpdatedTime` -/

theorem findSeries_updateCollectionRanges (series : List (Nat × TieVariant))
    (seriesId : Nat) (x y : ℚ) (id : Nat) :
    findSeries (updateCollectionRanges series seriesId x y) id =
      (findSeries series id).map fun tie => (updateCollectionEntry seriesId x y (id, tie)).2 := by
  induction series with
  | nil => rfl
  | cons hd tl ih =>
    obtain ⟨k, v⟩ := hd
    have h1 := updateCollectionEntry_fst seriesId x y (k, v)
    simp only at h1
    simp only [updateCollectionRanges, List.map_cons] at ih ⊢
    generalize hu : updateCollectionEntry seriesId x y (k, v) = u at h1 ⊢
    obtain ⟨k2, v2⟩ := u
    simp only at h1
    subst h1
    simp only [findSeries]
    by_cases hk : k2 = id
    · subst hk
      simp only [if_true, Option.map_some', hu]
    · simp only [hk, if_false]
      exact ih

theorem findSeries_updateCollectionRanges_category (series : List (Nat × TieVariant))
    (seriesId : Nat) (x y : ℚ) (id : Nat) (s : CategoryValueTie)
    (h : findSeries series id = some (.category s)) :
    findSeries (updateCollectionRanges series seriesId x y) id = some (.category s) := by
  rw [findSeries_updateCollectionRanges, h]; rfl

theorem foldl_appendPoint_category (seriesId : Nat) (points : List XYPoint) (id : Nat)
    (s : CategoryValueTie) :
    ∀ acc : XYSeriesTie × List (Nat × TieVariant),
      findSeries acc.2 id = some (.category s) →
      findSeries (points.foldl (appendPoint seriesId) acc).2 id = some (.category s) := by
  induction points with
  | nil => intro acc h; exact h
  | cons p ps ih =>
    intro acc h
    rw [List.foldl_cons]
    exact ih _ (findSeries_updateCollectionRanges_category _ _ _ _ _ _ h)

/-- A real category event stamps its series with the cursor time. -/
theorem handleEvent_category_stamp (t : nanoseconds) (e : CategorySeriesAddValue)
    (st st1 : ChartManager) (h : handleEvent t (.categoryAddValue e) st = some (true, st1)) :
    ∃ s1 : CategoryValueTie,
      findSeries st1.series e.seriesId = some (.category s1) ∧ s1.lastUpdatedTime = t := by
  unfold handleEvent at h
  split at h
  · simp at h
  · simp only at h
    split at h
    · rename_i s hs
      simp only [Option.some.injEq, Prod.mk.injEq, true_and] at h
      subst h
      refine ⟨_, findSeries_updateCollectionRanges_category _ _ _ _ _ _
        (findSeries_setSeries_self _ _ _ _ hs), rfl⟩
    · simp at h

/-- Another event applied at the same cursor time keeps the stamp. -/
theorem handleEvent_keeps_stamp (t : nanoseconds) (e : ChartEvent) (st st1 : ChartManager)
    (h : handleEvent t e st = some (true, st1)) (id : Nat) (s : CategoryValueTie)
    (hs : findSeries st.series id = some (.category s)) (hst : s.lastUpdatedTime = t) :
    ∃ s1 : CategoryValueTie,
      findSeries st1.series id = some (.category s1) ∧ s1.lastUpdatedTime = t := by
  by_cases hid : e.seriesId = id
  · cases e with
    | categoryAddValue c =>
      simp only [ChartEvent.seriesId] at hid
      rw [← hid]
      exact handleEvent_category_stamp t c st st1 h
    | addValue c =>
      simp only [ChartEvent.seriesId] at hid
      simp only [handleEvent, hid, hs] at h
      split at h <;> simp at h
    | addValues c =>
      simp only [ChartEvent.seriesId] at hid
      simp only [handleEvent, hid, hs] at h
      split at h <;> simp at h
    | clear c =>
      simp only [ChartEvent.seriesId] at hid
      simp only [handleEvent, hid, hs] at h
      split at h <;> simp at h
  · refine ⟨s, ?_, hst⟩
    have hne : id ≠ e.seriesId := fun h => hid h.symm
    unfold handleEvent at h
    split at h
    · simp at h
    · cases e with
      | addValue c =>
        simp only [ChartEvent.seriesId] at hne
        simp only at h
        split at h
        · simp only [Option.some.injEq, Prod.mk.injEq, true_and] at h
          subst h
          show findSeries (setSeries _ _ _) id = _
          rw [findSeries_setSeries_other _ _ _ _ hne]
          exact foldl_appendPoint_category c.seriesId [c.point] id s _ hs
        · simp at h
      | addValues c =>
        simp only [ChartEvent.seriesId] at hne
        simp only at h
        split at h
        · simp only [Option.some.injEq, Prod.mk.injEq, true_and] at h
          subst h
          show findSeries (setSeries _ _ _) id = _
          rw [findSeries_setSeries_other _ _ _ _ hne]
          exact foldl_appendPoint_category c.seriesId c.points id s _ hs
        · simp at h
      | clear c =>
        simp only [ChartEvent.seriesId] at hne
        simp only at h
        split at h
        · simp only [Option.some.injEq, Prod.mk.injEq, true_and] at h
          subst h
          show findSeries (setSeries _ _ _) id = _
          rw [findSeries_setSeries_other _ _ _ _ hne]
          exact hs
        · simp at h
      | categoryAddValue c =>
        simp only [ChartEvent.seriesId] at hne
        simp only at h
        split at h
        · simp only [Option.some.injEq, Prod.mk.injEq, true_and] at h
          subst h
          apply findSeries_updateCollectionRanges_category
          rw [findSeries_setSeries_other _ _ _ _ hne]
          exact hs
        · simp at h

theorem drainEvents_stamp (t : nanoseconds) (id : Nat) (fuel : Nat) :
    ∀ st st1 : ChartManager, st.events.length ≤ fuel → drainEvents t fuel st = some st1 →
      ((∃ s : CategoryValueTie,
          findSeries st.series id = some (.category s) ∧ s.lastUpdatedTime = t) ∨
        ∃ c : CategorySeriesAddValue,
          ChartEvent.categoryAddValue c ∈ st.events.takeWhile (fun e => decide (e.time ≤ t)) ∧
            c.seriesId = id) →
      ∃ s : CategoryValueTie,
        findSeries st1.series id = some (.category s) ∧ s.lastUpdatedTime = t := by
  induction fuel with
  | zero =>
    intro st st1 hlen h hq
    have hnil : st.events = [] := List.length_eq_zero.mp (Nat.le_zero.mp hlen)
    simp only [drainEvents, Option.some.injEq] at h
    subst h
    rcases hq with hq | ⟨c, hc, _⟩
    · exact hq
    · rw [hnil] at hc; simp at hc
  | succ fuel ih =>
    intro st st1 hlen h hq
    cases hev : st.events with
    | nil =>
      simp only [drainEvents, hev, Option.some.injEq] at h
      subst h
      rcases hq with hq | ⟨c, hc, _⟩
      · exact hq
      · rw [hev] at hc; simp at hc
    | cons front tl =>
      simp only [drainEvents, hev] at h
      cases hh : handleEvent t front st with
      | none => rw [hh] at h; simp at h
      | some r =>
        obtain ⟨b, st2⟩ := r
        rw [hh] at h
        cases b with
        | false =>
          simp only [Option.some.injEq] at h
          obtain ⟨g1, g2⟩ := handleEvent_false t front st st2 hh
          subst h
          rw [g1]
          rcases hq with hq | ⟨c, hc, _⟩
          · exact hq
          · have hnot : ¬ front.time ≤ t := not_le.mpr g2
            rw [hev] at hc
            simp [List.takeWhile, hnot] at hc
        | true =>
          simp only at h
          obtain ⟨g1, g2, _, _⟩ := handleEvent_true t front st st2 hh
          have htl : st2.events = tl := by rw [g2, hev]; rfl
          have hlen2 : st2.events.length ≤ fuel := by
            rw [htl]; rw [hev] at hlen; simpa using hlen
          apply ih st2 st1 hlen2 h
          rcases hq with ⟨s, hs, hst⟩ | ⟨c, hc, hcid⟩
          · exact Or.inl (handleEvent_keeps_stamp t front st st2 hh id s hs hst)
          · rw [hev] at hc
            simp only [List.takeWhile, g1, decide_True, List.mem_cons] at hc
            rcases hc with hc | hc
            · left
              rw [← hc] at hh
              rw [← hcid]
              exact handleEvent_category_stamp t c st st2 hh
            · right
              exact ⟨c, by rw [htl]; exact hc, hcid⟩

theorem findSeries_set_of_ne (series : List (Nat × TieVariant)) (id : Nat)
    (old : TieVariant) (hold : findSeries series id = some old) :
    ∀ (i key : Nat) (tie tie1 : TieVariant), series.get? i = some (key, tie) → old ≠ tie →
      findSeries (series.set i (key, tie1)) id = some old := by
  induction series with
  | nil => simp [findSeries] at hold
  | cons hd tl ih =>
    obtain ⟨k, v⟩ := hd
    intro i key tie tie1 hget hne
    cases i with
    | zero =>
      simp only [List.get?_cons_zero, Option.some.injEq, Prod.mk.injEq] at hget
      obtain ⟨hk, hv⟩ := hget
      subst hk; subst hv
      by_cases hkid : k = id
      · simp only [findSeries, hkid, if_true, Option.some.injEq] at hold
        exact absurd hold.symm hne
      · simp only [findSeries, hkid, if_false] at hold
        simp only [List.set_cons_zero, findSeries, hkid, if_false]
        exact hold
    | succ j =>
      simp only [List.get?_cons_succ] at hget
      simp only [List.set_cons_succ, findSeries]
      by_cases hkid : k = id
      · simp only [findSeries, hkid, if_true] at hold
        simp only [hkid, if_true]
        exact hold
      · simp only [findSeries, hkid, if_false] at hold
        simp only [hkid, if_false]
        exact ih hold j key tie tie1 hget hne

theorem isDue_key (t : nanoseconds) (k1 k2 : Nat) (tie : TieVariant) :
    isDue t (k1, tie) = isDue t (k2, tie) := rfl

/-- The fake-event loop leaves a category tie that is not due as it found it. -/
theorem fakeEvent_of_not_due (t : nanoseconds) (st : ChartManager) (i id : Nat)
    (s : CategoryValueTie) (hs : findSeries st.series id = some (.category s))
    (hdue : isDue t (id, .category s) = false) :
    findSeries (fakeEvent t st i).series id = some (.category s) := by
  unfold fakeEvent
  split
  · rename_i key value hget
    split
    · exact hs
    · rename_i hauto
      split
      · exact hs
      · rename_i lastValue hlast
        split
        · exact hs
        · rename_i hint
          apply findSeries_updateCollectionRanges_category
          apply findSeries_set_of_ne _ _ _ hs i key (.category value)
          · exact hget
          · intro heq
            simp only [TieVariant.category.injEq] at heq
            subst heq
            have hne : s.qtSeries ≠ [] := by
              intro h; rw [h] at hlast; simp at hlast
            have hemp : s.qtSeries.isEmpty = false := by
              cases hq : s.qtSeries with
              | nil => exact absurd hq hne
              | cons _ _ => rfl
            have hau : s.model.autoUpdate = true := by
              cases h : s.model.autoUpdate with
              | false => exact absurd h hauto
              | true => rfl
            simp [isDue, hau, hemp, hint] at hdue
  · exact hs

theorem fakeEvents_of_not_due (t : nanoseconds) (st : ChartManager) (id : Nat)
    (s : CategoryValueTie) (hs : findSeries st.series id = some (.category s))
    (hdue : isDue t (id, .category s) = false) :
    findSeries (fakeEvents t st).series id = some (.category s) := by
  unfold fakeEvents
  generalize List.range st.series.length = l
  induction l generalizing st with
  | nil => exact hs
  | cons i l ih =>
    rw [List.foldl_cons]
    exact ih _ (fakeEvent_of_not_due t st i id s hs hdue)

theorem isDue_of_stamp (t : nanoseconds) (id : Nat) (s : CategoryValueTie)
    (hst : s.lastUpdatedTime = t) (hint : 0 < s.model.autoUpdateInterval) :
    isDue t (id, .category s) = false := by
  have : t - s.lastUpdatedTime < s.model.autoUpdateInterval := by
    rw [hst, sub_self]; exact hint
  simp [isDue, this]

/-- C29: a real `CategorySeriesAddValue` event applied by `timeAdvanced(t)` sets the
`lastUpdatedTime` of its series to the cursor time t, whatever the time of the event. So
when the forward drain of a call has applied at least one such event to a series, the
series carries `lastUpdatedTime = t` when the fake-event loop starts; with
`autoUpdateInterval > 0` the loop fabricates no record for it and leaves its tie (samples
and `lastUpdatedTime`) as the drain left it. `timeRewound` changes no `lastUpdatedTime`. -/
theorem category_event_stamps_cursor_time (t : nanoseconds) (st : ChartManager) :
    (∀ (e : CategorySeriesAddValue) (st1 : ChartManager),
      handleEvent t (.categoryAddValue e) st = some (true, st1) →
        ∃ s1 : CategoryValueTie,
          findSeries st1.series e.seriesId = some (.category s1) ∧ s1.lastUpdatedTime = t) ∧
    (∀ (drained : ChartManager) (c : CategorySeriesAddValue),
      drainEvents t st.events.length st = some drained →
      ChartEvent.categoryAddValue c ∈ st.events.takeWhile (fun e => decide (e.time ≤ t)) →
        timeAdvanced t st = some (fakeEvents t drained) ∧
        ∃ s : CategoryValueTie,
          findSeries drained.series c.seriesId = some (.category s) ∧
          s.lastUpdatedTime = t ∧
          (0 < s.model.autoUpdateInterval →
            fabricatedRecord t (c.seriesId, .category s) = none ∧
            findSeries (fakeEvents t drained).series c.seriesId = some (.category s))) ∧
    (∀ st1, timeRewound t st = some st1 →
      st1.series.map (fun entry => (entry.1, lastUpdatedOf entry.2)) =
        st.series.map fun entry => (entry.1, lastUpdatedOf entry.2)) := by
  refine ⟨?_, ?_, ?_⟩
  · intro e st1 h
    exact handleEvent_category_stamp t e st st1 h
  · intro drained c hd hc
    refine ⟨by simp only [timeAdvanced, hd, Option.map_some'], ?_⟩
    obtain ⟨s, hs, hst⟩ :=
      drainEvents_stamp t c.seriesId _ st drained (le_refl _) hd (Or.inr ⟨c, hc, rfl⟩)
    refine ⟨s, hs, hst, ?_⟩
    intro hint
    have hdue := isDue_of_stamp t c.seriesId s hst hint
    refine ⟨?_, fakeEvents_of_not_due t drained c.seriesId s hs hdue⟩
    simp only [fabricatedRecord, hdue]
    cases s.qtSeries.getLast? <;> simp
  · intro st1 h
    exact drainUndoEvents_keeps lastUpdatedOf (fun _ _ => rfl) (fun _ _ => rfl) t _ st st1 h

/-- Witness of C29, scenario B in one call: the category series (interval 100) has one
real event stamped 0; the single call `timeAdvanced(250)` applies it and leaves
`lastUpdatedTime = 250`, so no event is fabricated although 250 - 0 >= 100: one sample,
one record. -/
theorem category_event_stamps_cursor_time_witness :
    timeAdvanced 250 Scenario.categoryTrace = some Scenario.categoryJumpTo250 ∧
    samplesOf Scenario.categoryJumpTo250 2 = some [{ x := 0, y := 2 }] ∧
    Scenario.categoryJumpTo250.undoEvents.length = 1 ∧
    (Scenario.categoryJumpTo250.series.map fun entry => (entry.1, lastUpdatedOf entry.2)) =
      [(2, some 250)] ∧
    ∃ s : CategoryValueTie,
      findSeries Scenario.categoryJumpTo250.series 2 = some (.category s) ∧
        s.lastUpdatedTime = 250 := by
  have h : handleEvent 250 (.categoryAddValue Scenario.categoryEvent) Scenario.categoryTrace =
      some (true, Scenario.categoryJumpTo250) := by
    with_unfolding_all decide
  exact ⟨by with_unfolding_all decide, by with_unfolding_all decide,
    by with_unfolding_all decide, by with_unfolding_all decide,
    (category_event_stamps_cursor_time 250 Scenario.categoryTrace).1 Scenario.categoryEvent
      Scenario.categoryJumpTo250 h⟩

/-! ## Ordering of the stack and the queue -/

theorem dropWhile_of_sorted (t : nanoseconds) (l : List ChartEvent)
    (h : l.Pairwise fun a b => a.time ≤ b.time) :
    ∀ e ∈ l.dropWhile (fun e => decide (e.time ≤ t)), t < e.time := by
  induction l with
  | nil => intro e he; simp at he
  | cons a l ih =>
    rw [List.pairwise_cons] at h
    by_cases ha : a.time ≤ t
    · simp only [List.dropWhile, ha, decide_True]
      exact ih h.2
    · simp only [List.dropWhile, ha, decide_False]
      intro e he
      rcases List.mem_cons.mp he with he | he
      · rw [he]; exact not_le.mp ha
      · exact lt_of_lt_of_le (not_le.mp ha) (h.1 e he)

theorem isFabricated_time (t : nanoseconds) (r : UndoEvent) (h : isFabricated t r) :
    r.event.time = t := by
  cases r with
  | categoryAddValue e => exact h
  | addValue e => exact absurd h (by simp [isFabricated])
  | addValues e => exact absurd h (by simp [isFabricated])
  | clear e => exact absurd h (by simp [isFabricated])

/-- A forward call to a time that no record exceeds keeps the event sequence sorted. -/
theorem timeAdvanced_sorted (t : nanoseconds) (st st1 : ChartManager)
    (hs : (eventSequence st).Pairwise fun a b => a.time ≤ b.time)
    (hu : ∀ r ∈ st.undoEvents, r.event.time ≤ t) (h : timeAdvanced t st = some st1) :
    (eventSequence st1).Pairwise (fun a b => a.time ≤ b.time) ∧
      ∀ r ∈ st1.undoEvents, r.event.time ≤ t := by
  unfold timeAdvanced at h
  cases hd : drainEvents t st.events.length st with
  | none => rw [hd] at h; simp at h
  | some st2 =>
    rw [hd] at h
    simp only [Option.map_some', Option.some.injEq] at h
    obtain ⟨hseq, _⟩ := drainEvents_eventSequence t st st2 hd
    obtain ⟨records, h1, h2, h3, _⟩ := drainEvents_shape t _ st st2 (le_refl _) hd
    have hsq : st.events.Pairwise fun a b => a.time ≤ b.time := by
      unfold eventSequence at hs
      exact (List.pairwise_append.mp hs).2.1
    have hq2 : ∀ e ∈ st2.events, t < e.time := by
      rw [h1]; exact dropWhile_of_sorted t st.events hsq
    have hu2 : ∀ r ∈ st2.undoEvents, r.event.time ≤ t := by
      intro r hr
      rw [h2] at hr
      rcases List.mem_append.mp hr with hr | hr
      · have hmem : r.event ∈ st.events.takeWhile (fun e => decide (e.time ≤ t)) := by
          rw [← h3]; exact List.mem_map.mpr ⟨r, List.mem_reverse.mp hr, rfl⟩
        simpa using List.mem_takeWhile_imp hmem
      · exact hu r hr
    have hs2 : (eventSequence st2).Pairwise fun a b => a.time ≤ b.time := by
      rw [hseq]; exact hs
    obtain ⟨g1, _, synth, g3, g4⟩ := foldl_fakeEvent_spec t (List.range st2.series.length) st2
    have hev : st1.events = st2.events := by rw [← h]; exact g1
    have hun : st1.undoEvents = synth ++ st2.undoEvents := by rw [← h]; exact g4
    constructor
    · unfold eventSequence at hs2 ⊢
      rw [hev, hun, List.reverse_append, List.map_append, List.append_assoc]
      obtain ⟨p1, p2, p3⟩ := List.pairwise_append.mp hs2
      rw [List.pairwise_append]
      refine ⟨p1, ?_, ?_⟩
      · rw [List.pairwise_append]
        refine ⟨?_, p2, ?_⟩
        · apply List.pairwise_of_forall_mem_list
          intro a ha b hb
          obtain ⟨r, hr, hra⟩ := List.mem_map.mp ha
          obtain ⟨r2, hr2, hrb⟩ := List.mem_map.mp hb
          rw [← hra, ← hrb, isFabricated_time t r (g3 r (List.mem_reverse.mp hr)),
            isFabricated_time t r2 (g3 r2 (List.mem_reverse.mp hr2))]
        · intro a ha b hb
          obtain ⟨r, hr, hra⟩ := List.mem_map.mp ha
          rw [← hra, isFabricated_time t r (g3 r (List.mem_reverse.mp hr))]
          exact le_of_lt (hq2 b hb)
      · intro a ha b hb
        obtain ⟨r, hr, hra⟩ := List.mem_map.mp ha
        have ha2 : a.time ≤ t := by rw [← hra]; exact hu2 r (List.mem_reverse.mp hr)
        rcases List.mem_append.mp hb with hb | hb
        · obtain ⟨r2, hr2, hrb⟩ := List.mem_map.mp hb
          rw [← hrb, isFabricated_time t r2 (g3 r2 (List.mem_reverse.mp hr2))]
          exact ha2
        · exact le_trans ha2 (le_of_lt (hq2 b hb))
    · intro r hr
      rw [hun] at hr
      rcases List.mem_append.mp hr with hr | hr
      · exact le_of_eq (isFabricated_time t r (g3 r hr))
      · exact hu2 r hr

theorem timeRewound_sorted (t T : nanoseconds) (st st1 : ChartManager)
    (hs : (eventSequence st).Pairwise fun a b => a.time ≤ b.time)
    (hu : ∀ r ∈ st.undoEvents, r.event.time ≤ T) (h : timeRewound t st = some st1) :
    (eventSequence st1).Pairwise (fun a b => a.time ≤ b.time) ∧
      ∀ r ∈ st1.undoEvents, r.event.time ≤ T := by
  obtain ⟨⟨popped, h1, _⟩, h2⟩ := timeRewound_eventSequence t st st1 h
  refine ⟨by rw [h2]; exact hs, ?_⟩
  intro r hr
  exact hu r (by rw [h1]; exact List.mem_append_right _ hr)

theorem runCalls_sorted (calls : List (nanoseconds × nanoseconds)) :
    ∀ (st st1 : ChartManager) (T : nanoseconds),
      (eventSequence st).Pairwise (fun a b => a.time ≤ b.time) →
      (∀ r ∈ st.undoEvents, r.event.time ≤ T) →
      (∀ t ∈ forwardTargets calls, T ≤ t) →
      (forwardTargets calls).Pairwise (fun a b => a ≤ b) →
      runCalls calls st = some st1 →
      (eventSequence st1).Pairwise fun a b => a.time ≤ b.time := by
  induction calls with
  | nil =>
    intro st st1 T hs _ _ _ h
    simp only [runCalls, Option.some.injEq] at h
    rw [← h]; exact hs
  | cons call calls ih =>
    intro st st1 T hs hu hT hfw h
    simp only [runCalls] at h
    cases hc : timeChanged call.1 call.2 st with
    | none => rw [hc] at h; simp at h
    | some st2 =>
      rw [hc] at h
      simp only [Option.some_bind] at h
      by_cases hinc : call.2 > 0
      · have htargets : forwardTargets (call :: calls) = call.1 :: forwardTargets calls := by
          simp [forwardTargets, List.filter_cons, hinc]
        rw [htargets] at hT hfw
        rw [List.pairwise_cons] at hfw
        have hle : T ≤ call.1 := hT call.1 (List.mem_cons_self _ _)
        simp only [timeChanged, hinc, if_true] at hc
        obtain ⟨g1, g2⟩ := timeAdvanced_sorted call.1 st st2 hs
          (fun r hr => le_trans (hu r hr) hle) hc
        exact ih st2 st1 call.1 g1 g2 hfw.1 hfw.2 h
      · have htargets : forwardTargets (call :: calls) = forwardTargets calls := by
          simp [forwardTargets, List.filter_cons, hinc]
        rw [htargets] at hT hfw
        simp only [timeChanged, hinc, if_false] at hc
        obtain ⟨g1, g2⟩ := timeRewound_sorted call.1 T st st2 hs hu hc
        exact ih st2 st1 T g1 g2 hT hfw h

/-- C23: if the forward queue is sorted by non-decreasing time, the undo stack is empty at
the start and the target times of the forward calls are non-decreasing, then after every
run of `timeChanged` calls the undo stack read from bottom to top followed by the forward
queue is sorted by non-decreasing event time, fabricated events included: the records lie
on the stack in the order in which their events were applied, so the events applied are in
non-decreasing time order, the stack is sorted, the queue is sorted, and no record is later
than a queued event. A `timeRewound` from such a state pops a top segment of the stack,
top first, and puts the events back at the front of the queue in the order in which they
had been applied: the records are inverted in exactly the reverse of that order, and the
queue stays sorted. -/
theorem replay_keeps_time_order (calls : List (nanoseconds × nanoseconds))
    (st0 st : ChartManager)
    (hq : st0.events.Pairwise fun a b => a.time ≤ b.time) (hu : st0.undoEvents = [])
    (hfw : (forwardTargets calls).Pairwise fun a b => a ≤ b)
    (hrun : runCalls calls st0 = some st) :
    (eventSequence st).Pairwise (fun a b => a.time ≤ b.time) ∧
    (st.undoEvents.reverse.map UndoEvent.event).Pairwise (fun a b => a.time ≤ b.time) ∧
    st.events.Pairwise (fun a b => a.time ≤ b.time) ∧
    (∀ r ∈ st.undoEvents, ∀ e ∈ st.events, r.event.time ≤ e.time) ∧
    ∀ t st1, timeRewound t st = some st1 →
      (∃ popped, st.undoEvents = popped ++ st1.undoEvents ∧
        st1.events = popped.reverse.map UndoEvent.event ++ st.events ∧
        (∀ r ∈ popped, t ≤ r.event.time)) ∧
      st1.events.Pairwise (fun a b => a.time ≤ b.time) ∧
      (st1.undoEvents.reverse.map UndoEvent.event).Pairwise fun a b => a.time ≤ b.time := by
  have hs0 : (eventSequence st0).Pairwise fun a b => a.time ≤ b.time := by
    simp only [eventSequence, hu, List.reverse_nil, List.map_nil, List.nil_append]
    exact hq
  have hT : ∀ t ∈ forwardTargets calls, (forwardTargets calls).head?.getD 0 ≤ t := by
    intro t ht
    cases hft : forwardTargets calls with
    | nil => rw [hft] at ht; simp at ht
    | cons a l =>
      rw [hft] at ht hfw
      simp only [List.head?_cons, Option.getD_some]
      rcases List.mem_cons.mp ht with h | h
      · rw [h]
      · exact (List.pairwise_cons.mp hfw).1 t h
  have hs := runCalls_sorted calls st0 st _ hs0 (by rw [hu]; simp) hT hfw hrun
  have hsplit := List.pairwise_append.mp hs
  refine ⟨hs, hsplit.1, hsplit.2.1, ?_, ?_⟩
  · intro r hr e he
    exact hsplit.2.2 r.event (List.mem_map.mpr ⟨r, List.mem_reverse.mpr hr, rfl⟩) e he
  · intro t st1 h
    obtain ⟨⟨popped, h1, h2⟩, h3⟩ := timeRewound_eventSequence t st st1 h
    have hs1 : (eventSequence st1).Pairwise fun a b => a.time ≤ b.time := by rw [h3]; exact hs
    have hsplit1 := List.pairwise_append.mp hs1
    refine ⟨⟨popped, h1, h2, ?_⟩, hsplit1.2.1, hsplit1.1⟩
    obtain ⟨g1, _, _⟩ := drainUndoEvents_spec t _ st st1 (le_refl _) h
    have hp : popped = st.undoEvents.takeWhile fun r => decide (t ≤ r.event.time) := by
      have e1 : popped ++ st1.undoEvents =
          (st.undoEvents.takeWhile fun r => decide (t ≤ r.event.time)) ++ st1.undoEvents := by
        rw [← h1, g1, List.takeWhile_append_dropWhile]
      exact List.append_cancel_right e1
    intro r hr
    rw [hp] at hr
    simpa using List.mem_takeWhile_imp hr

/-- Witness of C23: the category trace with its auto-advancing series, through the calls
(0, 1), (100, 100), (50, -50), (300, 250): forward targets 0, 100, 300. The final stack
holds, bottom to top, the real event stamped 0 and the fabricated event stamped 100, which
the last call applies again from the queue; the queue is empty. -/
theorem replay_keeps_time_order_witness :
    forwardTargets Scenario.zigzagCalls = [0, 100, 300] ∧
    runCalls Scenario.zigzagCalls Scenario.categoryTrace = some Scenario.categoryZigzag ∧
    (eventSequence Scenario.categoryZigzag).map ChartEvent.time = [0, 100] ∧
    Scenario.categoryZigzag.events = [] ∧
    (eventSequence Scenario.categoryZigzag).Pairwise (fun a b => a.time ≤ b.time) := by
  have h : runCalls Scenario.zigzagCalls Scenario.categoryTrace =
      some Scenario.categoryZigzag := by
    with_unfolding_all decide
  exact ⟨by decide, h, by with_unfolding_all decide, by with_unfolding_all decide,
    (replay_keeps_time_order Scenario.zigzagCalls Scenario.categoryTrace
      Scenario.categoryZigzag (by decide) (by decide) (by decide) h).1⟩

/-! ## The samples mirror the undo stack -/

theorem keys_of_declared {s1 s2 : List (Nat × TieVariant)} (h : declared s1 = declared s2) :
    s1.map Prod.fst = s2.map Prod.fst := by
  have := congrArg (List.map Prod.fst) h
  simpa [declared, List.map_map, Function.comp] using this

theorem samplesOf_of_registered (st : ChartManager) (e : ChartEvent)
    (h : targetsRegistered st.series e) : ∃ old, samplesOf st e.seriesId = some old := by
  obtain ⟨tie, hf, hk⟩ := findSeries_of_kind h
  unfold samplesOf
  rw [hf]
  cases tie with
  | xy s => exact ⟨_, rfl⟩
  | category s => exact ⟨_, rfl⟩
  | collection s => cases e <;> simp [tieKind, eventKind] at hk

theorem sFind_sSet_other (series : List (Nat × SampleTie)) (id id1 : Nat) (tie : SampleTie)
    (hne : id1 ≠ id) : sFind (sSet series id tie) id1 = sFind series id1 := by
  induction series with
  | nil => rfl
  | cons hd tl ih =>
    obtain ⟨k, v⟩ := hd
    by_cases hk : k = id
    · subst hk
      have : ¬ k = id1 := fun h => hne h.symm
      simp [sSet, sFind, this]
    · simp only [sSet, hk, if_false, sFind]
      by_cases hk1 : k = id1
      · simp [hk1]
      · simp only [hk1, if_false]; exact ih

theorem sApply_samples_other (e : ChartEvent) (c c1 : SampleState) (h : sApply e c = some c1)
    (id : Nat) (hne : id ≠ e.seriesId) : sSamples c1.series id = sSamples c.series id := by
  cases e <;> simp only [sApply] at h <;> split at h <;>
    simp only [Option.some.injEq, reduceCtorEq] at h <;> subst h <;>
    simp only [ChartEvent.seriesId] at hne <;>
    simp only [sSamples, sFind_sSet_other _ _ _ _ hne]

/-- The forward handler on a due event for a registered series: the record, the samples
of the target and of every other series. -/
theorem handleEvent_mirror (t : nanoseconds) (e : ChartEvent) (st : ChartManager)
    (hreg : targetsRegistered st.series e) (hdue : e.time ≤ t) (old : List QPointF)
    (hold : samplesOf st e.seriesId = some old) :
    ∃ (st1 : ChartManager) (r : UndoEvent), handleEvent t e st = some (true, st1) ∧
      st1.events = st.events.tail ∧ st1.undoEvents = r :: st.undoEvents ∧ r.event = e ∧
      (∀ x : undo.XYSeriesClear, r = .clear x → x.points = old) ∧
      samplesOf st1 e.seriesId = some (samplesAfter e old) ∧
      (∀ id, id ≠ e.seriesId → samplesOf st1 id = samplesOf st id) ∧
      declared st1.series = declared st.series := by
  obtain ⟨st1, r, h1, h2, h3, h4, _, _⟩ := handleEvent_applies t e st hreg hdue
  have hs := handleEvent_sample t e st hdue
  rw [h1] at hs
  have hap : sApply e (sampleState st) = some (sampleState st1) := by
    cases hq : sApply e (sampleState st) with
    | none => rw [hq] at hs; simp at hs
    | some c =>
      rw [hq] at hs
      simp only [Option.map_some', Option.some.injEq, Prod.mk.injEq, true_and] at hs
      rw [hs]
  have hold2 : sSamples (sampleState st).series e.seriesId = some old := by
    rw [← samplesOf_eq_sSamples]; exact hold
  obtain ⟨g1, g2⟩ := sApply_samples e _ _ old hap hold2
  refine ⟨st1, r, h1, h2, h3, h4, ?_, ?_, ?_, handleEvent_declared t e st st1 true h1⟩
  · intro x hx
    have he : e = .clear x.event := by rw [← h4, hx]; rfl
    have hhead := g2 x.event he
    have hu : (sampleState st1).undoEvents = st1.undoEvents := rfl
    rw [hu, h3, hx] at hhead
    simp only [List.head?_cons, Option.some.injEq, UndoEvent.clear.injEq] at hhead
    rw [hhead]
  · rw [samplesOf_eq_sSamples]; exact g1
  · intro id hne
    rw [samplesOf_eq_sSamples, samplesOf_eq_sSamples]
    exact sApply_samples_other e _ _ hap id hne

theorem mirrorCore_of_eq (st st1 : ChartManager) (hs : st1.series = st.series)
    (hu : st1.undoEvents = st.undoEvents) (h : MirrorCore st) : MirrorCore st1 := by
  refine ⟨?_, ?_, ?_, ?_⟩
  · intro id points hp
    rw [hu]
    apply h.samples id points
    unfold samplesOf at hp ⊢
    rw [← hs]; exact hp
  · rw [hu]; exact h.saved
  · rw [hu, hs]; exact h.records
  · rw [hs]; exact h.keys

/-- The forward handler keeps the samples in step with the stack. -/
theorem handleEvent_mirrorCore (t : nanoseconds) (e : ChartEvent) (st : ChartManager)
    (hreg : targetsRegistered st.series e) (hdue : e.time ≤ t) (h : MirrorCore st) :
    ∃ st1 : ChartManager, handleEvent t e st = some (true, st1) ∧ MirrorCore st1 ∧
      st1.events = st.events.tail ∧ declared st1.series = declared st.series := by
  obtain ⟨old, hold⟩ := samplesOf_of_registered st e hreg
  obtain ⟨st1, r, h1, h2, h3, h4, h5, h6, h7, h8⟩ :=
    handleEvent_mirror t e st hreg hdue old hold
  have hold2 := h.samples _ _ hold
  refine ⟨st1, h1, ⟨?_, ?_, ?_, ?_⟩, h2, h8⟩
  · intro id points hp
    rw [h3]
    by_cases hid : id = e.seriesId
    · subst hid
      rw [h6] at hp
      simp only [Option.some.injEq] at hp
      simp only [stackSamples, h4, if_true]
      rw [← hp, hold2]
    · rw [h7 id hid] at hp
      have hne : ¬ r.event.seriesId = id := by rw [h4]; exact fun h => hid h.symm
      simp only [stackSamples, hne, if_false]
      exact h.samples id points hp
  · rw [h3]
    refine ⟨?_, h.saved⟩
    intro c hc
    rw [h5 c hc, hold2]
    have : e.seriesId = c.event.seriesId := by rw [← h4, hc]; rfl
    rw [this]
  · intro r1 hr1
    rw [h3] at hr1
    apply targetsRegistered_of_declared h8
    rcases List.mem_cons.mp hr1 with hr1 | hr1
    · rw [hr1, h4]; exact hreg
    · exact h.records r1 hr1
  · rw [keys_of_declared h8]; exact h.keys

theorem set_eq_setSeries (series : List (Nat × TieVariant))
    (hnodup : (series.map Prod.fst).Nodup) :
    ∀ (i key : Nat) (tie tie1 : TieVariant), series.get? i = some (key, tie) →
      series.set i (key, tie1) = setSeries series key tie1 := by
  induction series with
  | nil => intro i key tie tie1 h; simp at h
  | cons hd tl ih =>
    obtain ⟨k, v⟩ := hd
    simp only [List.map_cons, List.nodup_cons] at hnodup
    intro i key tie tie1 hget
    cases i with
    | zero =>
      simp only [List.get?_cons_zero, Option.some.injEq, Prod.mk.injEq] at hget
      simp [setSeries, hget.1]
    | succ j =>
      simp only [List.get?_cons_succ] at hget
      have hmem : key ∈ tl.map Prod.fst :=
        List.mem_map.mpr ⟨(key, tie), List.get?_mem hget, rfl⟩
      have hne : ¬ k = key := fun h => hnodup.1 (h ▸ hmem)
      simp only [List.set_cons_succ, setSeries, hne, if_false]
      rw [ih hnodup.2 j key tie tie1 hget]

theorem handleEvent_category_eq (t : nanoseconds) (e : CategorySeriesAddValue)
    (st : ChartManager) (s : CategoryValueTie)
    (hf : findSeries st.series e.seriesId = some (.category s)) (hdue : e.time ≤ t) :
    handleEvent t (.categoryAddValue e) st =
      some (true,
        { st with
          series :=
            updateCollectionRanges
              (setSeries st.series e.seriesId
                (.category
                  { s with
                    xAxis := updateTracked s.model.xAxis.boundMode s.xAxis e.value
                    lastUpdatedTime := t
                    qtSeries := QXYSeries.append s.qtSeries e.value (e.category : ℚ) }))
              e.seriesId e.value (e.category : ℚ)
          undoEvents := .categoryAddValue { event := e } :: st.undoEvents
          events := st.events.tail }) := by
  have hnot : ¬ e.time > t := not_lt.mpr hdue
  simp only [handleEvent, ChartEvent.time, hnot, if_false, hf]

/-- With distinct keys, one pass of the fake-event loop either does nothing or does to the
registry and the stack what the forward handler does for the fabricated event. -/
theorem fakeEvent_as_handler (t : nanoseconds) (st : ChartManager) (i : Nat)
    (hkeys : (st.series.map Prod.fst).Nodup) :
    fakeEvent t st i = st ∨
      ∃ (fake : CategorySeriesAddValue) (st1 : ChartManager),
        fake.time = t ∧ targetsRegistered st.series (.categoryAddValue fake) ∧
        handleEvent t (.categoryAddValue fake) st = some (true, st1) ∧
        (fakeEvent t st i).series = st1.series ∧
        (fakeEvent t st i).undoEvents = st1.undoEvents ∧
        (fakeEvent t st i).events = st.events := by
  unfold fakeEvent
  split
  · rename_i key value hget
    have hfind : findSeries st.series key = some (.category value) :=
      findSeries_of_mem_nodup st.series hkeys key _ (List.get?_mem hget)
    split
    · exact Or.inl rfl
    · split
      · exact Or.inl rfl
      · rename_i lastValue hlast
        split
        · exact Or.inl rfl
        · right
          have hreg : targetsRegistered st.series
              (.categoryAddValue (fabricatedEvent t key value lastValue)) := by
            simp only [targetsRegistered, ChartEvent.seriesId, fabricatedEvent, hfind,
              Option.map_some', tieKind, eventKind]
          refine ⟨fabricatedEvent t key value lastValue, _, rfl, hreg,
            handleEvent_category_eq t (fabricatedEvent t key value lastValue) st value hfind
              (le_refl _), ?_, rfl, rfl⟩
          simp only [fabricatedEvent]
          rw [set_eq_setSeries st.series hkeys i key _ _ hget]
  · exact Or.inl rfl

theorem fakeEvent_mirrorCore (t : nanoseconds) (st : ChartManager) (i : Nat)
    (h : MirrorCore st) :
    MirrorCore (fakeEvent t st i) ∧ (fakeEvent t st i).events = st.events ∧
      declared (fakeEvent t st i).series = declared st.series := by
  refine ⟨?_, (fakeEvent_spec t st i).1, fakeEvent_declared t st i⟩
  rcases fakeEvent_as_handler t st i h.keys with h1 | ⟨fake, st1, hft, hreg, hh, hs, hu, _⟩
  · rw [h1]; exact h
  · obtain ⟨st2, g1, g2, _, _⟩ :=
      handleEvent_mirrorCore t (.categoryAddValue fake) st hreg (le_of_eq hft) h
    rw [hh] at g1
    simp only [Option.some.injEq, Prod.mk.injEq, true_and] at g1
    rw [← g1] at g2
    exact mirrorCore_of_eq st1 _ hs hu g2

theorem mirrored_of_core (st st1 : ChartManager) (h : Mirrored st) (hc : MirrorCore st1)
    (hd : declared st1.series = declared st.series) (hq : ∀ e ∈ st1.events, e ∈ st.events) :
    Mirrored st1 :=
  ⟨hc, fun e he => targetsRegistered_of_declared hd e (h.queue e (hq e he))⟩

theorem fakeEvents_mirrored (t : nanoseconds) (st : ChartManager) (h : Mirrored st) :
    Mirrored (fakeEvents t st) := by
  unfold fakeEvents
  generalize List.range st.series.length = l
  induction l generalizing st with
  | nil => exact h
  | cons i l ih =>
    rw [List.foldl_cons]
    obtain ⟨g1, g2, g3⟩ := fakeEvent_mirrorCore t st i h.core
    exact ih _ (mirrored_of_core st _ h g1 g3 (by rw [g2]; exact fun e he => he))

/-- The forward drain returns and keeps the invariant. -/
theorem drainEvents_mirrored (t : nanoseconds) (fuel : Nat) :
    ∀ st : ChartManager, Mirrored st →
      ∃ st1, drainEvents t fuel st = some st1 ∧ Mirrored st1 := by
  induction fuel with
  | zero => intro st h; exact ⟨st, rfl, h⟩
  | succ fuel ih =>
    intro st h
    cases hev : st.events with
    | nil => exact ⟨st, by simp only [drainEvents, hev], h⟩
    | cons front tl =>
      by_cases hdue : front.time ≤ t
      · have hreg := h.queue front (by rw [hev]; exact List.mem_cons_self _ _)
        obtain ⟨st1, g1, g2, g3, g4⟩ := handleEvent_mirrorCore t front st hreg hdue h.core
        have hm : Mirrored st1 :=
          mirrored_of_core st st1 h g2 g4 (by
            rw [g3, hev]; exact fun e he => List.mem_cons_of_mem _ he)
        obtain ⟨st2, k1, k2⟩ := ih st1 hm
        exact ⟨st2, by simp only [drainEvents, hev, g1]; exact k1, k2⟩
      · have hgt : front.time > t := not_le.mp hdue
        refine ⟨st, ?_, h⟩
        simp only [drainEvents, hev, handleEvent, hgt, if_true]

theorem timeAdvanced_mirrored (t : nanoseconds) (st : ChartManager) (h : Mirrored st) :
    ∃ st1, timeAdvanced t st = some st1 ∧ Mirrored st1 := by
  obtain ⟨st1, g1, g2⟩ := drainEvents_mirrored t st.events.length st h
  exact ⟨fakeEvents t st1, by simp only [timeAdvanced, g1, Option.map_some'],
    fakeEvents_mirrored t st1 g2⟩

/-- The backward handler on the top record of a mirrored state: it is defined, and the
samples are those the records below give. -/
theorem handleUndoEvent_mirror (t : nanoseconds) (r : UndoEvent) (st : ChartManager)
    (hback : t ≤ r.event.time) (hreg : targetsRegistered st.series r.event)
    (prev : List QPointF)
    (hs : samplesOf st r.event.seriesId = some (samplesAfter r.event prev))
    (hsaved : ∀ c : undo.XYSeriesClear, r = .clear c → c.points = prev) :
    ∃ st1 : ChartManager, handleUndoEvent t r st = some (true, st1) ∧
      samplesOf st1 r.event.seriesId = some prev ∧
      ∀ id, id ≠ r.event.seriesId → samplesOf st1 id = samplesOf st id := by
  have hnot : ¬ t > r.event.time := not_lt.mpr hback
  obtain ⟨tie, hf, hk⟩ := findSeries_of_kind hreg
  cases r with
  | addValue e =>
    cases tie with
    | xy s =>
      simp only [UndoEvent.event, ChartEvent.seriesId] at hf hs ⊢
      have hq : s.qtSeries = QXYSeries.append prev e.event.point.x e.event.point.y := by
        simpa [samplesOf, hf, samplesAfter, appended, QXYSeries.append] using hs
      have hrem := remove_append_last prev e.event.point.x e.event.point.y
      rw [← hq] at hrem
      refine ⟨_, (by
        simp only [handleUndoEvent, UndoEvent.event, ChartEvent.time] at hnot ⊢
        simp only [hnot, if_false, hf, hrem]
        rfl), ?_, ?_⟩
      · simp only [samplesOf, findSeries_setSeries_self _ _ _ _ hf]
      · intro id hne
        simp only [samplesOf, findSeries_setSeries_other _ _ _ _ hne]
    | collection s => simp [tieKind, eventKind, UndoEvent.event] at hk
    | category s => simp [tieKind, eventKind, UndoEvent.event] at hk
  | addValues e =>
    cases tie with
    | xy s =>
      simp only [UndoEvent.event, ChartEvent.seriesId] at hf hs ⊢
      have hq : s.qtSeries =
          e.event.points.foldl (fun acc p => QXYSeries.append acc p.x p.y) prev := by
        rw [foldl_append_eq]
        simpa [samplesOf, hf, samplesAfter, appended] using hs
      have hrem := removePoints_append_batch e.event.points prev
      rw [← hq] at hrem
      refine ⟨_, (by
        simp only [handleUndoEvent, UndoEvent.event, ChartEvent.time] at hnot ⊢
        simp only [hnot, if_false, hf, hrem]
        rfl), ?_, ?_⟩
      · simp only [samplesOf, findSeries_setSeries_self _ _ _ _ hf]
      · intro id hne
        simp only [samplesOf, findSeries_setSeries_other _ _ _ _ hne]
    | collection s => simp [tieKind, eventKind, UndoEvent.event] at hk
    | category s => simp [tieKind, eventKind, UndoEvent.event] at hk
  | clear e =>
    cases tie with
    | xy s =>
      simp only [UndoEvent.event, ChartEvent.seriesId] at hf hs ⊢
      have hp : e.points = prev := hsaved e rfl
      refine ⟨_, (by
        simp only [handleUndoEvent, UndoEvent.event, ChartEvent.time] at hnot ⊢
        simp only [hnot, if_false, hf]
        rfl), ?_, ?_⟩
      · simp only [samplesOf, findSeries_setSeries_self _ _ _ _ hf, hp]
      · intro id hne
        simp only [samplesOf, findSeries_setSeries_other _ _ _ _ hne]
    | collection s => simp [tieKind, eventKind, UndoEvent.event] at hk
    | category s => simp [tieKind, eventKind, UndoEvent.event] at hk
  | categoryAddValue e =>
    cases tie with
    | category s =>
      simp only [UndoEvent.event, ChartEvent.seriesId] at hf hs ⊢
      have hq : s.qtSeries = QXYSeries.append prev e.event.value (e.event.category : ℚ) := by
        simpa [samplesOf, hf, samplesAfter, appended, QXYSeries.append] using hs
      have hrem := remove_append_last prev e.event.value (e.event.category : ℚ)
      rw [← hq] at hrem
      refine ⟨_, (by
        simp only [handleUndoEvent, UndoEvent.event, ChartEvent.time] at hnot ⊢
        simp only [hnot, if_false, hf, hrem]
        rfl), ?_, ?_⟩
      · simp only [samplesOf, findSeries_setSeries_self _ _ _ _ hf]
      · intro id hne
        simp only [samplesOf, findSeries_setSeries_other _ _ _ _ hne]
    | collection s => simp [tieKind, eventKind, UndoEvent.event] at hk
    | xy s => simp [tieKind, eventKind, UndoEvent.event] at hk

/-- One continuing iteration of the backward loop keeps the invariant. -/
theorem handleUndoEvent_mirrored (t : nanoseconds) (r : UndoEvent) (below : List UndoEvent)
    (st : ChartManager) (h : Mirrored st) (hu : st.undoEvents = r :: below)
    (hback : t ≤ r.event.time) :
    ∃ st1 : ChartManager, handleUndoEvent t r st = some (true, st1) ∧
      Mirrored { st1 with undoEvents := st1.undoEvents.tail } := by
  have hreg := h.core.records r (by rw [hu]; exact List.mem_cons_self _ _)
  obtain ⟨pts, hpts⟩ := samplesOf_of_registered st r.event hreg
  have hmir := h.core.samples _ _ hpts
  rw [hu] at hmir
  simp only [stackSamples, if_true] at hmir
  have hsv := h.core.saved
  rw [hu] at hsv
  obtain ⟨hsv1, hsv2⟩ := hsv
  have hsaved : ∀ c : undo.XYSeriesClear, r = .clear c →
      c.points = stackSamples r.event.seriesId below := by
    intro c hc
    rw [hsv1 c hc, hc]; rfl
  obtain ⟨st1, g1, g2, g3⟩ := handleUndoEvent_mirror t r st hback hreg
    (stackSamples r.event.seriesId below) (by rw [hpts, hmir]) hsaved
  obtain ⟨_, k2, k3, _⟩ := handleUndoEvent_true t r st st1 g1
  have hd := handleUndoEvent_declared t r st st1 true g1
  have htail : st1.undoEvents.tail = below := by rw [k3, hu]; rfl
  refine ⟨st1, g1, ⟨⟨?_, ?_, ?_, ?_⟩, ?_⟩⟩
  · intro id points hp
    show points = stackSamples id st1.undoEvents.tail
    rw [htail]
    have hp1 : samplesOf st1 id = some points := hp
    by_cases hid : id = r.event.seriesId
    · rw [hid] at hp1 ⊢
      rw [g2] at hp1
      simp only [Option.some.injEq] at hp1
      exact hp1.symm
    · rw [g3 id hid] at hp1
      have := h.core.samples id points hp1
      rw [hu] at this
      have hne : ¬ r.event.seriesId = id := fun h => hid h.symm
      simpa only [stackSamples, hne, if_false] using this
  · show savedPoints st1.undoEvents.tail
    rw [htail]; exact hsv2
  · intro r1 hr1
    have hr2 : r1 ∈ st1.undoEvents.tail := hr1
    rw [htail] at hr2
    exact targetsRegistered_of_declared hd _
      (h.core.records r1 (by rw [hu]; exact List.mem_cons_of_mem _ hr2))
  · show (st1.series.map Prod.fst).Nodup
    rw [keys_of_declared hd]; exact h.core.keys
  · intro e he
    have he2 : e ∈ st1.events := he
    rw [k2] at he2
    apply targetsRegistered_of_declared hd
    rcases List.mem_cons.mp he2 with he2 | he2
    · rw [he2]; exact hreg
    · exact h.queue e he2

/-- The backward drain returns and keeps the invariant. -/
theorem drainUndoEvents_mirrored (t : nanoseconds) (fuel : Nat) :
    ∀ st : ChartManager, Mirrored st →
      ∃ st1, drainUndoEvents t fuel st = some st1 ∧ Mirrored st1 := by
  induction fuel with
  | zero => intro st h; exact ⟨st, rfl, h⟩
  | succ fuel ih =>
    intro st h
    cases hu : st.undoEvents with
    | nil => exact ⟨st, by simp only [drainUndoEvents, hu], h⟩
    | cons r below =>
      by_cases hback : t ≤ r.event.time
      · obtain ⟨st1, g1, g2⟩ := handleUndoEvent_mirrored t r below st h hu hback
        obtain ⟨st2, k1, k2⟩ := ih _ g2
        exact ⟨st2, by simp only [drainUndoEvents, hu, g1]; exact k1, k2⟩
      · have hgt : t > r.event.time := not_le.mp hback
        refine ⟨st, ?_, h⟩
        simp only [drainUndoEvents, hu, handleUndoEvent, hgt, if_true]

theorem runCommand_mirrored (command : Command) (st : ChartManager) (h : Mirrored st)
    (hreg : command.registered st.series = true) :
    ∃ st1, runCommand command st = some st1 ∧ Mirrored st1 ∧
      declared st1.series = declared st.series := by
  cases command with
  | enqueue e =>
    refine ⟨enqueueEvents e st, rfl, ⟨mirrorCore_of_eq st _ rfl rfl h.core, ?_⟩, rfl⟩
    intro ev hev
    have hev2 : ev ∈ st.events ++ e := hev
    rcases List.mem_append.mp hev2 with hev2 | hev2
    · exact h.queue ev hev2
    · simp only [Command.registered, List.all_eq_true, decide_eq_true_eq] at hreg
      exact hreg ev hev2
  | changeTime time increment =>
    by_cases hinc : increment > 0
    · obtain ⟨st1, g1, g2⟩ := timeAdvanced_mirrored time st h
      exact ⟨st1, by simp only [runCommand, timeChanged, hinc, if_true]; exact g1, g2,
        timeAdvanced_declared time st st1 g1⟩
    · obtain ⟨st1, g1, g2⟩ := drainUndoEvents_mirrored time st.undoEvents.length st h
      exact ⟨st1, by simp only [runCommand, timeChanged, hinc, if_false]; exact g1, g2,
        timeRewound_declared time st st1 g1⟩

theorem registered_of_declared {s1 s2 : List (Nat × TieVariant)}
    (h : declared s1 = declared s2) (command : Command)
    (hreg : command.registered s2 = true) : command.registered s1 = true := by
  cases command with
  | enqueue e =>
    simp only [Command.registered, List.all_eq_true, decide_eq_true_eq] at hreg ⊢
    exact fun ev hev => targetsRegistered_of_declared h ev (hreg ev hev)
  | changeTime time increment => rfl

theorem runCommands_mirrored (commands : List Command) :
    ∀ st st0 : ChartManager, Mirrored st → declared st.series = declared st0.series →
      (∀ command ∈ commands, command.registered st0.series = true) →
      ∃ st1, runCommands commands st = some st1 ∧ Mirrored st1 := by
  induction commands with
  | nil => intro st st0 h _ _; exact ⟨st, rfl, h⟩
  | cons command commands ih =>
    intro st st0 h hd hreg
    obtain ⟨st1, g1, g2, g3⟩ := runCommand_mirrored command st h
      (registered_of_declared hd command (hreg command (List.mem_cons_self _ _)))
    obtain ⟨st2, k1, k2⟩ := ih st1 st0 g2 (g3.trans hd)
      (fun c hc => hreg c (List.mem_cons_of_mem _ hc))
    exact ⟨st2, by simp only [runCommands, g1, Option.some_bind]; exact k1, k2⟩

theorem nodup_keys_emplaceSeries (series : List (Nat × TieVariant)) (id : Nat)
    (tie : TieVariant) (h : (series.map Prod.fst).Nodup) :
    ((emplaceSeries series id tie).map Prod.fst).Nodup := by
  unfold emplaceSeries
  cases hf : findSeries series id with
  | some _ => exact h
  | none =>
    simp only [List.map_append, List.map_cons, List.map_nil]
    rw [List.nodup_append]
    refine ⟨h, by simp, ?_⟩
    intro a ha hb
    simp only [List.mem_singleton] at hb
    subst hb
    obtain ⟨entry, he, hk⟩ := List.mem_map.mp ha
    obtain ⟨k, v⟩ := entry
    simp only at hk
    subst hk
    clear ha h
    induction series with
    | nil => simp at he
    | cons hd tl ih =>
      obtain ⟨k2, v2⟩ := hd
      by_cases hk2 : k2 = k
      · simp [findSeries, hk2] at hf
      · simp only [findSeries, hk2, if_false] at hf
        rcases List.mem_cons.mp he with he | he
        · simp only [Prod.mk.injEq] at he
          exact hk2 he.1.symm
        · exact ih he hf

theorem addSeries_nodup_keys (xySeries : List XYSeries) (collections : List SeriesCollection)
    (categoryValueSeries : List CategoryValueSeries) (s : ChartManager) :
    ((addSeries xySeries collections categoryValueSeries (reset s)).series.map Prod.fst).Nodup := by
  have h1 : ∀ (l : List SeriesCollection) (acc : ChartManager),
      (acc.series.map Prod.fst).Nodup → ((l.foldl addCollection acc).series.map Prod.fst).Nodup := by
    intro l
    induction l with
    | nil => intro acc h; exact h
    | cons c l ih =>
      intro acc h
      rw [List.foldl_cons]
      exact ih _ (nodup_keys_emplaceSeries _ _ _ h)
  have h2 : ∀ (l : List XYSeries) (acc : ChartManager),
      (acc.series.map Prod.fst).Nodup → ((l.foldl addXYSeries acc).series.map Prod.fst).Nodup := by
    intro l
    induction l with
    | nil => intro acc h; exact h
    | cons c l ih =>
      intro acc h
      rw [List.foldl_cons]
      exact ih _ (nodup_keys_emplaceSeries _ _ _ h)
  have h3 : ∀ (l : List CategoryValueSeries) (acc : ChartManager),
      (acc.series.map Prod.fst).Nodup →
      ((l.foldl addCategorySeries acc).series.map Prod.fst).Nodup := by
    intro l
    induction l with
    | nil => intro acc h; exact h
    | cons c l ih =>
      intro acc h
      rw [List.foldl_cons]
      exact ih _ (nodup_keys_emplaceSeries _ _ _ h)
  exact h3 _ _ (h2 _ _ (h1 _ _ (by simp [reset])))

theorem addSeries_mirrored (xySeries : List XYSeries) (collections : List SeriesCollection)
    (categoryValueSeries : List CategoryValueSeries) (s : ChartManager) :
    Mirrored (addSeries xySeries collections categoryValueSeries (reset s)) := by
  obtain ⟨e1, e2⟩ := addSeries_events xySeries collections categoryValueSeries (reset s)
  have hu : (addSeries xySeries collections categoryValueSeries (reset s)).undoEvents = [] := by
    rw [e2]; rfl
  have hq : (addSeries xySeries collections categoryValueSeries (reset s)).events = [] := by
    rw [e1]; rfl
  refine ⟨⟨?_, ?_, ?_, addSeries_nodup_keys _ _ _ s⟩, ?_⟩
  · intro id points hp
    rw [hu]
    exact samplesOf_of_tieSamples _
      (addSeries_tieSamples xySeries collections categoryValueSeries (reset s)
        (by intro entry he; simp [reset] at he)) id points hp
  · rw [hu]; trivial
  · intro r hr; rw [hu] at hr; simp at hr
  · intro e he; rw [hq] at he; simp at he

/-- C28: in every state reached from `reset` and `addSeries` by `enqueueEvents` and
`timeChanged` calls in any order, the events enqueued targeting registered series of the
matching kind, every call returns, and the sample sequence of each series is what the
events of the undo stack for that series give when replayed from the empty sequence in
bottom-to-top order (a clear empties, every other event appends). Consequently the
series of the top record holds at least as many samples as the record's event added, a
clear record stores the samples the records below it give, and `timeRewound` to any time
returns: no inversion removes a point at a negative index. -/
theorem samples_mirror_undo_stack (s : ChartManager) (xySeries : List XYSeries)
    (collections : List SeriesCollection) (categoryValueSeries : List CategoryValueSeries)
    (commands : List Command)
    (hreg : ∀ command ∈ commands,
      command.registered (addSeries xySeries collections categoryValueSeries (reset s)).series =
        true) :
    ∃ st, runCommands commands (addSeries xySeries collections categoryValueSeries (reset s)) =
        some st ∧
      (∀ id points, samplesOf st id = some points → points = stackSamples id st.undoEvents) ∧
      savedPoints st.undoEvents ∧
      (∀ r below points, st.undoEvents = r :: below →
        samplesOf st r.event.seriesId = some points →
          points = samplesAfter r.event (stackSamples r.event.seriesId below) ∧
          (isClear r.event = false → (appended r.event).length ≤ points.length)) ∧
      (∀ t, ∃ st1, timeRewound t st = some st1) ∧
      ∀ t, ∃ st1, timeAdvanced t st = some st1 := by
  obtain ⟨st, h1, h2⟩ := runCommands_mirrored commands _ _
    (addSeries_mirrored xySeries collections categoryValueSeries s) rfl hreg
  refine ⟨st, h1, h2.core.samples, h2.core.saved, ?_, ?_, ?_⟩
  · intro r below points hu hp
    have := h2.core.samples _ _ hp
    rw [hu] at this
    simp only [stackSamples, if_true] at this
    refine ⟨this, ?_⟩
    intro hc
    rw [this]
    cases hr : r.event with
    | clear x => rw [hr] at hc; simp [isClear] at hc
    | addValue x => simp [samplesAfter]
    | addValues x => simp [samplesAfter]
    | categoryAddValue x => simp [samplesAfter]
  · intro t
    obtain ⟨st1, g1, _⟩ := drainUndoEvents_mirrored t st.undoEvents.length st h2
    exact ⟨st1, g1⟩
  · intro t
    obtain ⟨st1, g1, _⟩ := timeAdvanced_mirrored t st h2
    exact ⟨st1, g1⟩

/-- Witness of C28: the point series 1 and the auto-advancing category series 2; two
points and a category sample are enqueued and applied by the call (9, 9), a clear stamped
200 is enqueued, the call (250, 241) applies it and fabricates a category sample, and the
call (100, -150) inverts both. The run returns and the samples are those the two records
left on the stack give. -/
theorem samples_mirror_undo_stack_witness :
    runCommands Scenario.mixedCommands Scenario.mixedRegistry = some Scenario.mixedCommanded ∧
    Scenario.mixedCommanded.undoEvents.map (fun r => r.event.time) = [5, 1] ∧
    samplesOf Scenario.mixedCommanded 1 = some [{ x := 1, y := 1 }, { x := 2, y := 4 }] ∧
    stackSamples 1 Scenario.mixedCommanded.undoEvents =
      [{ x := 1, y := 1 }, { x := 2, y := 4 }] ∧
    samplesOf Scenario.mixedCommanded 2 = some [{ x := 3, y := 0 }] ∧
    ∃ st, runCommands Scenario.mixedCommands Scenario.mixedRegistry = some st ∧
      ∀ id points, samplesOf st id = some points → points = stackSamples id st.undoEvents := by
  obtain ⟨st, h1, h2, _⟩ := samples_mirror_undo_stack Scenario.empty [Scenario.pointSeries] []
    [Scenario.categorySeries] Scenario.mixedCommands (by decide)
  exact ⟨by with_unfolding_all decide, by with_unfolding_all decide,
    by with_unfolding_all decide, by with_unfolding_all decide, by with_unfolding_all decide,
    st, h1, h2⟩

/-! ## The time test of the backward drain -/

theorem drainUndoEvents_inverts (t : nanoseconds) (fuel : Nat) :
    ∀ st st1 : ChartManager, st.undoEvents.length ≤ fuel →
      drainUndoEvents t fuel st = some st1 →
      invertRecords t (st.undoEvents.takeWhile fun r => decide (t ≤ r.event.time)) st =
        some st1 := by
  induction fuel with
  | zero =>
    intro st st1 hlen h
    have hnil : st.undoEvents = [] := List.length_eq_zero.mp (Nat.le_zero.mp hlen)
    simp only [drainUndoEvents, Option.some.injEq] at h
    rw [hnil, ← h]; rfl
  | succ fuel ih =>
    intro st st1 hlen h
    cases hu : st.undoEvents with
    | nil =>
      simp only [drainUndoEvents, hu, Option.some.injEq] at h
      rw [← h]; rfl
    | cons back tl =>
      simp only [drainUndoEvents, hu] at h
      cases hh : handleUndoEvent t back st with
      | none => rw [hh] at h; simp at h
      | some r =>
        obtain ⟨b, st2⟩ := r
        rw [hh] at h
        cases b with
        | false =>
          simp only [Option.some.injEq] at h
          obtain ⟨g1, g2⟩ := handleUndoEvent_false t back st st2 hh
          have hnot : ¬ t ≤ back.event.time := not_le.mpr g2
          rw [← h, g1]
          simp [List.takeWhile, hnot, invertRecords]
        | true =>
          simp only at h
          obtain ⟨g1, _, g3, _⟩ := handleUndoEvent_true t back st st2 hh
          have htl : ({ st2 with undoEvents := st2.undoEvents.tail } : ChartManager).undoEvents =
              tl := by
            show st2.undoEvents.tail = tl
            rw [g3, hu]; rfl
          have hlen2 :
              ({ st2 with undoEvents := st2.undoEvents.tail } : ChartManager).undoEvents.length ≤
                fuel := by
            rw [htl]; rw [hu] at hlen; simpa using hlen
          have := ih _ st1 hlen2 h
          rw [htl] at this
          simp only [List.takeWhile, g1, decide_True, invertRecords, hh]
          exact this

theorem takeWhile_dropWhile_nil {α : Type} (p : α → Bool) (l : List α) :
    (l.dropWhile p).takeWhile p = [] := by
  induction l with
  | nil => rfl
  | cons a l ih =>
    cases hp : p a with
    | true => simp only [List.dropWhile, hp]; exact ih
    | false => simp [List.dropWhile, List.takeWhile, hp]

/-- A backward call that finds no record stamped at or after its target changes nothing. -/
theorem timeRewound_of_none_due (t : nanoseconds) (st : ChartManager)
    (h : (st.undoEvents.takeWhile fun r => decide (t ≤ r.event.time)) = []) :
    timeRewound t st = some st := by
  unfold timeRewound
  cases hu : st.undoEvents with
  | nil => rfl
  | cons r rest =>
    rw [hu] at h
    have hnot : ¬ t ≤ r.event.time := by
      intro hle
      simp [List.takeWhile, hle] at h
    have hgt : t > r.event.time := not_le.mp hnot
    simp only [List.length_cons, drainUndoEvents, hu, handleUndoEvent, hgt, if_true]

theorem timeRewound_none_due_after (t : nanoseconds) (st st1 : ChartManager)
    (h : timeRewound t st = some st1) :
    (st1.undoEvents.takeWhile fun r => decide (t ≤ r.event.time)) = [] := by
  obtain ⟨h1, _, _⟩ := drainUndoEvents_spec t _ st st1 (le_refl _) h
  rw [h1]
  exact takeWhile_dropWhile_nil _ _

/-- C2 (amended): whenever `timeRewound(t)` returns, it has popped and inverted, top first,
exactly the records at the top of the undo stack whose original event time is greater than
or equal to t: the stack left is the old one from its first record stamped before t on, and
the events of the popped records are back at the front of the queue in application order.
An applied event whose time equals t is inverted: a top record stamped exactly t is
handled and popped. -/
theorem timeRewound_inverts_from_target_time (t : nanoseconds) (st st1 : ChartManager)
    (h : timeRewound t st = some st1) :
    st1.undoEvents = st.undoEvents.dropWhile (fun r => decide (t ≤ r.event.time)) ∧
    st1.events =
      ((st.undoEvents.takeWhile fun r => decide (t ≤ r.event.time)).reverse.map
        UndoEvent.event) ++ st.events ∧
    invertRecords t (st.undoEvents.takeWhile fun r => decide (t ≤ r.event.time)) st =
      some st1 ∧
    (∀ r ∈ st.undoEvents.takeWhile (fun r => decide (t ≤ r.event.time)), t ≤ r.event.time) ∧
    (st1.undoEvents = [] ∨
      ∃ top rest, st1.undoEvents = top :: rest ∧ top.event.time < t) ∧
    ∀ r rest, st.undoEvents = r :: rest → r.event.time = t →
      (∃ st2, handleUndoEvent t r st = some (true, st2)) ∧
      st1.undoEvents = rest.dropWhile (fun r => decide (t ≤ r.event.time)) ∧
      r.event ∈ st1.events := by
  obtain ⟨h1, h2, _⟩ := drainUndoEvents_spec t _ st st1 (le_refl _) h
  have h3 := drainUndoEvents_inverts t _ st st1 (le_refl _) h
  refine ⟨h1, h2, h3, ?_, ?_, ?_⟩
  · intro r hr
    simpa using List.mem_takeWhile_imp hr
  · rcases drainUndoEvents_exit t st st1 h with hnil | ⟨back, rest, hq, hh⟩
    · exact Or.inl hnil
    · exact Or.inr ⟨back, rest, hq, (handleUndoEvent_false t back st1 st1 hh).2⟩
  · intro r rest hu ht
    have hle : t ≤ r.event.time := le_of_eq ht.symm
    refine ⟨?_, ?_, ?_⟩
    · rw [hu] at h3
      simp only [List.takeWhile, hle, decide_True, invertRecords] at h3
      cases hh : handleUndoEvent t r st with
      | none => rw [hh] at h3; simp at h3
      | some x =>
        obtain ⟨b, st2⟩ := x
        cases b with
        | false => rw [hh] at h3; simp at h3
        | true => exact ⟨st2, rfl⟩
    · rw [h1, hu]
      simp only [List.dropWhile, hle, decide_True]
    · rw [h2, hu]
      simp only [List.takeWhile, hle, decide_True, List.reverse_cons, List.map_append,
        List.map_cons, List.map_nil, List.mem_append, List.mem_singleton, true_or, or_true]

/-- Witness of C2 (amended), scenario A: the event stamped 5 is applied by
`timeAdvanced(5)`; `timeRewound(5)` returns, the stack is empty, the event is back in the
queue and its sample is gone. -/
theorem timeRewound_inverts_from_target_time_witness :
    timeRewound 5 Scenario.pointAt5 = some Scenario.pointBackAt5 ∧
    Scenario.pointAt5.undoEvents.map (fun r => r.event.time) = [5] ∧
    samplesOf Scenario.pointAt5 1 = some [{ x := 1, y := 15 }] ∧
    Scenario.pointBackAt5.undoEvents =
      Scenario.pointAt5.undoEvents.dropWhile (fun r => decide (5 ≤ r.event.time)) ∧
    Scenario.pointBackAt5.undoEvents = [] ∧
    Scenario.pointBackAt5.events.map ChartEvent.time = [5] ∧
    samplesOf Scenario.pointBackAt5 1 = some [] := by
  have h : timeRewound 5 Scenario.pointAt5 = some Scenario.pointBackAt5 := by
    with_unfolding_all decide
  exact ⟨h, by with_unfolding_all decide, by with_unfolding_all decide,
    (timeRewound_inverts_from_target_time 5 Scenario.pointAt5 Scenario.pointBackAt5 h).1,
    by with_unfolding_all decide, by with_unfolding_all decide, by with_unfolding_all decide⟩

/-- C6 (amended): for every state `st` reached by a call `timeChanged(t, d)`, the
immediately following call `timeChanged(t, 0)` runs the backward drain at t. It changes
nothing at all (no sample, axis range, `lastUpdatedTime`, queue entry or stack entry, zero
records inverted) when no record at the top of the undo stack is stamped t or later, which
is always so after a backward call (d <= 0). Otherwise, for instance after a forward call
that applied an event stamped exactly t, it inverts the records stamped t or later; it
never changes an axis or a `lastUpdatedTime`, and one more repetition changes nothing. -/
theorem repeated_call_rewinds_to_target (t d : nanoseconds) (st0 st : ChartManager)
    (h : timeChanged t d st0 = some st) :
    ((st.undoEvents.takeWhile fun r => decide (t ≤ r.event.time)) = [] →
      timeChanged t 0 st = some st) ∧
    (d ≤ 0 → timeChanged t 0 st = some st) ∧
    ∀ st1, timeChanged t 0 st = some st1 →
      st1.undoEvents = st.undoEvents.dropWhile (fun r => decide (t ≤ r.event.time)) ∧
      st1.events =
        ((st.undoEvents.takeWhile fun r => decide (t ≤ r.event.time)).reverse.map
          UndoEvent.event) ++ st.events ∧
      registryAxes st1.series = registryAxes st.series ∧
      st1.series.map (fun entry => (entry.1, lastUpdatedOf entry.2)) =
        st.series.map (fun entry => (entry.1, lastUpdatedOf entry.2)) ∧
      timeChanged t 0 st1 = some st1 := by
  have hz : ∀ s : ChartManager, timeChanged t 0 s = timeRewound t s := by
    intro s
    simp only [timeChanged, gt_iff_lt, lt_self_iff_false, if_false]
  refine ⟨?_, ?_, ?_⟩
  · intro hnone
    rw [hz]; exact timeRewound_of_none_due t st hnone
  · intro hd
    have hback : timeRewound t st0 = some st := by
      simpa only [timeChanged, gt_iff_lt, not_lt.mpr hd, if_false] using h
    rw [hz]
    exact timeRewound_of_none_due t st (timeRewound_none_due_after t st0 st hback)
  · intro st1 h1
    rw [hz] at h1
    obtain ⟨g1, g2, _⟩ := drainUndoEvents_spec t _ st st1 (le_refl _) h1
    refine ⟨g1, g2, ?_, ?_, ?_⟩
    · exact drainUndoEvents_keeps axesOf (fun _ _ => rfl) (fun _ _ => rfl) t _ st st1 h1
    · exact drainUndoEvents_keeps lastUpdatedOf (fun _ _ => rfl) (fun _ _ => rfl) t _ st st1 h1
    · rw [hz]
      exact timeRewound_of_none_due t st1 (timeRewound_none_due_after t st st1 h1)

/-- Witness of C6 (amended), scenario A: the call (7, 7) applies the event stamped 5; no
record is stamped 7 or later, and the repeated call (7, 0) returns the same state. -/
theorem repeated_call_rewinds_to_target_witness :
    timeChanged 7 7 Scenario.pointTrace = some Scenario.pointAt5 ∧
    Scenario.pointAt5.undoEvents.map (fun r => r.event.time) = [5] ∧
    timeChanged 7 0 Scenario.pointAt5 = some Scenario.pointAt5 := by
  have h : timeChanged 7 7 Scenario.pointTrace = some Scenario.pointAt5 := by
    with_unfolding_all decide
  exact ⟨h, by with_unfolding_all decide,
    (repeated_call_rewinds_to_target 7 7 Scenario.pointTrace Scenario.pointAt5 h).1
      (by with_unfolding_all decide)⟩

end netsimulyzer
